import Mathlib

/-!
# esp32_devlog: early capture, line accumulator and retention ring

A shallow embedding of the two variants of the capture pipeline:

* `src/components/devlog/devlog.cpp` (the component variant, with the ring buffer
  `ringbuf_t`, used both for early capture and for retention), and
* `src/devlog.cpp` (the standalone variant, with the flat `early` buffer and the
  drop counter).

Conventions of the embedding.

* A `char` is modelled by its numeric value (`Byte := Nat`); only the values of
  carriage return (13) and line feed (10) and the bytes of the drop notice are ever
  inspected, so every statement proved for all naturals holds for the 256 values of
  a `char`.
* A pointer that may be `NULL` is an `Option`; the object it points to is held by value.
* A heap block is the list of its bytes; bytes the program has not written are `0`.
* The C statics are the fields of `State`; functions pass the state explicitly.
* Calls to the external sinks (`udp_sendto`, `fwrite`, `fclose`) are recorded, in call
  order, in the trace `State.out`.
* Integer arithmetic on buffer indices and sizes is exact: an index is bounded by the
  size of a block that was successfully allocated.  The drop counter `early.dropped`,
  which is incremented without any allocation, wraps as a 32-bit two's complement `int`.
* Undefined behaviour (a modulo by zero in the ring index arithmetic) is the result `none`.
* The outcome of an allocation or of taking the lock is an explicit argument.
-/

namespace Devlog

/-- One `char`, by its numeric value. -/
abbrev Byte := Nat

/-- Carriage return. -/
def CR : Byte := 13

/-- Line feed. -/
def LF : Byte := 10

/-! ## The ring buffer (`src/components/devlog/devlog.cpp`, lines 48-119) -/

/-- The struct `ringbuf_t`; `buffer` is the storage that follows the header. -/
structure ringbuf_t where
  start : Nat
  end_ : Nat
  active : Nat
  size : Nat
  buffer : List Byte
deriving DecidableEq, Repr

/-- Body of `rb_put` for a non-null ring: stores at `end`, advances `end`, and either counts
the byte or advances `start`.  The result is `none` when `size` is zero (modulo by zero). -/
def ringbuf_t.put (rb : ringbuf_t) (c : Byte) : Option ringbuf_t :=
  if rb.size = 0 then none
  else
    let buffer := rb.buffer.set rb.end_ c
    let end_ := (rb.end_ + 1) % rb.size
    if rb.active < rb.size then
      some { rb with buffer := buffer, end_ := end_, active := rb.active + 1 }
    else
      some { rb with buffer := buffer, end_ := end_, start := (rb.start + 1) % rb.size }

/-- Function `rb_put(rb, c)`: nothing happens for a null ring. -/
def rb_put (rb : Option ringbuf_t) (c : Byte) : Option (Option ringbuf_t) :=
  match rb with
  | none => some none
  | some r => (r.put c).map some

/-- Function `rb_get(rb, p)`: returns the ring afterwards and the byte taken, if any
(`none` for the byte is the C result `false`).  The modulo is undefined for size zero. -/
def rb_get (rb : Option ringbuf_t) : Option (Option ringbuf_t × Option Byte) :=
  match rb with
  | none => some (none, none)
  | some r =>
    if r.active = 0 then some (some r, none)
    else if r.size = 0 then none
    else
      some (some { r with start := (r.start + 1) % r.size, active := r.active - 1 },
            some (r.buffer.getD r.start 0))

/-- The copy loop of `rb_get_all`: `n` iterations remain, `i` is the loop counter, `pos` the
read index and `out` the bytes written to the destination so far.  The loop leaves through
`break` when `i == size`. -/
def rb_get_all_loop (r : ringbuf_t) (size : Int) :
    Nat → Nat → Nat → List Byte → Option (List Byte)
  | 0, _, _, out => some out
  | n + 1, i, pos, out =>
    if (i : Int) = size then some out
    else if r.size = 0 then none
    else rb_get_all_loop r size n (i + 1) ((pos + 1) % r.size) (out ++ [r.buffer.getD pos 0])

/-- Function `rb_get_all(rb, out, size, clear)`: returns the count, the bytes written to
`out` and the ring afterwards. -/
def rb_get_all (rb : Option ringbuf_t) (size : Int) (clear : Bool) :
    Option (Nat × List Byte × Option ringbuf_t) :=
  match rb with
  | none => some (0, [], none)
  | some r =>
    if r.active = 0 then some (0, [], some r)
    else
      match rb_get_all_loop r size r.active 0 r.start [] with
      | none => none
      | some out =>
        if clear then
          some (out.length, out, some { r with start := 0, end_ := 0, active := 0 })
        else
          some (out.length, out, some r)

/-! ## Shared state of the pipeline -/

/-- One call to an external collaborator, as recorded in the trace. -/
inductive Event
  | udp_sendto (pcb : Nat) (payload : List Byte) (ipa : Nat) (port : Int)
  | fwrite (file : Nat) (data : List Byte)
  | fclose (file : Nat)
  | udp_remove (pcb : Nat)
deriving DecidableEq, Repr

/-- The statics of `devlog.cpp` that the capture pipeline reads and writes, and the trace
`out` of the calls made to the sinks.  The standalone variant has no `dest_rb`; its
functions neither read nor write that field. -/
structure State where
  dest_file : Option Nat
  dest_pcb : Option Nat
  dest_ipa : Nat
  dest_port : Int
  log_buf : Option (List Byte)
  log_pos : Nat
  log_len : Nat
  dest_rb : Option ringbuf_t
  out : List Event
deriving DecidableEq, Repr

/-- Outcomes of the allocations attempted during one call of `devlog_putc`: the growing
`realloc`, the `pbuf_alloc` for the segment that starts at a given offset, and the
shrinking `realloc`. -/
structure Alloc where
  grow : Bool
  pbuf : Nat → Bool
  shrink : Bool

/-- Every allocation succeeds. -/
def Alloc.ok : Alloc := ⟨true, fun _ => true, true⟩

/-- Library `realloc(p, n)` when it succeeds: the first `n` bytes of the old block (none
for a null pointer) followed by fresh bytes up to the new size `n`. -/
def realloc (p : Option (List Byte)) (n : Nat) : List Byte :=
  let old := p.getD []
  old.take n ++ List.replicate (n - old.length) 0

/-- The increment and baseline of the accumulator (the literal `160` of the source). -/
def LOG_INCREMENT : Nat := 160

/-- First block of `devlog_putc` (component lines 198-206, standalone lines 76-84): grow the
accumulator by 160 bytes when it is absent or full. -/
def devlog_putc_grow (al : Alloc) (st : State) : State :=
  if st.log_buf = none ∨ st.log_pos = st.log_len then
    if al.grow then
      { st with log_buf := some (realloc st.log_buf (st.log_len + LOG_INCREMENT)),
                log_len := st.log_len + LOG_INCREMENT }
    else st
  else st

/-- The store `log_buf[log_pos++] = c`, guarded by `log_pos < log_len`. -/
def devlog_putc_store (st : State) (buf : List Byte) (c : Byte) : State :=
  if st.log_pos < st.log_len then
    { st with log_buf := some (buf.set st.log_pos c), log_pos := st.log_pos + 1 }
  else st

/-- Body of the `if (size)` block of the flush loop: the byte range `[s, s + size)` of the
accumulator is sent as one datagram (when `dest_pcb` is set and `pbuf_alloc` succeeds) and
then written to the file (when `dest_file` is set).  The lwIP and stdio functions are
external: the trace records the byte range handed to `pbuf_take` and to `fwrite`. -/
def devlog_putc_forward (al : Alloc) (st : State) (buf : List Byte) (s size : Nat)
    (out : List Event) : List Event :=
  let seg := (buf.drop s).take size
  let out1 :=
    match st.dest_pcb with
    | some pcb =>
      if al.pbuf s then out ++ [Event.udp_sendto pcb seg st.dest_ipa st.dest_port] else out
    | none => out
  match st.dest_file with
  | some f => out1 ++ [Event.fwrite f seg]
  | none => out1

/-- One iteration of `for (int i = 0, s = 0; i < log_pos; ++i)`; the loop state is the pair
of `s` and the trace.  (`vTaskDelay` has no effect on the modelled state.) -/
def devlog_putc_scan (al : Alloc) (st : State) (buf : List Byte) (acc : Nat × List Event)
    (i : Nat) : Nat × List Event :=
  if buf.getD i 0 = LF then
    let size := i - acc.1
    (i + 1, if size ≠ 0 then devlog_putc_forward al st buf acc.1 size acc.2 else acc.2)
  else acc

/-- The flush block of `devlog_putc` (component lines 217-261, standalone lines 95-139): scan
the accumulator, forward the segments, reset `log_pos`, shrink back to 160 bytes. -/
def devlog_putc_flush (al : Alloc) (st : State) (buf : List Byte) : State :=
  let r := (List.range st.log_pos).foldl (devlog_putc_scan al st buf) (0, st.out)
  let st1 := { st with out := r.2, log_pos := 0 }
  if st1.log_len > LOG_INCREMENT then
    if al.shrink then
      { st1 with log_buf := some (realloc (some buf) LOG_INCREMENT), log_len := LOG_INCREMENT }
    else st1
  else st1

/-- The part of `devlog_putc` under `if (log_buf)`, component variant (lines 208-263). -/
def devlog_putc_body (al : Alloc) (st : State) (c : Byte) : State :=
  match st.log_buf with
  | none => st
  | some buf =>
    let st1 := devlog_putc_store st buf c
    if c = LF ∧ (st1.dest_pcb.isSome ∨ st1.dest_file.isSome) then
      devlog_putc_flush al st1 (st1.log_buf.getD [])
    else st1

/-- The values of `errno` that the pipeline sets. -/
inductive Errno
  | EAGAIN
  | EINVAL
  | ENOMEM
  | EBADF
  | ENFILE
  | ENOENT
deriving DecidableEq, Repr

/-- The stream statics `f_stdout`, `f_stderr` (the two logical streams, once opened) and
`f_fwdout`, `f_fwderr` (the original streams kept for pass-through). -/
structure Streams where
  f_stdout : Option Nat
  f_stderr : Option Nat
  f_fwdout : Option Nat
  f_fwderr : Option Nat
deriving DecidableEq, Repr

/-- The constant `STDOUT_FD`. -/
def STDOUT_FD : Int := 1

/-- The constant `STDERR_FD`. -/
def STDERR_FD : Int := 2

/-- The locked block of `devlog_set_udp_destination` (component lines 439-453, standalone
lines 367-382): the new destination replaces the old one, whose control block, if any, is
then removed.  When the lock is not taken nothing happens. -/
def udp_install (acquired : Bool) (st : State) (pcb : Option Nat) (ipa : Nat) (port : Int) :
    State :=
  if acquired then
    let st1 := { st with dest_pcb := pcb, dest_ipa := ipa, dest_port := port }
    match st.dest_pcb with
    | some old => { st1 with out := st1.out ++ [Event.udp_remove old] }
    | none => st1
  else st

/-! ## Component variant (`src/components/devlog/devlog.cpp`) -/

namespace Component

/-- Function `devlog_putc` (lines 186-264); the lock is held by the caller.  The result is
`none` when the retention ring has size zero (modulo by zero in `rb_put`). -/
def devlog_putc (al : Alloc) (st : State) (c : Byte) : Option State :=
  if c = CR then some st
  else
    match rb_put st.dest_rb c with
    | none => none
    | some rb => some (devlog_putc_body al (devlog_putc_grow al { st with dest_rb := rb }) c)

/-- Bytes ingested one after the other (the loop of `devlog_vfs_write`, or successive calls
of `devlog_ets_putc`), each with the outcome of its allocations. -/
def ingest (st : State) : List (Alloc × Byte) → Option State
  | [] => some st
  | x :: rest =>
    match devlog_putc x.1 st x.2 with
    | none => none
    | some st1 => ingest st1 rest

/-- The drain loop `while (rb_get(dest_rb, &c)) rb_put(rb, c)` of
`devlog_set_retention_destination`, with `n` iterations allowed; `none` when the bound is
reached before `rb_get` fails, `some none` on undefined behaviour. -/
def drain : Nat → Option ringbuf_t → ringbuf_t → Option (Option (Option ringbuf_t × ringbuf_t))
  | 0, _, _ => none
  | n + 1, old, rb =>
    match rb_get old with
    | none => some none
    | some (old1, none) => some (some (old1, rb))
    | some (old1, some c) =>
      match rb.put c with
      | none => some none
      | some rb1 => drain n old1 rb1

/-- Function `devlog_set_retention_destination(size)` (lines 458-490): returns the C result
and the state, or `none` on undefined behaviour.  `malloc_ok` is the outcome of the
allocation, `acquired` that of taking the lock.  The drain loop takes at most `active`
iterations and one failing `rb_get`, so the bound given to `drain` is never reached
(`drain_bound_suffices`).  A negative `size` is outside the model. -/
def devlog_set_retention_destination (malloc_ok acquired : Bool) (st : State) (size : Nat) :
    Option (Int × State) :=
  if !malloc_ok then some (-1, st)
  else if acquired then
    let rb : ringbuf_t :=
      { start := 0, end_ := 0, active := 0, size := size, buffer := List.replicate size 0 }
    match st.dest_rb with
    | none => some (0, { st with dest_rb := some rb })
    | some old =>
      match drain (old.active + 1) (some old) rb with
      | some (some (_, rb1)) => some (0, { st with dest_rb := some rb1 })
      | _ => none
  else some (0, st)

/-- Function `devlog_get_retention_content(dest, size, clear)` (lines 492-504): returns the
count, the bytes written to `dest`, and the state. -/
def devlog_get_retention_content (acquired : Bool) (st : State) (size : Int) (clear : Bool) :
    Option (Nat × List Byte × State) :=
  if acquired then
    match rb_get_all st.dest_rb size clear with
    | none => none
    | some (cnt, written, rb) => some (cnt, written, { st with dest_rb := rb })
  else some (0, [], st)

/-- The constant `CONFIG_DEVLOG_EARLY_BUFFER_SIZE`, at its default. -/
def CONFIG_DEVLOG_EARLY_BUFFER_SIZE : Nat := 4096

/-- The static `early.rb` as initialised: an empty ring over `early.buffer`. -/
def early_rb : ringbuf_t :=
  { start := 0, end_ := 0, active := 0, size := CONFIG_DEVLOG_EARLY_BUFFER_SIZE,
    buffer := List.replicate CONFIG_DEVLOG_EARLY_BUFFER_SIZE 0 }

/-- Function `early_putc` (lines 147-158): a byte other than CR goes to the ring `dest_rb`
points to (initially `early.rb`). -/
def early_putc (acquired : Bool) (st : State) (c : Byte) : Option State :=
  if acquired then
    if c ≠ CR then
      match rb_put st.dest_rb c with
      | none => none
      | some rb => some { st with dest_rb := rb }
    else some st
  else some st

/-- The locked part of `devlog_full_init` (lines 336-368), with the early buffer enabled: the
bytes retained by the early ring are moved into a fresh accumulator of `len + 160` bytes
and `dest_rb` is cleared.  The result is `none` when `dest_rb` is null (it is dereferenced)
or the ring arithmetic is undefined. -/
def devlog_full_init (acquired malloc_ok : Bool) (st : State) : Option State :=
  if acquired then
    match st.dest_rb with
    | none => none
    | some r =>
      let len := r.active
      if malloc_ok then
        match rb_get_all (some r) (len : Int) true with
        | none => none
        | some (_, written, _) =>
          some { st with
            log_buf := some (written ++ List.replicate (len + LOG_INCREMENT - written.length) 0),
            log_pos := len, log_len := len + LOG_INCREMENT, dest_rb := none }
      else some { st with log_buf := none, dest_rb := none }
  else some st

/-- Function `devlog_ets_putc` (lines 266-274): one byte under one acquisition of the lock. -/
def devlog_ets_putc (acquired : Bool) (al : Alloc) (st : State) (c : Byte) : Option State :=
  if acquired then devlog_putc al st c else some st

/-- Function `devlog_vfs_write(fd, data, size)` (lines 276-306).  `data` carries, for each
byte, the outcome of the allocations of its `devlog_putc`; `fwd_written` is what `fwrite`
on the pass-through stream returns.  The result is the value returned, the `errno` set (if
any), the state, and the pass-through write made (stream and bytes), if any. -/
def devlog_vfs_write (ss : Streams) (acquired : Bool) (fwd_written : Nat) (st : State)
    (fd : Int) (data : List (Alloc × Byte)) :
    Option (Int × Option Errno × State × Option (Nat × List Byte)) :=
  if fd ≠ STDOUT_FD ∧ fd ≠ STDERR_FD then some (-1, some Errno.EBADF, st, none)
  else
    match (if acquired then ingest st data else some st) with
    | none => none
    | some st1 =>
      match (if fd = STDOUT_FD then ss.f_fwdout else none) with
      | some h => some ((fwd_written : Int), none, st1, some (h, data.map Prod.snd))
      | none =>
        match (if fd = STDERR_FD then ss.f_fwderr else none) with
        | some h => some ((fwd_written : Int), none, st1, some (h, data.map Prod.snd))
        | none => some ((data.length : Int), none, st1, none)

/-- Function `devlog_vfs_open(path, flags, mode)` (lines 308-332): the value returned and the
`errno` set, if any. -/
def devlog_vfs_open (ss : Streams) (path : Option String) : Int × Option Errno :=
  match path with
  | none => (-1, some Errno.EINVAL)
  | some p =>
    if ss.f_stdout.isSome ∧ ss.f_stderr.isSome then (-1, some Errno.ENFILE)
    else if p = "/o" then (STDOUT_FD, none)
    else if p = "/e" then (STDERR_FD, none)
    else (-1, some Errno.ENOENT)

/-- Function `devlog_set_file_destination(file)` (lines 400-410). -/
def devlog_set_file_destination (acquired : Bool) (st : State) (file : Option Nat) :
    Int × State :=
  (0, if acquired then { st with dest_file := file } else st)

/-- Function `devlog_set_udp_destination(addr, port)` (lines 412-456): the value returned, the
`errno` set (if any) and the state.  `lwip_ready` tells that `g_lwip_task` is not null,
`ipaddr_aton` is the parser of addresses, `udp_new` the outcome of creating a control
block, and `ipa_uninit` the content of the local `ipa` when no address is parsed. -/
def devlog_set_udp_destination (lwip_ready : Bool) (ipaddr_aton : String → Option Nat)
    (udp_new : Option Nat) (ipa_uninit : Nat) (acquired : Bool) (st : State)
    (addr : Option String) (port : Int) : Int × Option Errno × State :=
  if !lwip_ready then (-1, some Errno.EAGAIN, st)
  else
    match addr with
    | none => (0, none, udp_install acquired st none ipa_uninit port)
    | some a =>
      match ipaddr_aton a with
      | none => (-1, some Errno.EINVAL, st)
      | some ipa =>
        if port = 0 then (-1, some Errno.EINVAL, st)
        else
          match udp_new with
          | none => (-1, some Errno.ENOMEM, st)
          | some pcb => (0, none, udp_install acquired st (some pcb) ipa port)

/-- Successive calls of `early_putc`, one per byte, the lock acquired each time. -/
def early_write (st : State) : List Byte → Option State
  | [] => some st
  | c :: cs =>
    match early_putc true st c with
    | none => none
    | some st1 => early_write st1 cs

/-- The statics as initialised at program start with the early buffer enabled (lines 29-46
and 128-145): no sink, no accumulator, and `dest_rb` pointing to `early.rb`. -/
def boot_state : State :=
  { dest_file := none, dest_pcb := none, dest_ipa := 0, dest_port := 0, log_buf := none,
    log_pos := 0, log_len := 0, dest_rb := some early_rb, out := [] }

end Component

/-! ## Standalone variant (`src/devlog.cpp`) -/

namespace Standalone

/-- The constant `EARLY_BUFFER_SIZE`. -/
def EARLY_BUFFER_SIZE : Nat := 4096

/-- The static struct `early`. -/
structure early_t where
  pos : Nat
  dropped : Int
  buf : List Byte
deriving DecidableEq, Repr

/-- The zero-initialised `early`. -/
def early_init : early_t :=
  { pos := 0, dropped := 0, buf := List.replicate EARLY_BUFFER_SIZE 0 }

/-- Value of a 32-bit two's complement `int` after an arithmetic result `x`. -/
def wrap32 (x : Int) : Int := (x + 2147483648) % 4294967296 - 2147483648

/-- Function `early_putc` (lines 53-71); `acquired` is the outcome of taking the lock.
(`early.pos >= 0` holds of every `Nat`.) -/
def early_putc (acquired : Bool) (e : early_t) (c : Byte) : early_t :=
  if acquired then
    if e.pos < EARLY_BUFFER_SIZE then
      if c ≠ CR then { e with buf := e.buf.set e.pos c, pos := e.pos + 1 } else e
    else { e with dropped := wrap32 (e.dropped + 1) }
  else e

/-- Bytes written one after the other through `early_putc`, the lock taken each time. -/
def early_write (e : early_t) (cs : List Byte) : early_t :=
  cs.foldl (early_putc true) e

/-- The bytes of a string literal. -/
def bytes (s : String) : List Byte := s.toList.map Char.toNat

/-- Decimal digits of `n`, most significant first, prepended to `acc`; `fuel` bounds the
number of digits. -/
def decimalAux : Nat → Nat → List Byte → List Byte
  | 0, _, acc => acc
  | fuel + 1, n, acc =>
    let acc1 := (48 + n % 10) :: acc
    if n / 10 = 0 then acc1 else decimalAux fuel (n / 10) acc1

/-- The conversion `%d` of `printf`: an optional minus sign and the decimal digits. -/
def fmt_d (d : Int) : List Byte :=
  (if d < 0 then [45] else []) ++ decimalAux (d.natAbs + 1) d.natAbs []

/-- The number a string of decimal digits denotes. -/
def decimalValue (ds : List Byte) : Nat := ds.foldl (fun a x => 10 * a + (x - 48)) 0

/-- The text `sprintf(tmp, "\n*** %d bytes dropped during early logging\n", dropped)`
writes, without the terminating NUL. -/
def drop_notice (dropped : Int) : List Byte :=
  bytes "\n*** " ++ fmt_d dropped ++ bytes " bytes dropped during early logging\n"

/-- Library `memcpy(dst + off, src, src.length)`. -/
def blit (dst : List Byte) (off : Nat) (src : List Byte) : List Byte :=
  dst.take off ++ src ++ dst.drop (off + src.length)

/-- The locked part of `devlog_full_init` (lines 214-246): the early bytes and, when bytes
were dropped, the notice are copied into a fresh accumulator of `len + 160` bytes.
`malloc_ok` is the outcome of the allocation. -/
def devlog_full_init (acquired malloc_ok : Bool) (e : early_t) (st : State) : State :=
  if acquired then
    let tmp := if e.dropped ≠ 0 then drop_notice e.dropped else []
    let len := e.pos + tmp.length
    if malloc_ok then
      let block := List.replicate (len + LOG_INCREMENT) 0
      let block1 := blit block 0 (e.buf.take e.pos)
      let block2 := if e.dropped ≠ 0 then blit block1 e.pos (tmp ++ [0]) else block1
      { st with log_buf := some block2, log_pos := len, log_len := len + LOG_INCREMENT }
    else { st with log_buf := none }
  else st

/-- The part of `devlog_putc` under `if (log_buf)`, standalone variant (lines 86-141): a
carriage return is not stored. -/
def devlog_putc_body (al : Alloc) (st : State) (c : Byte) : State :=
  match st.log_buf with
  | none => st
  | some buf =>
    let st1 := if c ≠ CR then devlog_putc_store st buf c else st
    if c = LF ∧ (st1.dest_pcb.isSome ∨ st1.dest_file.isSome) then
      devlog_putc_flush al st1 (st1.log_buf.getD [])
    else st1

/-- Function `devlog_putc` (lines 74-142); the lock is held by the caller. -/
def devlog_putc (al : Alloc) (st : State) (c : Byte) : State :=
  devlog_putc_body al (devlog_putc_grow al st) c

/-- Bytes ingested one after the other, each with the outcome of its allocations. -/
def ingest (st : State) (xs : List (Alloc × Byte)) : State :=
  xs.foldl (fun s x => devlog_putc x.1 s x.2) st

/-- Function `devlog_set_file_destination(filename)` (lines 308-338): returns the C result
and the state.  `fopen` is the outcome of opening a path in append mode.  The handle
returned by `fopen` is bound to a variable `f` declared inside the `if` block; the `f`
assigned to `dest_file` is the outer one, which is still `NULL`. -/
def devlog_set_file_destination (fopen : String → Option Nat) (acquired : Bool) (st : State)
    (filename : Option String) : Int × State :=
  let f : Option Nat := none
  let failed : Bool :=
    match filename with
    | some name =>
      let f_inner := fopen name
      f_inner.isNone
    | none => false
  if failed then (-1, st)
  else
    let old : Option Nat := if acquired then st.dest_file else none
    let st1 := if acquired then { st with dest_file := f } else st
    match old with
    | some h => (0, { st1 with out := st1.out ++ [Event.fclose h] })
    | none => (0, st1)

/-- An early buffer holding "ab" with 12 bytes dropped. -/
def exampleEarly : early_t :=
  { pos := 2, dropped := 12, buf := [97, 98] ++ List.replicate 4094 0 }

/-- Function `devlog_ets_putc` (lines 144-152): one byte under one acquisition of the lock. -/
def devlog_ets_putc (acquired : Bool) (al : Alloc) (st : State) (c : Byte) : State :=
  if acquired then devlog_putc al st c else st

/-- Function `devlog_set_udp_destination(addr, port)` (lines 340-385); the arguments are
those of the component variant. -/
def devlog_set_udp_destination (lwip_ready : Bool) (ipaddr_aton : String → Option Nat)
    (udp_new : Option Nat) (ipa_uninit : Nat) (acquired : Bool) (st : State)
    (addr : Option String) (port : Int) : Int × Option Errno × State :=
  if !lwip_ready then (-1, some Errno.EAGAIN, st)
  else
    match addr with
    | none => (0, none, udp_install acquired st none ipa_uninit port)
    | some a =>
      match ipaddr_aton a with
      | none => (-1, some Errno.EINVAL, st)
      | some ipa =>
        if port = 0 then (-1, some Errno.EINVAL, st)
        else
          match udp_new with
          | none => (-1, some Errno.ENOMEM, st)
          | some pcb => (0, none, udp_install acquired st (some pcb) ipa port)

/-- The size of the local `char tmp[64]` of `devlog_full_init` that `sprintf` writes the
notice to. -/
def TMP_SIZE : Nat := 64

end Standalone

/-! ## Specification-level definitions -/

/-- The byte at logical offset `i` from the oldest retained byte. -/
def ringbuf_t.at (r : ringbuf_t) (i : Nat) : Byte := r.buffer.getD ((r.start + i) % r.size) 0

/-- The retained bytes, oldest first. -/
def ringbuf_t.contents (r : ringbuf_t) : List Byte := (List.range r.active).map r.at

/-- A ring of positive capacity whose indices are in range and consistent. -/
def ringbuf_t.WF (r : ringbuf_t) : Prop :=
  0 < r.size ∧ r.start < r.size ∧ r.active ≤ r.size ∧ r.buffer.length = r.size ∧
    r.end_ = (r.start + r.active) % r.size

instance (r : ringbuf_t) : Decidable r.WF := by
  unfold ringbuf_t.WF; infer_instance

/-- The last `n` elements of a list (the whole list when it is shorter). -/
def lastN (n : Nat) (l : List Byte) : List Byte := l.drop (l.length - n)

/-- A byte sequence with every carriage return removed. -/
def removeCR (cs : List Byte) : List Byte := cs.filter (fun c => c ≠ CR)

/-- The bytes held by the accumulator: the first `log_pos` bytes of `log_buf`. -/
def State.content (st : State) : List Byte := (st.log_buf.getD []).take st.log_pos

/-- The accumulator is consistent: without a block its length and capacity are zero, with
a block the capacity is the size of the block and the length does not exceed it. -/
def State.AccWF (st : State) : Prop :=
  match st.log_buf with
  | none => st.log_pos = 0 ∧ st.log_len = 0
  | some buf => buf.length = st.log_len ∧ st.log_pos ≤ st.log_len

instance (st : State) : Decidable st.AccWF := by
  unfold State.AccWF; split <;> infer_instance

/-- The complete lines of a byte sequence: its maximal newline-free runs that are
terminated by a newline, in order, each without the newline. -/
def completeLines (l : List Byte) : List (List Byte) := (l.splitOn LF).dropLast

/-- The trailing run of a byte sequence: what follows its last newline. -/
def trailingLine (l : List Byte) : List Byte := (l.splitOn LF).getLastD []

/-- The segments a flush forwards: the complete lines that are not empty. -/
def nonEmptyLines (l : List Byte) : List (List Byte) :=
  (completeLines l).filter (fun seg => seg ≠ [])

/-- The calls one segment gives rise to: a datagram when `dest_pcb` is set, then a write
when `dest_file` is set. -/
def dispatch (st : State) (seg : List Byte) : List Event :=
  (match st.dest_pcb with
    | some pcb => [Event.udp_sendto pcb seg st.dest_ipa st.dest_port]
    | none => []) ++
  (match st.dest_file with
    | some f => [Event.fwrite f seg]
    | none => [])

/-- The payloads of the datagrams of a trace, in order. -/
def udpPackets (out : List Event) : List (List Byte) :=
  out.filterMap (fun e => match e with
    | Event.udp_sendto _ payload _ _ => some payload
    | _ => none)

/-- The byte ranges written to the file in a trace, in order. -/
def fileWrites (out : List Event) : List (List Byte) :=
  out.filterMap (fun e => match e with
    | Event.fwrite _ data => some data
    | _ => none)

/-- Complete lines of `cur ++ l`, where `cur` is a newline-free run already read. -/
def linesFrom (cur : List Byte) : List Byte → List (List Byte)
  | [] => []
  | c :: cs => if c = LF then cur :: linesFrom [] cs else linesFrom (cur ++ [c]) cs

/-- Trailing run of `cur ++ l`, where `cur` is a newline-free run already read. -/
def tailFrom (cur : List Byte) : List Byte → List Byte
  | [] => cur
  | c :: cs => if c = LF then tailFrom [] cs else tailFrom (cur ++ [c]) cs

/-- Some sink is configured (the test `dest_pcb || dest_file`). -/
def State.hasSink (st : State) : Bool := st.dest_pcb.isSome || st.dest_file.isSome

/-- The non-empty maximal newline-free runs of a byte sequence, in order. -/
def nonEmptyRuns (l : List Byte) : List (List Byte) :=
  (l.splitOn LF).filter (fun seg => seg ≠ [])

/-- The ring, if any, has a positive size (so that `rb_put` is defined). -/
def State.ringOk (st : State) : Prop := ∀ r, st.dest_rb = some r → 0 < r.size

instance (st : State) : Decidable st.ringOk :=
  match h : st.dest_rb with
  | none => isTrue (fun r hr => by rw [h] at hr; cases hr)
  | some r0 =>
    if h0 : 0 < r0.size then
      isTrue (fun r hr => by rw [h] at hr; cases hr; exact h0)
    else
      isFalse (fun hall => h0 (hall r0 h))

/-- The sink configuration of `st1` is that of `st`. -/
def State.sameSinks (st st1 : State) : Prop :=
  st1.dest_pcb = st.dest_pcb ∧ st1.dest_file = st.dest_file ∧ st1.dest_ipa = st.dest_ipa ∧
    st1.dest_port = st.dest_port

instance (st st1 : State) : Decidable (st.sameSinks st1) := by
  unfold State.sameSinks; infer_instance

/-- Segments rejoined: each followed by a newline, then the bytes left over. -/
def rejoin (segs : List (List Byte)) (rest : List Byte) : List Byte :=
  (segs.map (fun seg => seg ++ [LF])).flatten ++ rest

/-- Removes every newline that ends an empty line; `atStart` tells that no byte of the
current line has been seen. -/
def dropEmptyLinesAux (atStart : Bool) : List Byte → List Byte
  | [] => []
  | c :: cs =>
    if c = LF then
      if atStart then dropEmptyLinesAux true cs else LF :: dropEmptyLinesAux true cs
    else c :: dropEmptyLinesAux false cs

/-- A byte sequence with its empty lines removed: every newline that begins the sequence or
directly follows another newline is dropped. -/
def dropEmptyLines (l : List Byte) : List Byte := dropEmptyLinesAux true l

/-- The early-buffer invariant of the standalone variant: the cursor is within the buffer of
4096 bytes, no stored byte is a CR, and the drop counter is a 32-bit `int`. -/
def Standalone.early_t.Inv (e : Standalone.early_t) : Prop :=
  e.pos ≤ Standalone.EARLY_BUFFER_SIZE ∧ e.buf.length = Standalone.EARLY_BUFFER_SIZE ∧
    CR ∉ e.buf.take e.pos ∧ -2147483648 ≤ e.dropped ∧ e.dropped < 2147483648

/-- The state `st` with its sink configuration replaced: file handle `f`, control block `p`,
address `a` and port `q` (what the destination setters do under the lock). -/
def State.setSinks (st : State) (f p : Option Nat) (a : Nat) (q : Int) : State :=
  { st with dest_file := f, dest_pcb := p, dest_ipa := a, dest_port := q }

/-! ## Worked examples -/

/-- A state used in the worked examples: no sink, no accumulator, no ring. -/
def exampleState : State :=
  { dest_file := none, dest_pcb := none, dest_ipa := 0, dest_port := 0, log_buf := none,
    log_pos := 0, log_len := 0, dest_rb := none, out := [] }

/-- Every allocation succeeding, for each byte of a sequence. -/
def allOk (cs : List Byte) : List (Alloc × Byte) := cs.map (fun c => (Alloc.ok, c))

/-- An empty ring of capacity 4. -/
def exampleRing4 : ringbuf_t :=
  { start := 0, end_ := 0, active := 0, size := 4, buffer := [0, 0, 0, 0] }

/-- A full ring of capacity 4 holding "ABCD", the oldest byte at index 1. -/
def exampleRingFull : ringbuf_t :=
  { start := 1, end_ := 1, active := 4, size := 4, buffer := [68, 65, 66, 67] }

/-- A state with a file sink, no accumulator yet and an empty trace. -/
def exampleFileState : State := { exampleState with dest_file := some 7 }

/-- A state with a datagram sink and a file sink, whose accumulator holds "ab\n\ncd" from
the time when no sink was configured. -/
def exampleDeferredState : State :=
  { exampleState with
    dest_file := some 7, dest_pcb := some 1, dest_ipa := 3232236033, dest_port := 514,
    log_buf := some ([97, 98, 10, 10, 99, 100] ++ List.replicate 154 0),
    log_pos := 6, log_len := 160 }

/-- The number of times a handle is closed in a trace. -/
def closeCount (h : Nat) (out : List Event) : Nat := out.count (Event.fclose h)

/-- A state with a file sink, a datagram sink, a non-empty accumulator and a non-empty trace. -/
def exampleBusyState : State :=
  { dest_file := some 7, dest_pcb := some 1, dest_ipa := 3232236033, dest_port := 514,
    log_buf := some ([104, 105] ++ List.replicate 158 0), log_pos := 2, log_len := 160,
    dest_rb := none, out := [Event.fwrite 7 [97]] }

/-- A parser of addresses that accepts "192.168.2.1" only. -/
def exampleAton (a : String) : Option Nat := if a = "192.168.2.1" then some 3232236033 else none

/-- The pass-through stream captured for a descriptor, if any. -/
def Streams.passThrough (ss : Streams) (fd : Int) : Option Nat :=
  if fd = STDOUT_FD then ss.f_fwdout else if fd = STDERR_FD then ss.f_fwderr else none

/-- Streams after the transition: both logical streams open, the original standard output
(handle 3) and standard error (handle 4) kept for pass-through. -/
def exampleStreams : Streams :=
  { f_stdout := some 11, f_stderr := some 12, f_fwdout := some 3, f_fwderr := some 4 }

/-- Streams before the logical streams are opened. -/
def exampleNoStreams : Streams :=
  { f_stdout := none, f_stderr := none, f_fwdout := none, f_fwderr := none }

/-- An allocated accumulator has at least the baseline capacity. -/
def State.capOk (st : State) : Prop :=
  match st.log_buf with
  | none => True
  | some _ => LOG_INCREMENT ≤ st.log_len

instance (st : State) : Decidable st.capOk := by
  unfold State.capOk; split <;> infer_instance

/-- The change of capacity one call of `devlog_putc` may make: none, a growth by exactly
160 from a full (or absent) buffer, or a reset to 160 after the flush a newline triggers
when a sink is set. -/
def State.capChange (st st1 : State) (c : Byte) : Prop :=
  st1.log_len = st.log_len ∨
    (st.log_pos = st.log_len ∧ st1.log_len = st.log_len + LOG_INCREMENT) ∨
    (c = LF ∧ st.hasSink = true ∧ st1.log_pos = 0 ∧ st1.log_len = LOG_INCREMENT)

/-- The store of `devlog_putc`, from the grown state `g`, writes inside the block: either
nothing is written or the index written is below the size of the block, which is the
capacity. -/
def State.writeInRange (g : State) (c : Byte) : Prop :=
  ∀ buf, g.log_buf = some buf →
    buf.length = g.log_len ∧
    (devlog_putc_store g buf c = g ∨
      (g.log_pos < buf.length ∧
        devlog_putc_store g buf c =
          { g with log_buf := some (buf.set g.log_pos c), log_pos := g.log_pos + 1 }))

/-- Statics before the transition, with the early ring of the component variant holding
"hi\n". -/
def exampleBootState : State :=
  { exampleState with
    dest_rb := some { start := 0, end_ := 3, active := 3, size := 8,
                      buffer := [104, 105, 10, 0, 0, 0, 0, 0] } }

/-- One call on a ring: `rb_put`, `rb_get` or `rb_get_all`. -/
inductive RingOp
  | put (c : Byte)
  | get
  | get_all (size : Int) (clear : Bool)

/-- The ring after one call (`none` on undefined behaviour). -/
def RingOp.apply (op : RingOp) (rb : Option ringbuf_t) : Option (Option ringbuf_t) :=
  match op with
  | RingOp.put c => rb_put rb c
  | RingOp.get => (rb_get rb).map Prod.fst
  | RingOp.get_all size clear => (rb_get_all rb size clear).map (fun r => r.2.2)

/-- The ring after a sequence of calls. -/
def runOps (rb : Option ringbuf_t) : List RingOp → Option (Option ringbuf_t)
  | [] => some rb
  | op :: rest =>
    match op.apply rb with
    | none => none
    | some rb1 => runOps rb1 rest

/-- The ring `devlog_set_retention_destination(0)` installs. -/
def exampleRing0 : ringbuf_t := { start := 0, end_ := 0, active := 0, size := 0, buffer := [] }

/-- One step of the code of a writer, as far as the lock and the shared statics are
concerned: `vPortCPUAcquireMutexTimeout(&lock, portMUX_NO_TIMEOUT)`, which returns once the
lock is taken; one call of `devlog_putc` (with the outcome of its allocations), which does
not look at the lock; `vPortCPUReleaseMutex(&lock)`. -/
inductive LockStep
  | acquire
  | putc (al : Alloc) (c : Byte)
  | release

/-- The steps of `devlog_vfs_write(fd, data, size)` on descriptor 1 or 2 (component variant,
lines 284-292): the lock is taken once, every byte of the buffer goes to `devlog_putc`, the
lock is released.  The pass-through write that follows does not touch the capture state. -/
def Component.devlog_vfs_write_steps (data : List (Alloc × Byte)) : List LockStep :=
  LockStep.acquire :: (data.map (fun x => LockStep.putc x.1 x.2) ++ [LockStep.release])

/-- Two writers running concurrently: the writer that holds the lock (if any), the shared
statics, and the steps each writer has still to make (`left` for writer `false`, `right` for
writer `true`). -/
structure Conc where
  owner : Option Bool
  st : State
  left : List LockStep
  right : List LockStep

/-- The two writers about to start, the lock free. -/
def Conc.start (st : State) (pa pb : List LockStep) : Conc :=
  { owner := none, st := st, left := pa, right := pb }

/-- The steps writer `t` has still to make. -/
def Conc.steps (c : Conc) (t : Bool) : List LockStep :=
  match t with
  | false => c.left
  | true => c.right

/-- The configuration after writer `t` has made a step: its remaining steps, the holder of
the lock and the statics afterwards. -/
def Conc.advance (c : Conc) (t : Bool) (rest : List LockStep) (owner : Option Bool)
    (st : State) : Conc :=
  match t with
  | false => { owner := owner, st := st, left := rest, right := c.right }
  | true => { owner := owner, st := st, left := c.left, right := rest }

/-- Writer `t` is scheduled and makes its next step.  A writer that has finished does nothing.
A writer at `acquire` takes the lock when it is free and otherwise keeps spinning (nothing
changes).  `devlog_putc` runs on the shared statics whoever holds the lock.  The result is
`none` when `devlog_putc` is undefined. -/
def Conc.step (c : Conc) (t : Bool) : Option Conc :=
  match c.steps t with
  | [] => some c
  | LockStep.acquire :: rest =>
    match c.owner with
    | none => some (c.advance t rest (some t) c.st)
    | some _ => some c
  | LockStep.putc al ch :: rest =>
    match Component.devlog_putc al c.st ch with
    | none => none
    | some s => some (c.advance t rest c.owner s)
  | LockStep.release :: rest => some (c.advance t rest none c.st)

/-- The configuration after the writers are scheduled in the order `sch` gives. -/
def Conc.run (c : Conc) : List Bool → Option Conc
  | [] => some c
  | t :: sch =>
    match c.step t with
    | none => none
    | some c1 => c1.run sch

/-- Both writers have made all their steps. -/
def Conc.finished (c : Conc) : Bool := c.left.isEmpty && c.right.isEmpty

/-- The state after the transition of the component variant from `exampleBootState`: no sink,
the accumulator holding the early bytes "hi\n". -/
def exampleCapturedState : State :=
  { exampleState with
    log_buf := some ([104, 105, 10] ++ List.replicate 160 0), log_pos := 3, log_len := 163 }

/-- The bounded queue of capacity `c` a ring is meant to be, after one call: `rb_put` appends
the byte and keeps the `c` most recent ones, `rb_get` removes the oldest, `rb_get_all`
removes everything when asked to clear and nothing otherwise. -/
def fifoStep (c : Nat) (q : List Byte) : RingOp → List Byte
  | RingOp.put b => lastN c (q ++ [b])
  | RingOp.get => q.tail
  | RingOp.get_all _ clear => if clear then [] else q

/-- The bounded queue after a sequence of calls: the retained bytes, oldest first. -/
def fifoRun (c : Nat) (q : List Byte) (ops : List RingOp) : List Byte :=
  ops.foldl (fifoStep c) q

/-! # Properties -/

/-! ## Ring buffer -/

theorem mod_add_inj {m a i j : Nat} (hi : i < m) (hj : j < m)
    (h : (a + i) % m = (a + j) % m) : i = j := by
  have h1 : i ≡ j [MOD m] := Nat.ModEq.add_left_cancel' a h
  exact Nat.ModEq.eq_of_lt_of_lt h1 hi hj

theorem contents_length (r : ringbuf_t) : r.contents.length = r.active := by
  simp [ringbuf_t.contents]

theorem put_not_full (r : ringbuf_t) (c : Byte) (h : r.WF) (hlt : r.active < r.size) :
    ∃ r1, r.put c = some r1 ∧ r1.WF ∧ r1.size = r.size ∧ r1.contents = r.contents ++ [c] := by
  obtain ⟨h0, hs, ha, hb, he⟩ := h
  refine ⟨{ r with buffer := r.buffer.set r.end_ c, end_ := (r.end_ + 1) % r.size,
                   active := r.active + 1 }, ?_, ?_, rfl, ?_⟩
  · simp [ringbuf_t.put, Nat.pos_iff_ne_zero.mp h0, hlt]
  · refine ⟨h0, hs, hlt, by simpa using hb, ?_⟩
    simp only [he, Nat.add_mod_mod, Nat.mod_add_mod]
    rw [Nat.add_assoc]
  · simp only [ringbuf_t.contents, List.range_succ, List.map_append, List.map_cons, List.map_nil]
    congr 1
    · apply List.map_congr_left
      intro i hi
      rw [List.mem_range] at hi
      simp only [ringbuf_t.at, he]
      rw [List.getD_eq_getElem?_getD, List.getD_eq_getElem?_getD, List.getElem?_set_ne]
      intro hEq
      have := mod_add_inj (by omega) (by omega) hEq
      omega
    · simp only [ringbuf_t.at, he]
      rw [List.getD_eq_getElem?_getD, List.getElem?_set_self]
      · rfl
      · rw [hb]; exact Nat.mod_lt _ h0

theorem tail_map_range (g : Nat → Byte) (k : Nat) :
    ((List.range (k + 1)).map g).tail = (List.range k).map (fun i => g (i + 1)) := by
  rw [List.range_succ_eq_map, List.map_cons, List.tail_cons, List.map_map]
  rfl

theorem put_full (r : ringbuf_t) (c : Byte) (h : r.WF) (hfull : r.active = r.size) :
    ∃ r1, r.put c = some r1 ∧ r1.WF ∧ r1.size = r.size ∧
      r1.contents = r.contents.tail ++ [c] := by
  obtain ⟨h0, hs, ha, hb, he⟩ := h
  have he' : r.end_ = r.start := by
    rw [he, hfull, Nat.add_mod_right, Nat.mod_eq_of_lt hs]
  refine ⟨{ r with buffer := r.buffer.set r.end_ c, end_ := (r.end_ + 1) % r.size,
                   start := (r.start + 1) % r.size }, ?_, ?_, rfl, ?_⟩
  · simp [ringbuf_t.put, Nat.pos_iff_ne_zero.mp h0, hfull]
  · refine ⟨h0, Nat.mod_lt _ h0, ha, by simpa using hb, ?_⟩
    simp only [he', hfull, Nat.add_mod_right, Nat.mod_mod]
  · obtain ⟨k, hk⟩ : ∃ k, r.size = k + 1 := ⟨r.size - 1, by omega⟩
    simp only [ringbuf_t.contents, hfull, hk]
    rw [tail_map_range, List.range_succ, List.map_append]
    simp only [List.map_cons, List.map_nil]
    congr 1
    · apply List.map_congr_left
      intro i hi
      rw [List.mem_range] at hi
      simp only [ringbuf_t.at, he', hk]
      rw [List.getD_eq_getElem?_getD, List.getD_eq_getElem?_getD, List.getElem?_set_ne]
      · rw [Nat.mod_add_mod, Nat.add_assoc, Nat.add_comm 1 i]
      · intro hEq
        rw [Nat.mod_add_mod, Nat.add_assoc] at hEq
        have h2 : r.start % (k + 1) = (r.start + (1 + i)) % (k + 1) := by
          rw [← hEq, Nat.mod_eq_of_lt (hk ▸ hs)]
        have h3 : (r.start + 0) % (k+1) = (r.start + (1 + i)) % (k + 1) := by simpa using h2
        have := mod_add_inj (by omega) (by omega) h3
        omega
    · simp only [ringbuf_t.at, he', hk]
      rw [Nat.mod_add_mod, Nat.add_assoc, Nat.add_comm 1 k, Nat.add_mod_right,
        Nat.mod_eq_of_lt (hk ▸ hs), List.getD_eq_getElem?_getD, List.getElem?_set_self]
      · rfl
      · rw [hb]; exact hs

theorem lastN_of_le {n : Nat} {l : List Byte} (h : l.length ≤ n) : lastN n l = l := by
  simp [lastN, Nat.sub_eq_zero_of_le h]

theorem lastN_length (n : Nat) (l : List Byte) : (lastN n l).length = min l.length n := by
  simp only [lastN, List.length_drop]; omega

theorem lastN_append_lastN (n : Nat) (l xs : List Byte) :
    lastN n (lastN n l ++ xs) = lastN n (l ++ xs) := by
  simp only [lastN, List.length_append, List.length_drop, List.drop_append_eq_append_drop,
    List.drop_drop]
  congr 2 <;> omega

/-- Effect of `rb_put` on a well-formed ring: the new byte is retained and at most the
`size` most recent bytes are kept. -/
theorem put_contents (r : ringbuf_t) (c : Byte) (h : r.WF) :
    ∃ r1, r.put c = some r1 ∧ r1.WF ∧ r1.size = r.size ∧
      r1.contents = lastN r.size (r.contents ++ [c]) := by
  by_cases hlt : r.active < r.size
  · obtain ⟨r1, h1, h2, h3, h4⟩ := put_not_full r c h hlt
    refine ⟨r1, h1, h2, h3, ?_⟩
    rw [h4, lastN_of_le]
    simp [contents_length]; omega
  · have hfull : r.active = r.size := by have := h.2.2.1; omega
    obtain ⟨r1, h1, h2, h3, h4⟩ := put_full r c h hfull
    refine ⟨r1, h1, h2, h3, ?_⟩
    rw [h4]
    have hl : r.contents.length = r.size := by rw [contents_length, hfull]
    have h0 := h.1
    cases hc : r.contents with
    | nil => rw [hc] at hl; simp at hl; omega
    | cons a t =>
      rw [hc] at hl
      simp only [List.length_cons] at hl
      simp [lastN, ← hl]

theorem rb_get_all_loop_eq (r : ringbuf_t) (sz : Nat) (h0 : 0 < r.size) :
    ∀ (n i : Nat) (out : List Byte), i ≤ sz →
      rb_get_all_loop r (sz : Int) n i ((r.start + i) % r.size) out =
        some (out ++ (List.range' i (min n (sz - i))).map r.at) := by
  intro n
  induction n with
  | zero => intro i out _; simp [rb_get_all_loop]
  | succ n ih =>
    intro i out hi
    by_cases hEq : i = sz
    · subst hEq
      simp [rb_get_all_loop]
    · have hne : ¬ ((i : Int) = (sz : Int)) := by exact_mod_cast hEq
      have hlt : i < sz := by omega
      have hm : min (n + 1) (sz - i) = min n (sz - (i + 1)) + 1 := by omega
      rw [rb_get_all_loop, if_neg hne, if_neg (Nat.pos_iff_ne_zero.mp h0), Nat.mod_add_mod,
        Nat.add_assoc, ih (i + 1) _ (by omega), hm, List.range'_succ]
      simp [ringbuf_t.at]

/-- The ring that `rb_get_all` leaves behind. -/
theorem rb_get_all_eq (r : ringbuf_t) (sz : Nat) (clear : Bool) (h0 : 0 < r.size)
    (hs : r.start < r.size) :
    rb_get_all (some r) (sz : Int) clear =
      some (min r.active sz, r.contents.take sz,
        some (if clear = true ∧ r.active ≠ 0 then
                { r with start := 0, end_ := 0, active := 0 } else r)) := by
  have hc : r.contents.take sz = (List.range' 0 (min r.active (sz - 0))).map r.at := by
    rw [ringbuf_t.contents, ← List.map_take, List.take_range, ← List.range_eq_range',
      Nat.sub_zero, Nat.min_comm]
  by_cases ha : r.active = 0
  · simp [rb_get_all, ha, ringbuf_t.contents]
  · have hl := rb_get_all_loop_eq r sz h0 r.active 0 [] (Nat.zero_le _)
    rw [Nat.add_zero, Nat.mod_eq_of_lt hs, List.nil_append, ← hc] at hl
    have hlen : (r.contents.take sz).length = min r.active sz := by
      rw [List.length_take, contents_length, Nat.min_comm]
    simp only [rb_get_all, if_neg ha, hl, hlen]
    cases clear <;> simp [ha]

theorem rb_get_some (r : ringbuf_t) (h0 : 0 < r.size) (hs : r.start < r.size)
    (ha : r.active ≠ 0) :
    ∃ r1, rb_get (some r) = some (some r1, some (r.at 0)) ∧ r1.size = r.size ∧
      r1.start < r1.size ∧ r1.active + 1 = r.active ∧ r.contents = r.at 0 :: r1.contents := by
  refine ⟨{ r with start := (r.start + 1) % r.size, active := r.active - 1 }, ?_, rfl,
    Nat.mod_lt _ h0, by simp; omega, ?_⟩
  · simp [rb_get, ha, Nat.pos_iff_ne_zero.mp h0, ringbuf_t.at, Nat.mod_eq_of_lt hs]
  · obtain ⟨k, hk⟩ : ∃ k, r.active = k + 1 := ⟨r.active - 1, by omega⟩
    simp only [ringbuf_t.contents, hk, Nat.add_sub_cancel]
    rw [List.range_succ_eq_map, List.map_cons, List.map_map]
    congr 1
    apply List.map_congr_left
    intro i _
    simp only [ringbuf_t.at, Function.comp, Nat.succ_eq_add_one]
    rw [Nat.mod_add_mod, Nat.add_assoc, Nat.add_comm 1 i]

theorem rb_get_all_loop_some (r : ringbuf_t) (size : Int) (h0 : 0 < r.size) :
    ∀ (n i pos : Nat) (out : List Byte), ∃ w, rb_get_all_loop r size n i pos out = some w := by
  intro n
  induction n with
  | zero => intro i pos out; exact ⟨out, rfl⟩
  | succ n ih =>
    intro i pos out
    rw [rb_get_all_loop]
    by_cases h : (i : Int) = size
    · exact ⟨out, by rw [if_pos h]⟩
    · rw [if_neg h, if_neg (Nat.pos_iff_ne_zero.mp h0)]
      exact ih _ _ _

theorem rb_get_all_clear (r : ringbuf_t) (size : Int) (h0 : 0 < r.size) :
    ∃ cnt w r1, rb_get_all (some r) size true = some (cnt, w, some r1) ∧ r1.active = 0 ∧
      r1.size = r.size := by
  by_cases ha : r.active = 0
  · exact ⟨0, [], r, by simp [rb_get_all, ha], ha, rfl⟩
  · obtain ⟨w, hw⟩ := rb_get_all_loop_some r size h0 r.active 0 r.start []
    exact ⟨w.length, w, { r with start := 0, end_ := 0, active := 0 },
      by simp [rb_get_all, ha, hw], rfl, rfl⟩

theorem rb_get_all_empty (r : ringbuf_t) (size : Int) (clear : Bool) (ha : r.active = 0) :
    rb_get_all (some r) size clear = some (0, [], some r) := by
  simp [rb_get_all, ha]

theorem contents_of_active_zero (r : ringbuf_t) (ha : r.active = 0) : r.contents = [] := by
  simp [ringbuf_t.contents, ha]

theorem drain_eq : ∀ (n : Nat) (old rb : ringbuf_t), 0 < old.size → old.start < old.size →
    old.active < n → rb.WF →
    ∃ old1 rb1, Component.drain n (some old) rb = some (some (some old1, rb1)) ∧ rb1.WF ∧
      rb1.size = rb.size ∧ old1.active = 0 ∧
      rb1.contents = lastN rb.size (rb.contents ++ old.contents) := by
  intro n
  induction n with
  | zero => intro old rb _ _ h; omega
  | succ n ih =>
    intro old rb h0 hs hn hrb
    by_cases ha : old.active = 0
    · refine ⟨old, rb, by simp [Component.drain, rb_get, ha], hrb, rfl, ha, ?_⟩
      rw [contents_of_active_zero old ha, List.append_nil, lastN_of_le]
      rw [contents_length]; exact hrb.2.2.1
    · obtain ⟨o1, hg, hsz, hst, hact, hcont⟩ := rb_get_some old h0 hs ha
      obtain ⟨rb1, hp, hwf, hsize, hc1⟩ := put_contents rb (old.at 0) hrb
      obtain ⟨o2, rb2, hd, hwf2, hsize2, hz, hc2⟩ :=
        ih o1 rb1 (by omega) hst (by omega) hwf
      refine ⟨o2, rb2, ?_, hwf2, by omega, hz, ?_⟩
      · simp only [Component.drain, hg, hp, hd]
      · rw [hc2, hc1, hsize, lastN_append_lastN, hcont, List.append_assoc]
        rfl

/-- The bound given to the drain loop is never reached: with more iterations allowed than
bytes retained, `drain` ends by a failing `rb_get` or by undefined behaviour. -/
theorem drain_bound_suffices : ∀ (n : Nat) (old rb : ringbuf_t), old.active < n →
    Component.drain n (some old) rb ≠ none := by
  intro n
  induction n with
  | zero => intro old rb h; omega
  | succ n ih =>
    intro old rb h
    by_cases ha : old.active = 0
    · simp [Component.drain, rb_get, ha]
    · by_cases hs : old.size = 0
      · simp [Component.drain, rb_get, ha, hs]
      · simp only [Component.drain, rb_get, ha, hs, if_false]
        cases hp : rb.put (old.buffer.getD old.start 0) with
        | none => simp
        | some rb1 =>
          simp only
          exact ih _ rb1 (by simp only; omega)

theorem devlog_putc_grow_frame (al : Alloc) (st : State) :
    (devlog_putc_grow al st).dest_rb = st.dest_rb ∧
    (devlog_putc_grow al st).dest_file = st.dest_file ∧
    (devlog_putc_grow al st).dest_pcb = st.dest_pcb ∧
    (devlog_putc_grow al st).dest_ipa = st.dest_ipa ∧
    (devlog_putc_grow al st).dest_port = st.dest_port ∧
    (devlog_putc_grow al st).log_pos = st.log_pos ∧
    (devlog_putc_grow al st).out = st.out := by
  unfold devlog_putc_grow
  split <;> [split; skip] <;> simp

theorem devlog_putc_store_frame (st : State) (buf : List Byte) (c : Byte) :
    (devlog_putc_store st buf c).dest_rb = st.dest_rb ∧
    (devlog_putc_store st buf c).dest_file = st.dest_file ∧
    (devlog_putc_store st buf c).dest_pcb = st.dest_pcb ∧
    (devlog_putc_store st buf c).dest_ipa = st.dest_ipa ∧
    (devlog_putc_store st buf c).dest_port = st.dest_port ∧
    (devlog_putc_store st buf c).log_len = st.log_len ∧
    (devlog_putc_store st buf c).out = st.out := by
  unfold devlog_putc_store
  split <;> simp

theorem devlog_putc_flush_frame (al : Alloc) (st : State) (buf : List Byte) :
    (devlog_putc_flush al st buf).dest_rb = st.dest_rb ∧
    (devlog_putc_flush al st buf).dest_file = st.dest_file ∧
    (devlog_putc_flush al st buf).dest_pcb = st.dest_pcb ∧
    (devlog_putc_flush al st buf).dest_ipa = st.dest_ipa ∧
    (devlog_putc_flush al st buf).dest_port = st.dest_port := by
  unfold devlog_putc_flush
  simp only
  split <;> [split; skip] <;> simp

theorem devlog_putc_body_frame (al : Alloc) (st : State) (c : Byte) :
    (devlog_putc_body al st c).dest_rb = st.dest_rb ∧
    (devlog_putc_body al st c).dest_file = st.dest_file ∧
    (devlog_putc_body al st c).dest_pcb = st.dest_pcb ∧
    (devlog_putc_body al st c).dest_ipa = st.dest_ipa ∧
    (devlog_putc_body al st c).dest_port = st.dest_port := by
  unfold devlog_putc_body
  split
  · simp
  · rename_i buf _
    have hs := devlog_putc_store_frame st buf c
    simp only
    split
    · have hf := devlog_putc_flush_frame al (devlog_putc_store st buf c)
        ((devlog_putc_store st buf c).log_buf.getD [])
      simp only [hf, hs, and_self]
    · simp only [hs, and_self]

theorem component_putc_ring (al : Alloc) (st : State) (c : Byte) (r : ringbuf_t)
    (hst : st.dest_rb = some r) (hwf : r.WF) :
    ∃ st1 r1, Component.devlog_putc al st c = some st1 ∧ st1.dest_rb = some r1 ∧ r1.WF ∧
      r1.size = r.size ∧ r1.contents = lastN r.size (r.contents ++ removeCR [c]) := by
  by_cases hc : c = CR
  · refine ⟨st, r, by simp [Component.devlog_putc, hc], hst, hwf, rfl, ?_⟩
    rw [hc, lastN_of_le]
    · simp [removeCR]
    · simp only [removeCR, List.filter_cons, List.filter_nil]
      simpa [contents_length] using hwf.2.2.1
  · obtain ⟨r1, hp, hwf1, hsz, hcont⟩ := put_contents r c hwf
    refine ⟨devlog_putc_body al (devlog_putc_grow al { st with dest_rb := some r1 }) c, r1,
      by simp only [Component.devlog_putc, if_neg hc, hst, rb_put, hp, Option.map_some'],
      ?_, hwf1, hsz, ?_⟩
    · rw [(devlog_putc_body_frame _ _ _).1, (devlog_putc_grow_frame _ _).1]
    · rw [hcont]; simp [removeCR, hc]

theorem component_ingest_ring : ∀ (xs : List (Alloc × Byte)) (st : State) (r : ringbuf_t),
    st.dest_rb = some r → r.WF →
    ∃ st1 r1, Component.ingest st xs = some st1 ∧ st1.dest_rb = some r1 ∧ r1.WF ∧
      r1.size = r.size ∧
      r1.contents = lastN r.size (r.contents ++ removeCR (xs.map Prod.snd)) := by
  intro xs
  induction xs with
  | nil =>
    intro st r hst hwf
    refine ⟨st, r, rfl, hst, hwf, rfl, ?_⟩
    rw [lastN_of_le]
    · simp [removeCR]
    · simpa [removeCR, contents_length] using hwf.2.2.1
  | cons x rest ih =>
    intro st r hst hwf
    obtain ⟨st1, r1, h1, hs1, hwf1, hsz1, hc1⟩ := component_putc_ring x.1 st x.2 r hst hwf
    obtain ⟨st2, r2, h2, hs2, hwf2, hsz2, hc2⟩ := ih st1 r1 hs1 hwf1
    refine ⟨st2, r2, by simp only [Component.ingest, h1, h2], hs2, hwf2, by omega, ?_⟩
    rw [hc2, hc1, hsz1, lastN_append_lastN, List.append_assoc]
    simp [removeCR, List.filter_cons]
    split <;> rfl

/-- An empty ring of capacity `c`, as `devlog_set_retention_destination(c)` creates it, is
well formed and holds nothing, whatever its storage contains. -/
theorem empty_ring_wf (r : ringbuf_t) (c : Nat) (hc : 0 < c)
    (hr : r.start = 0 ∧ r.end_ = 0 ∧ r.active = 0 ∧ r.size = c ∧ r.buffer.length = c) :
    r.WF ∧ r.contents = [] := by
  obtain ⟨h1, h2, h3, h4, h5⟩ := hr
  refine ⟨⟨by omega, by omega, by omega, by omega, ?_⟩, contents_of_active_zero r h3⟩
  rw [h1, h2, h3]; simp

/-- C3: after an empty retention ring of capacity `c > 0` is installed, for every byte
sequence ingested through `devlog_putc` (whatever the sinks, the accumulator, the newlines
and the outcome of each allocation), `devlog_get_retention_content` with `clear = false` and
a destination of size `n >= c` returns exactly the last `min(m, c)` bytes of the input with
CR removed, where `m` is the length of that CR-free input, and leaves the state unchanged. -/
theorem retention_returns_last_bytes (c : Nat) (hc : 0 < c) (st : State) (r : ringbuf_t)
    (hst : st.dest_rb = some r)
    (hr : r.start = 0 ∧ r.end_ = 0 ∧ r.active = 0 ∧ r.size = c ∧ r.buffer.length = c)
    (xs : List (Alloc × Byte)) (n : Nat) (hn : c ≤ n) :
    ∃ st1, Component.ingest st xs = some st1 ∧
      Component.devlog_get_retention_content true st1 (n : Int) false =
        some (min (removeCR (xs.map Prod.snd)).length c,
              lastN c (removeCR (xs.map Prod.snd)), st1) := by
  obtain ⟨hwf, hnil⟩ := empty_ring_wf r c hc hr
  obtain ⟨st1, r1, h1, hs1, hwf1, hsz1, hc1⟩ := component_ingest_ring xs st r hst hwf
  refine ⟨st1, h1, ?_⟩
  have hsize : r.size = c := hr.2.2.2.1
  rw [hnil, List.nil_append, hsize] at hc1
  have hlen : r1.active = min (removeCR (xs.map Prod.snd)).length c := by
    rw [← contents_length, hc1, lastN_length]
  have hle : r1.contents.length ≤ n := by
    rw [contents_length, hlen]; omega
  simp only [Component.devlog_get_retention_content, if_true, hs1,
    rb_get_all_eq r1 n false hwf1.1 hwf1.2.1]
  rw [List.take_of_length_le hle, hc1, hlen]
  have : min (min (removeCR (xs.map Prod.snd)).length c) n =
      min (removeCR (xs.map Prod.snd)).length c := by omega
  simp [this, ← hs1]

/-- Witness of C3: capacity 4 and input "ABCDE". -/
theorem retention_returns_last_bytes_witness :
    ∃ st1, Component.ingest { exampleState with dest_rb := some exampleRing4 }
        (allOk [65, 66, 67, 68, 69]) = some st1 ∧
      Component.devlog_get_retention_content true st1 4 false =
        some (4, [66, 67, 68, 69], st1) :=
  retention_returns_last_bytes 4 (by decide) { exampleState with dest_rb := some exampleRing4 }
    exampleRing4 rfl (by decide) (allOk [65, 66, 67, 68, 69]) 4 (by decide)

/-- C7: for a retention ring holding the bytes `old.contents` (oldest first) and a new size
`B > 0`, allocation succeeding, `devlog_set_retention_destination(B)` returns 0 and installs
a ring of capacity `B` that holds exactly the last `min(m, B)` of those bytes, in the same
order; nothing else in the state changes. -/
theorem resize_keeps_most_recent (st : State) (old : ringbuf_t) (hst : st.dest_rb = some old)
    (hold : old.WF) (B : Nat) (hB : 0 < B) :
    ∃ rb, Component.devlog_set_retention_destination true true st B =
        some (0, { st with dest_rb := some rb }) ∧
      rb.WF ∧ rb.size = B ∧ rb.contents = lastN B old.contents ∧
      rb.contents = old.contents.drop (old.active - B) ∧
      rb.contents.length = min old.active B := by
  have hnew := empty_ring_wf ⟨0, 0, 0, B, List.replicate B 0⟩ B hB ⟨rfl, rfl, rfl, rfl, by simp⟩
  obtain ⟨o1, rb1, hd, hwf, hsz, _, hc⟩ :=
    drain_eq (old.active + 1) old _ hold.1 hold.2.1 (Nat.lt_succ_self _) hnew.1
  rw [hnew.2, List.nil_append] at hc
  refine ⟨rb1, ?_, hwf, hsz, hc, ?_, ?_⟩
  · simp only [Component.devlog_set_retention_destination, hst, hd]
    simp
  · rw [hc, lastN, contents_length]
  · rw [hc, lastN_length, contents_length]

theorem exampleRingFull_wf : exampleRingFull.WF :=
  ⟨by decide, by decide, by decide, by decide, by decide⟩

/-- Witness of C7: a full ring of capacity 4 holding "ABCD" shrunk to capacity 2 holds "CD". -/
theorem resize_keeps_most_recent_witness :
    ∃ rb, Component.devlog_set_retention_destination true true
        { exampleState with dest_rb := some exampleRingFull } 2 =
        some (0, { exampleState with dest_rb := some rb }) ∧
      rb.WF ∧ rb.size = 2 ∧ rb.contents = lastN 2 [65, 66, 67, 68] ∧
      rb.contents = [67, 68] ∧ rb.contents.length = 2 :=
  resize_keeps_most_recent { exampleState with dest_rb := some exampleRingFull }
    exampleRingFull rfl exampleRingFull_wf 2 (by decide)

/-- C8: for a retention ring with `active` retained bytes and a destination capacity
`n >= 0`, `devlog_get_retention_content(dest, n, clear)` returns `min(active, n)` and writes
exactly that many bytes to `dest`, namely the oldest `min(active, n)` retained bytes in
oldest-first order; with `clear = false` the whole state, and so the ring, is unchanged. -/
theorem get_retention_content_returns_oldest (st : State) (r : ringbuf_t)
    (hst : st.dest_rb = some r) (hr : r.WF) (n : Nat) (clear : Bool) :
    (Component.devlog_get_retention_content true st (n : Int) clear).map
        (fun x => (x.1, x.2.1)) = some (min r.active n, r.contents.take (min r.active n)) ∧
      (r.contents.take (min r.active n)).length = min r.active n ∧
      Component.devlog_get_retention_content true st (n : Int) false =
        some (min r.active n, r.contents.take (min r.active n), st) := by
  have ht : r.contents.take (min r.active n) = r.contents.take n := by
    rw [List.take_eq_take, contents_length]; omega
  refine ⟨?_, ?_, ?_⟩
  · simp only [Component.devlog_get_retention_content, if_true, hst,
      rb_get_all_eq r n clear hr.1 hr.2.1, Option.map_some', ht]
  · rw [List.length_take, contents_length]; omega
  · simp only [Component.devlog_get_retention_content, if_true, hst,
      rb_get_all_eq r n false hr.1 hr.2.1, ht]
    simp [← hst]

/-- Witness of C8: the full ring holding "ABCD" read into a destination of 3 bytes. -/
theorem get_retention_content_returns_oldest_witness :
    (Component.devlog_get_retention_content true
        { exampleState with dest_rb := some exampleRingFull } 3 true).map
        (fun x => (x.1, x.2.1)) = some (3, [65, 66, 67]) ∧
      (exampleRingFull.contents.take 3).length = 3 ∧
      Component.devlog_get_retention_content true
        { exampleState with dest_rb := some exampleRingFull } 3 false =
        some (3, [65, 66, 67], { exampleState with dest_rb := some exampleRingFull }) :=
  get_retention_content_returns_oldest { exampleState with dest_rb := some exampleRingFull }
    exampleRingFull rfl exampleRingFull_wf 3 true

/-- C9: for every retention ring (of positive capacity, or empty) and every destination
capacity, `devlog_get_retention_content` with `clear = true` leaves the ring empty
(`active = 0`, so no returned byte is still retained), and a second call with no write in
between returns 0 bytes and changes nothing. -/
theorem get_retention_content_clear_empties (st : State) (r : ringbuf_t)
    (hst : st.dest_rb = some r) (hr : 0 < r.size ∨ r.active = 0) (n1 n2 : Int)
    (clear2 : Bool) :
    ∃ cnt w r1, Component.devlog_get_retention_content true st n1 true =
        some (cnt, w, { st with dest_rb := some r1 }) ∧
      r1.active = 0 ∧ r1.contents = [] ∧
      Component.devlog_get_retention_content true { st with dest_rb := some r1 } n2 clear2 =
        some (0, [], { st with dest_rb := some r1 }) := by
  have hex : ∃ cnt w r1, rb_get_all (some r) n1 true = some (cnt, w, some r1) ∧
      r1.active = 0 := by
    rcases hr with hr | hr
    · obtain ⟨cnt, w, r1, h1, ha, _⟩ := rb_get_all_clear r n1 hr
      exact ⟨cnt, w, r1, h1, ha⟩
    · exact ⟨0, [], r, rb_get_all_empty r n1 true hr, hr⟩
  obtain ⟨cnt, w, r1, h1, ha⟩ := hex
  refine ⟨cnt, w, r1, ?_, ha, contents_of_active_zero r1 ha, ?_⟩
  · simp only [Component.devlog_get_retention_content, if_true, hst, h1]
  · simp only [Component.devlog_get_retention_content, if_true, rb_get_all_empty r1 n2 clear2 ha]

/-- Witness of C9: the full ring holding "ABCD", read with `clear = true` and read again. -/
theorem get_retention_content_clear_empties_witness :
    ∃ cnt w r1, Component.devlog_get_retention_content true
        { exampleState with dest_rb := some exampleRingFull } 1024 true =
        some (cnt, w, { exampleState with dest_rb := some r1 }) ∧
      r1.active = 0 ∧ r1.contents = [] ∧
      Component.devlog_get_retention_content true { exampleState with dest_rb := some r1 }
        1024 false = some (0, [], { exampleState with dest_rb := some r1 }) :=
  get_retention_content_clear_empties { exampleState with dest_rb := some exampleRingFull }
    exampleRingFull rfl (Or.inl (by decide)) 1024 1024 false

theorem splitOnP_go_eq (l : List Byte) : ∀ acc : List Byte,
    List.splitOnP.go (fun x => x == LF) l acc =
      linesFrom acc.reverse l ++ [tailFrom acc.reverse l] := by
  induction l with
  | nil => intro acc; simp [List.splitOnP.go, linesFrom, tailFrom]
  | cons a t ih =>
    intro acc
    by_cases h : a = LF
    · simp [List.splitOnP.go, linesFrom, tailFrom, h, ih]
    · simp [List.splitOnP.go, linesFrom, tailFrom, h, ih]

theorem splitOn_eq (l : List Byte) : l.splitOn LF = linesFrom [] l ++ [tailFrom [] l] := by
  have := splitOnP_go_eq l []
  simpa [List.splitOn, List.splitOnP] using this

theorem completeLines_eq (l : List Byte) : completeLines l = linesFrom [] l := by
  rw [completeLines, splitOn_eq, List.dropLast_concat]

theorem trailingLine_eq (l : List Byte) : trailingLine l = tailFrom [] l := by
  rw [trailingLine, splitOn_eq]; simp

theorem linesFrom_snoc (l : List Byte) (x : Byte) : ∀ cur : List Byte,
    linesFrom cur (l ++ [x]) =
      if x = LF then linesFrom cur l ++ [tailFrom cur l] else linesFrom cur l := by
  induction l with
  | nil => intro cur; by_cases h : x = LF <;> simp [linesFrom, tailFrom, h]
  | cons a t ih =>
    intro cur
    rw [List.cons_append]
    by_cases ha : a = LF
    · rw [linesFrom, linesFrom, tailFrom, if_pos ha, if_pos ha, if_pos ha, ih]
      split <;> simp
    · rw [linesFrom, linesFrom, tailFrom, if_neg ha, if_neg ha, if_neg ha, ih]

theorem tailFrom_snoc (l : List Byte) (x : Byte) : ∀ cur : List Byte,
    tailFrom cur (l ++ [x]) = if x = LF then [] else tailFrom cur l ++ [x] := by
  induction l with
  | nil => intro cur; by_cases h : x = LF <;> simp [tailFrom, h]
  | cons a t ih =>
    intro cur
    rw [List.cons_append]
    by_cases ha : a = LF
    · rw [tailFrom, tailFrom, if_pos ha, if_pos ha, ih]
    · rw [tailFrom, tailFrom, if_neg ha, if_neg ha, ih]

theorem completeLines_snoc (l : List Byte) (x : Byte) :
    completeLines (l ++ [x]) =
      if x = LF then completeLines l ++ [trailingLine l] else completeLines l := by
  simp only [completeLines_eq, trailingLine_eq, linesFrom_snoc]

theorem trailingLine_snoc (l : List Byte) (x : Byte) :
    trailingLine (l ++ [x]) = if x = LF then [] else trailingLine l ++ [x] := by
  simp only [trailingLine_eq, tailFrom_snoc]

theorem trailingLine_suffix (l : List Byte) : trailingLine l <:+ l := by
  induction l using List.reverseRecOn with
  | nil => simp [trailingLine_eq, tailFrom]
  | append_singleton l x ih =>
    rw [trailingLine_snoc]
    split
    · exact List.nil_suffix
    · obtain ⟨pre, hpre⟩ := ih
      exact ⟨pre, by rw [← List.append_assoc, hpre]⟩

/-- Rejoining the complete lines, each followed by a newline, and the trailing run gives
back the sequence. -/
theorem rejoin_lines (l : List Byte) :
    ((completeLines l).map (fun seg => seg ++ [LF])).flatten ++ trailingLine l = l := by
  induction l using List.reverseRecOn with
  | nil => simp [completeLines_eq, trailingLine_eq, linesFrom, tailFrom]
  | append_singleton l x ih =>
    rw [completeLines_snoc, trailingLine_snoc]
    by_cases h : x = LF
    · simp only [h, if_true, List.map_append, List.flatten_append, List.map_cons, List.map_nil,
        List.flatten_cons, List.flatten_nil, List.append_nil]
      rw [← List.append_assoc, ih]
    · simp only [h, if_false]
      rw [← List.append_assoc, ih]

theorem forward_eq (al : Alloc) (st : State) (buf : List Byte) (s size : Nat)
    (out : List Event) (hp : al.pbuf s = true) :
    devlog_putc_forward al st buf s size out = out ++ dispatch st ((buf.drop s).take size) := by
  unfold devlog_putc_forward dispatch
  cases st.dest_pcb <;> cases st.dest_file <;> simp [hp]

theorem nonEmptyLines_snoc (l : List Byte) (x : Byte) :
    nonEmptyLines (l ++ [x]) =
      if x = LF ∧ trailingLine l ≠ [] then nonEmptyLines l ++ [trailingLine l]
      else nonEmptyLines l := by
  unfold nonEmptyLines
  rw [completeLines_snoc]
  by_cases hx : x = LF
  · by_cases ht : trailingLine l = []
    · simp [hx, ht]
    · simp [hx, ht]
  · simp [hx]

theorem segment_of_suffix (buf tl : List Byte) (n : Nat) (hn : n ≤ buf.length)
    (h : tl <:+ buf.take n) : (buf.drop (n - tl.length)).take tl.length = tl := by
  obtain ⟨pre, hpre⟩ := h
  have hlen : pre.length + tl.length = n := by
    have := congrArg List.length hpre
    simp only [List.length_append, List.length_take] at this
    omega
  have hbuf : buf = pre ++ (tl ++ buf.drop n) := by
    rw [← List.append_assoc, hpre, List.take_append_drop]
  have hd : n - tl.length = pre.length := by omega
  rw [hd]
  conv_lhs => rw [hbuf]
  rw [List.drop_left, List.take_left]

theorem scan_range (al : Alloc) (st : State) (buf : List Byte) (out0 : List Event)
    (hp : ∀ s, al.pbuf s = true) :
    ∀ n, n ≤ buf.length →
      (List.range n).foldl (devlog_putc_scan al st buf) (0, out0) =
        (n - (trailingLine (buf.take n)).length,
         out0 ++ (nonEmptyLines (buf.take n)).flatMap (dispatch st)) := by
  intro n
  induction n with
  | zero =>
    intro _
    simp [nonEmptyLines, completeLines_eq, linesFrom]
  | succ n ih =>
    intro hn
    have hlt : n < buf.length := hn
    have htake : buf.take (n + 1) = buf.take n ++ [buf.getD n 0] := by
      rw [List.take_succ, List.getD_eq_getElem?_getD, List.getElem?_eq_getElem hlt]
      rfl
    have hsuf := trailingLine_suffix (buf.take n)
    have htl : (trailingLine (buf.take n)).length ≤ n := by
      have := hsuf.length_le
      simp only [List.length_take] at this
      omega
    rw [List.range_succ, List.foldl_append, ih (by omega), htake, nonEmptyLines_snoc,
      trailingLine_snoc]
    simp only [List.foldl_cons, List.foldl_nil, devlog_putc_scan]
    by_cases hx : buf.getD n 0 = LF
    · have hsize : n - (n - (trailingLine (buf.take n)).length) =
          (trailingLine (buf.take n)).length := by omega
      simp only [hx, if_true, true_and, hsize, List.length_nil, Nat.sub_zero]
      by_cases ht : trailingLine (buf.take n) = []
      · simp [ht]
      · have hne : (trailingLine (buf.take n)).length ≠ 0 := by
          simpa [List.length_eq_zero] using ht
        rw [if_pos hne, if_pos ht, forward_eq _ _ _ _ _ _ (hp _),
          segment_of_suffix buf _ n (by omega) hsuf, List.flatMap_append]
        simp
    · simp only [hx, if_false, false_and, List.length_append, List.length_singleton]
      congr 1
      omega

theorem grow_acc (al : Alloc) (st : State) (hg : al.grow = true) (hwf : st.AccWF) :
    ∃ buf, (devlog_putc_grow al st).log_buf = some buf ∧
      buf.length = (devlog_putc_grow al st).log_len ∧
      st.log_pos < (devlog_putc_grow al st).log_len ∧
      buf.take st.log_pos = st.content := by
  unfold State.AccWF at hwf
  unfold devlog_putc_grow State.content
  cases hb : st.log_buf with
  | none =>
    rw [hb] at hwf
    simp [hg, realloc, hwf.1, hwf.2, LOG_INCREMENT]
  | some b =>
    rw [hb] at hwf
    by_cases hfull : st.log_pos = st.log_len
    · have h1 : List.take (st.log_len + LOG_INCREMENT) b = b :=
        List.take_of_length_le (by omega)
      simp only [hfull, hg, realloc, reduceCtorEq, false_or, if_true, Option.getD_some, h1]
      refine ⟨_, rfl, ?_, ?_, ?_⟩
      · simp; omega
      · simp [LOG_INCREMENT]
      · rw [List.take_append_of_le_length (by omega)]
    · simp only [hfull, reduceCtorEq, false_or, if_false, Option.getD_some]
      exact ⟨b, hb, hwf.1, by omega, rfl⟩

theorem take_succ_set (buf : List Byte) (p : Nat) (c : Byte) (h : p < buf.length) :
    (buf.set p c).take (p + 1) = buf.take p ++ [c] := by
  rw [List.take_succ, List.set_take, List.set_eq_of_length_le (by simp),
    List.getElem?_set_self h]
  rfl

theorem dispatch_congr (st st1 : State) (h1 : st1.dest_pcb = st.dest_pcb)
    (h2 : st1.dest_file = st.dest_file) (h3 : st1.dest_ipa = st.dest_ipa)
    (h4 : st1.dest_port = st.dest_port) : dispatch st1 = dispatch st := by
  funext seg
  simp only [dispatch, h1, h2, h3, h4]

theorem flush_eq (al : Alloc) (hp : ∀ s, al.pbuf s = true) (st : State) (buf : List Byte)
    (hb : st.log_buf = some buf) (hlen : buf.length = st.log_len)
    (hpos : st.log_pos ≤ st.log_len) :
    (devlog_putc_flush al st buf).out =
        st.out ++ (nonEmptyLines st.content).flatMap (dispatch st) ∧
      (devlog_putc_flush al st buf).log_pos = 0 ∧
      (devlog_putc_flush al st buf).AccWF := by
  have hscan := scan_range al st buf st.out hp st.log_pos (by omega)
  have hct : st.content = buf.take st.log_pos := by simp [State.content, hb]
  unfold devlog_putc_flush
  simp only [hscan, ← hct]
  by_cases hbig : st.log_len > LOG_INCREMENT
  · by_cases hs : al.shrink = true
    · simp only [hbig, hs, if_true, State.AccWF, realloc, Option.getD_some, true_and]
      simp [LOG_INCREMENT] at hbig ⊢
      omega
    · have hs' : al.shrink = false := by simpa using hs
      simp only [hbig, hs', if_true, State.AccWF, hb, true_and, Bool.false_eq_true, if_false]
      exact ⟨hlen, Nat.zero_le _⟩
  · simp only [hbig, if_false, State.AccWF, hb, true_and]
    exact ⟨hlen, Nat.zero_le _⟩

/-- Effect of the shared part of `devlog_putc` (grow, store, flush) on a byte that is stored,
when the growing allocation and the packet allocations succeed. -/
theorem putc_step (al : Alloc) (hg : al.grow = true) (hp : ∀ s, al.pbuf s = true)
    (st : State) (hwf : st.AccWF) (c : Byte) :
    (devlog_putc_body al (devlog_putc_grow al st) c).AccWF ∧
      (if c = LF ∧ st.hasSink = true then
        (devlog_putc_body al (devlog_putc_grow al st) c).out =
            st.out ++ (nonEmptyLines (st.content ++ [c])).flatMap (dispatch st) ∧
          (devlog_putc_body al (devlog_putc_grow al st) c).log_pos = 0
      else
        (devlog_putc_body al (devlog_putc_grow al st) c).out = st.out ∧
          (devlog_putc_body al (devlog_putc_grow al st) c).content = st.content ++ [c]) := by
  obtain ⟨buf, hb, hlen, hlt, hct⟩ := grow_acc al st hg hwf
  obtain ⟨-, hf2, hf3, hf4, hf5, hf6, hf7⟩ := devlog_putc_grow_frame al st
  generalize devlog_putc_grow al st = g at hb hlen hlt hct hf2 hf3 hf4 hf5 hf6 hf7
  have hstore : devlog_putc_store g buf c =
      { g with log_buf := some (buf.set g.log_pos c), log_pos := g.log_pos + 1 } := by
    simp [devlog_putc_store, hf6, hlt]
  have hcont : (devlog_putc_store g buf c).content = st.content ++ [c] := by
    rw [hstore]
    show List.take (g.log_pos + 1) (buf.set g.log_pos c) = _
    rw [take_succ_set _ _ _ (by omega), hf6, hct]
  have hsink : ((devlog_putc_store g buf c).dest_pcb.isSome = true ∨
      (devlog_putc_store g buf c).dest_file.isSome = true) ↔ st.hasSink = true := by
    rw [hstore]; simp only [State.hasSink, hf2, hf3, Bool.or_eq_true]
  unfold devlog_putc_body
  simp only [hb, hsink]
  by_cases hc : c = LF ∧ st.hasSink = true
  · have hfl := flush_eq al hp (devlog_putc_store g buf c) (buf.set g.log_pos c)
      (by rw [hstore]) (by rw [hstore]; simpa using hlen) (by rw [hstore]; simp; omega)
    have hd : dispatch (devlog_putc_store g buf c) = dispatch st :=
      dispatch_congr _ _ (by rw [hstore]; exact hf3) (by rw [hstore]; exact hf2)
        (by rw [hstore]; exact hf4) (by rw [hstore]; exact hf5)
    have hlb : (devlog_putc_store g buf c).log_buf.getD [] = buf.set g.log_pos c := by
      rw [hstore]; rfl
    rw [if_pos hc, if_pos hc, hlb]
    refine ⟨hfl.2.2, ?_, hfl.2.1⟩
    rw [hfl.1, hcont, hd]
    congr 1
    rw [hstore]; exact hf7
  · rw [if_neg hc, if_neg hc]
    refine ⟨?_, ?_, hcont⟩
    · rw [hstore]
      simp only [State.AccWF, List.length_set]
      exact ⟨hlen, by omega⟩
    · rw [hstore]; exact hf7

theorem nonEmptyLines_newline (l : List Byte) : nonEmptyLines (l ++ [LF]) = nonEmptyRuns l := by
  rw [nonEmptyLines, completeLines_snoc, if_pos rfl, nonEmptyRuns, splitOn_eq,
    completeLines_eq, trailingLine_eq]

theorem udpPackets_dispatch (st : State) (segs : List (List Byte)) :
    udpPackets (segs.flatMap (dispatch st)) = if st.dest_pcb.isSome then segs else [] := by
  induction segs with
  | nil => simp [udpPackets]
  | cons a t ih =>
    rw [List.flatMap_cons, udpPackets, List.filterMap_append]
    rw [udpPackets] at ih
    rw [ih]
    cases hp : st.dest_pcb <;> cases hf : st.dest_file <;> simp [dispatch, hp, hf]

theorem fileWrites_dispatch (st : State) (segs : List (List Byte)) :
    fileWrites (segs.flatMap (dispatch st)) = if st.dest_file.isSome then segs else [] := by
  induction segs with
  | nil => simp [fileWrites]
  | cons a t ih =>
    rw [List.flatMap_cons, fileWrites, List.filterMap_append]
    rw [fileWrites] at ih
    rw [ih]
    cases hp : st.dest_pcb <;> cases hf : st.dest_file <;> simp [dispatch, hp, hf]

theorem put_some_of_pos (r : ringbuf_t) (c : Byte) (h : 0 < r.size) :
    ∃ r1, r.put c = some r1 ∧ r1.size = r.size := by
  unfold ringbuf_t.put
  rw [if_neg (Nat.pos_iff_ne_zero.mp h)]
  simp only
  split
  · exact ⟨_, rfl, rfl⟩
  · exact ⟨_, rfl, rfl⟩

theorem rb_put_some (rb : Option ringbuf_t) (c : Byte) (h : ∀ r, rb = some r → 0 < r.size) :
    ∃ rb1, rb_put rb c = some rb1 ∧ ∀ r, rb1 = some r → 0 < r.size := by
  cases rb with
  | none => exact ⟨none, rfl, fun r hr => by cases hr⟩
  | some r0 =>
    obtain ⟨r1, h1, h2⟩ := put_some_of_pos r0 c (h r0 rfl)
    refine ⟨some r1, by simp [rb_put, h1], fun r hr => ?_⟩
    cases hr
    rw [h2]; exact h r0 rfl

/-- Effect of the component `devlog_putc` on a byte other than CR, allocations succeeding. -/
theorem component_putc_step (al : Alloc) (hg : al.grow = true) (hp : ∀ s, al.pbuf s = true)
    (st : State) (hwf : st.AccWF) (hr : st.ringOk) (c : Byte) (hc : c ≠ CR) :
    ∃ st1, Component.devlog_putc al st c = some st1 ∧ st1.AccWF ∧ st1.ringOk ∧
      st.sameSinks st1 ∧
      (if c = LF ∧ st.hasSink = true then
        st1.out = st.out ++ (nonEmptyLines (st.content ++ [c])).flatMap (dispatch st) ∧
          st1.log_pos = 0
      else st1.out = st.out ∧ st1.content = st.content ++ [c]) := by
  obtain ⟨rb1, hrb, hok⟩ := rb_put_some st.dest_rb c hr
  have hstep := putc_step al hg hp { st with dest_rb := rb1 } hwf c
  have hfr := devlog_putc_body_frame al (devlog_putc_grow al { st with dest_rb := rb1 }) c
  have hfg := devlog_putc_grow_frame al { st with dest_rb := rb1 }
  refine ⟨devlog_putc_body al (devlog_putc_grow al { st with dest_rb := rb1 }) c, ?_,
    hstep.1, ?_, ?_, hstep.2⟩
  · simp only [Component.devlog_putc, if_neg hc, hrb]
  · intro r h
    rw [hfr.1, hfg.1] at h
    exact hok r h
  · exact ⟨by rw [hfr.2.2.1, hfg.2.2.1], by rw [hfr.2.1, hfg.2.1],
      by rw [hfr.2.2.2.1, hfg.2.2.2.1], by rw [hfr.2.2.2.2, hfg.2.2.2.2.1]⟩

/-- C2: when a newline is ingested with a sink configured and every allocation succeeding,
the segments forwarded by that flush are exactly the non-empty maximal newline-free runs
of the accumulator content, in buffer order, each as the exact byte range without its
newline: the trace grows by the calls of `dispatch` for these runs, so the datagram sink
(when set) is sent exactly one packet per run and the file sink (when set) is written the
identical bytes of each run; the accumulator is then empty. -/
theorem flush_forwards_nonempty_runs (st : State) (hwf : st.AccWF) (hs : st.hasSink = true)
    (hr : st.ringOk) :
    ∃ st1, Component.devlog_putc Alloc.ok st LF = some st1 ∧
      st1.out = st.out ++ (nonEmptyRuns st.content).flatMap (dispatch st) ∧
      udpPackets ((nonEmptyRuns st.content).flatMap (dispatch st)) =
        (if st.dest_pcb.isSome then nonEmptyRuns st.content else []) ∧
      fileWrites ((nonEmptyRuns st.content).flatMap (dispatch st)) =
        (if st.dest_file.isSome then nonEmptyRuns st.content else []) ∧
      st1.log_pos = 0 := by
  obtain ⟨st1, h1, _, _, _, h5⟩ :=
    component_putc_step Alloc.ok rfl (fun _ => rfl) st hwf hr LF (by decide)
  rw [if_pos ⟨rfl, hs⟩, nonEmptyLines_newline] at h5
  exact ⟨st1, h1, h5.1, udpPackets_dispatch _ _, fileWrites_dispatch _ _, h5.2⟩

theorem linesFrom_append (a b : List Byte) : ∀ cur : List Byte,
    linesFrom cur (a ++ b) = linesFrom cur a ++ linesFrom (tailFrom cur a) b := by
  induction a with
  | nil => intro cur; simp [linesFrom, tailFrom]
  | cons x t ih =>
    intro cur
    rw [List.cons_append]
    by_cases hx : x = LF
    · rw [linesFrom, linesFrom, tailFrom, if_pos hx, if_pos hx, if_pos hx, ih, List.cons_append]
    · rw [linesFrom, linesFrom, tailFrom, if_neg hx, if_neg hx, if_neg hx, ih]

theorem tailFrom_append (a b : List Byte) : ∀ cur : List Byte,
    tailFrom cur (a ++ b) = tailFrom (tailFrom cur a) b := by
  induction a with
  | nil => intro cur; simp [tailFrom]
  | cons x t ih =>
    intro cur
    rw [List.cons_append]
    by_cases hx : x = LF
    · rw [tailFrom, tailFrom, if_pos hx, if_pos hx, ih]
    · rw [tailFrom, tailFrom, if_neg hx, if_neg hx, ih]

theorem nonEmptyLines_after_newline (a b : List Byte) :
    nonEmptyLines (a ++ [LF] ++ b) = nonEmptyLines (a ++ [LF]) ++ nonEmptyLines b := by
  simp only [nonEmptyLines, completeLines_eq]
  rw [linesFrom_append, tailFrom_snoc, if_pos rfl, List.filter_append]

theorem trailingLine_after_newline (a b : List Byte) :
    trailingLine (a ++ [LF] ++ b) = trailingLine b := by
  simp only [trailingLine_eq]
  rw [tailFrom_append, tailFrom_snoc, if_pos rfl]

theorem lines_of_no_newline (l : List Byte) (h : LF ∉ l) : ∀ cur : List Byte,
    linesFrom cur l = [] ∧ tailFrom cur l = cur ++ l := by
  induction l with
  | nil => intro cur; simp [linesFrom, tailFrom]
  | cons x t ih =>
    intro cur
    have hx : ¬ x = LF := fun e => h (by simp [e])
    have ht : LF ∉ t := fun e => h (by simp [e])
    rw [linesFrom, tailFrom, if_neg hx, if_neg hx]
    obtain ⟨h1, h2⟩ := ih ht (cur ++ [x])
    exact ⟨h1, by rw [h2]; simp⟩

theorem rejoin_nonEmpty_aux (l : List Byte) : ∀ cur : List Byte,
    rejoin ((linesFrom cur l).filter (fun seg => seg ≠ [])) (tailFrom cur l) =
      cur ++ dropEmptyLinesAux (decide (cur = [])) l := by
  induction l with
  | nil => intro cur; simp [linesFrom, tailFrom, rejoin, dropEmptyLinesAux]
  | cons x t ih =>
    intro cur
    by_cases hx : x = LF
    · rw [linesFrom, tailFrom, if_pos hx, if_pos hx, dropEmptyLinesAux, if_pos hx]
      have := ih []
      simp [rejoin] at this
      by_cases hcur : cur = []
      · simp [rejoin, hcur, this]
      · simp [rejoin, hcur, this]
    · rw [linesFrom, tailFrom, if_neg hx, if_neg hx, dropEmptyLinesAux, if_neg hx, ih]
      simp

/-- Rejoining the non-empty complete lines and the trailing run gives the sequence with
its empty lines removed. -/
theorem rejoin_nonEmptyLines (l : List Byte) :
    rejoin (nonEmptyLines l) (trailingLine l) = dropEmptyLines l := by
  have := rejoin_nonEmpty_aux l []
  simpa [nonEmptyLines, completeLines_eq, trailingLine_eq, dropEmptyLines] using this

theorem removeCR_cons (c : Byte) (cs : List Byte) :
    removeCR (c :: cs) = if c = CR then removeCR cs else c :: removeCR cs := by
  by_cases h : c = CR <;> simp [removeCR, h]

theorem sameSinks_dispatch (st st1 : State) (h : st.sameSinks st1) :
    dispatch st1 = dispatch st ∧ st1.hasSink = st.hasSink := by
  obtain ⟨h1, h2, h3, h4⟩ := h
  exact ⟨dispatch_congr st st1 h1 h2 h3 h4, by simp [State.hasSink, h1, h2]⟩

theorem sameSinks_trans (a b c : State) (h1 : a.sameSinks b) (h2 : b.sameSinks c) :
    a.sameSinks c := by
  obtain ⟨p1, p2, p3, p4⟩ := h1
  obtain ⟨q1, q2, q3, q4⟩ := h2
  exact ⟨q1.trans p1, q2.trans p2, q3.trans p3, q4.trans p4⟩

theorem content_nil_of_pos_zero (st : State) (h : st.log_pos = 0) : st.content = [] := by
  simp [State.content, h]

/-- Ingestion with a sink configured, from an accumulator holding no newline: everything
forwarded is a non-empty complete line and what is left is the trailing run. -/
theorem component_ingest_lines : ∀ (cs : List Byte) (st : State), st.AccWF → st.ringOk →
    st.hasSink = true → LF ∉ st.content →
    ∃ st1, Component.ingest st (allOk cs) = some st1 ∧ st1.AccWF ∧ st1.ringOk ∧
      st.sameSinks st1 ∧
      st1.out = st.out ++ (nonEmptyLines (st.content ++ removeCR cs)).flatMap (dispatch st) ∧
      st1.content = trailingLine (st.content ++ removeCR cs) := by
  intro cs
  induction cs with
  | nil =>
    intro st hwf hr _ hno
    have h := lines_of_no_newline st.content hno []
    refine ⟨st, rfl, hwf, hr, ⟨rfl, rfl, rfl, rfl⟩, ?_, ?_⟩
    · simp [removeCR, nonEmptyLines, completeLines_eq, h.1]
    · simp [removeCR, trailingLine_eq, h.2]
  | cons c rest ih =>
    intro st hwf hr hs hno
    by_cases hc : c = CR
    · obtain ⟨st2, h2, hwf2, hr2, hss2, hout2, hct2⟩ := ih st hwf hr hs hno
      refine ⟨st2, ?_, hwf2, hr2, hss2, ?_, ?_⟩
      · simp only [allOk, List.map_cons, Component.ingest, Component.devlog_putc, hc, if_true]
        exact h2
      · rw [removeCR_cons, if_pos hc]; exact hout2
      · rw [removeCR_cons, if_pos hc]; exact hct2
    · obtain ⟨st1, h1, hwf1, hr1, hss1, hstep⟩ :=
        component_putc_step Alloc.ok rfl (fun _ => rfl) st hwf hr c hc
      obtain ⟨hd1, hs1⟩ := sameSinks_dispatch st st1 hss1
      have hing : Component.ingest st (allOk (c :: rest)) = Component.ingest st1 (allOk rest) := by
        simp only [allOk, List.map_cons, Component.ingest, h1]
      rw [hing, removeCR_cons, if_neg hc]
      by_cases hlf : c = LF
      · rw [if_pos ⟨hlf, hs⟩] at hstep
        have hct1 := content_nil_of_pos_zero st1 hstep.2
        obtain ⟨st2, h2, hwf2, hr2, hss2, hout2, hct2⟩ :=
          ih st1 hwf1 hr1 (hs1.trans hs) (by rw [hct1]; simp)
        refine ⟨st2, h2, hwf2, hr2, sameSinks_trans _ _ _ hss1 hss2, ?_, ?_⟩
        · rw [hout2, hstep.1, hct1, hd1, List.nil_append, List.append_assoc,
            ← List.flatMap_append, hlf]
          congr 2
          rw [← nonEmptyLines_after_newline]
          simp
        · rw [hct2, hct1, List.nil_append, hlf, ← trailingLine_after_newline st.content]
          simp
      · have hne : ¬ (c = LF ∧ st.hasSink = true) := fun h => hlf h.1
        rw [if_neg hne] at hstep
        obtain ⟨st2, h2, hwf2, hr2, hss2, hout2, hct2⟩ :=
          ih st1 hwf1 hr1 (hs1.trans hs) (by
            rw [hstep.2]
            intro hmem
            rcases List.mem_append.mp hmem with hm | hm
            · exact hno hm
            · simp at hm; exact hlf hm.symm)
        refine ⟨st2, h2, hwf2, hr2, sameSinks_trans _ _ _ hss1 hss2, ?_, ?_⟩
        · rw [hout2, hstep.1, hstep.2, hd1]; simp
        · rw [hct2, hstep.2]; simp

theorem standalone_body_eq (al : Alloc) (st : State) (c : Byte) (hc : c ≠ CR) :
    Standalone.devlog_putc_body al st c = devlog_putc_body al st c := by
  unfold Standalone.devlog_putc_body devlog_putc_body
  simp only [hc, ne_eq, not_false_eq_true, if_true]

theorem standalone_putc_cr (al : Alloc) (st : State) :
    Standalone.devlog_putc al st CR = devlog_putc_grow al st := by
  unfold Standalone.devlog_putc Standalone.devlog_putc_body
  cases h : (devlog_putc_grow al st).log_buf with
  | none => rfl
  | some buf =>
    have : ¬ (CR = LF) := by decide
    simp [this]

/-- Effect of the standalone `devlog_putc` on a byte other than CR, allocations succeeding. -/
theorem standalone_putc_step (al : Alloc) (hg : al.grow = true) (hp : ∀ s, al.pbuf s = true)
    (st : State) (hwf : st.AccWF) (c : Byte) (hc : c ≠ CR) :
    (Standalone.devlog_putc al st c).AccWF ∧ st.sameSinks (Standalone.devlog_putc al st c) ∧
      (if c = LF ∧ st.hasSink = true then
        (Standalone.devlog_putc al st c).out =
            st.out ++ (nonEmptyLines (st.content ++ [c])).flatMap (dispatch st) ∧
          (Standalone.devlog_putc al st c).log_pos = 0
      else (Standalone.devlog_putc al st c).out = st.out ∧
          (Standalone.devlog_putc al st c).content = st.content ++ [c]) := by
  have hstep := putc_step al hg hp st hwf c
  have hfr := devlog_putc_body_frame al (devlog_putc_grow al st) c
  have hfg := devlog_putc_grow_frame al st
  rw [Standalone.devlog_putc, standalone_body_eq _ _ _ hc]
  exact ⟨hstep.1, ⟨by rw [hfr.2.2.1, hfg.2.2.1], by rw [hfr.2.1, hfg.2.1],
      by rw [hfr.2.2.2.1, hfg.2.2.2.1], by rw [hfr.2.2.2.2, hfg.2.2.2.2.1]⟩, hstep.2⟩

theorem standalone_putc_cr_step (al : Alloc) (hg : al.grow = true) (st : State)
    (hwf : st.AccWF) :
    (Standalone.devlog_putc al st CR).AccWF ∧ st.sameSinks (Standalone.devlog_putc al st CR) ∧
      (Standalone.devlog_putc al st CR).out = st.out ∧
      (Standalone.devlog_putc al st CR).content = st.content := by
  obtain ⟨buf, hb, hlen, hlt, hct⟩ := grow_acc al st hg hwf
  obtain ⟨-, hf2, hf3, hf4, hf5, hf6, hf7⟩ := devlog_putc_grow_frame al st
  rw [standalone_putc_cr]
  refine ⟨?_, ⟨hf3, hf2, hf4, hf5⟩, hf7, ?_⟩
  · simp only [State.AccWF, hb]
    exact ⟨hlen, by omega⟩
  · simp only [State.content, hb, Option.getD_some, hf6]
    exact hct

theorem standalone_ingest_cons (st : State) (x : Alloc × Byte) (xs : List (Alloc × Byte)) :
    Standalone.ingest st (x :: xs) = Standalone.ingest (Standalone.devlog_putc x.1 st x.2) xs :=
  rfl

/-- The standalone counterpart of `component_ingest_lines`. -/
theorem standalone_ingest_lines : ∀ (cs : List Byte) (st : State), st.AccWF →
    st.hasSink = true → LF ∉ st.content →
    (Standalone.ingest st (allOk cs)).AccWF ∧ st.sameSinks (Standalone.ingest st (allOk cs)) ∧
      (Standalone.ingest st (allOk cs)).out =
        st.out ++ (nonEmptyLines (st.content ++ removeCR cs)).flatMap (dispatch st) ∧
      (Standalone.ingest st (allOk cs)).content = trailingLine (st.content ++ removeCR cs) := by
  intro cs
  induction cs with
  | nil =>
    intro st hwf _ hno
    have h := lines_of_no_newline st.content hno []
    refine ⟨hwf, ⟨rfl, rfl, rfl, rfl⟩, ?_, ?_⟩
    · simp [Standalone.ingest, allOk, removeCR, nonEmptyLines, completeLines_eq, h.1]
    · simp [Standalone.ingest, allOk, removeCR, trailingLine_eq, h.2]
  | cons c rest ih =>
    intro st hwf hs hno
    have hing : Standalone.ingest st (allOk (c :: rest)) =
        Standalone.ingest (Standalone.devlog_putc Alloc.ok st c) (allOk rest) := rfl
    rw [hing, removeCR_cons]
    by_cases hc : c = CR
    · obtain ⟨hwf1, hss1, hout1, hct1⟩ := standalone_putc_cr_step Alloc.ok rfl st hwf
      rw [hc, if_pos rfl]
      obtain ⟨hd1, hs1⟩ := sameSinks_dispatch _ _ hss1
      obtain ⟨hwf2, hss2, hout2, hct2⟩ := ih _ hwf1 (hs1.trans hs) (by rw [hct1]; exact hno)
      exact ⟨hwf2, sameSinks_trans _ _ _ hss1 hss2, by rw [hout2, hout1, hct1, hd1],
        by rw [hct2, hct1]⟩
    · obtain ⟨hwf1, hss1, hstep⟩ :=
        standalone_putc_step Alloc.ok rfl (fun _ => rfl) st hwf c hc
      obtain ⟨hd1, hs1⟩ := sameSinks_dispatch _ _ hss1
      rw [if_neg hc]
      by_cases hlf : c = LF
      · rw [if_pos ⟨hlf, hs⟩] at hstep
        have hct1 := content_nil_of_pos_zero _ hstep.2
        obtain ⟨hwf2, hss2, hout2, hct2⟩ :=
          ih _ hwf1 (hs1.trans hs) (by rw [hct1]; simp)
        refine ⟨hwf2, sameSinks_trans _ _ _ hss1 hss2, ?_, ?_⟩
        · rw [hout2, hstep.1, hct1, hd1, List.nil_append, List.append_assoc,
            ← List.flatMap_append, hlf]
          congr 2
          rw [← nonEmptyLines_after_newline]
          simp
        · rw [hct2, hct1, List.nil_append, hlf, ← trailingLine_after_newline st.content]
          simp
      · have hne : ¬ (c = LF ∧ st.hasSink = true) := fun h => hlf h.1
        rw [if_neg hne] at hstep
        obtain ⟨hwf2, hss2, hout2, hct2⟩ :=
          ih _ hwf1 (hs1.trans hs) (by
            rw [hstep.2]
            intro hmem
            rcases List.mem_append.mp hmem with hm | hm
            · exact hno hm
            · simp at hm; exact hlf hm.symm)
        refine ⟨hwf2, sameSinks_trans _ _ _ hss1 hss2, ?_, ?_⟩
        · rw [hout2, hstep.1, hstep.2, hd1]; simp
        · rw [hct2, hstep.2]; simp

/-- Witness of C2: with both sinks set and "ab\n\ncd" accumulated, a newline forwards "ab"
and "cd", each as one datagram and one write. -/
theorem flush_forwards_nonempty_runs_witness :
    ∃ st1, Component.devlog_putc Alloc.ok exampleDeferredState LF = some st1 ∧
      st1.out = [] ++ (nonEmptyRuns [97, 98, 10, 10, 99, 100]).flatMap
        (dispatch exampleDeferredState) ∧
      udpPackets ((nonEmptyRuns [97, 98, 10, 10, 99, 100]).flatMap
        (dispatch exampleDeferredState)) = [[97, 98], [99, 100]] ∧
      fileWrites ((nonEmptyRuns [97, 98, 10, 10, 99, 100]).flatMap
        (dispatch exampleDeferredState)) = [[97, 98], [99, 100]] ∧
      st1.log_pos = 0 :=
  flush_forwards_nonempty_runs exampleDeferredState ⟨rfl, by decide⟩ rfl
    (fun _ h => by cases h)

/-- C1 as stated fails: with a file sink, ingesting "a\n\nb\n" forwards "a" and "b"; rejoined
with newlines and followed by the (empty) accumulator this is "a\nb\n", not the input. -/
theorem rejoin_forwarded_counterexample :
    (Component.ingest exampleFileState (allOk [97, 10, 10, 98, 10])).map
        (fun s => rejoin (fileWrites s.out) s.content) = some [97, 10, 98, 10] ∧
      removeCR [97, 10, 10, 98, 10] ≠ [97, 10, 98, 10] := by
  decide

/-- C1 (amended): for every byte sequence ingested through `devlog_putc` from an empty
accumulator with a sink configured and every allocation succeeding, in both variants, the
segments forwarded to each configured sink are the non-empty complete lines of the CR-free
input, in order, and the accumulator keeps the trailing run; so the forwarded segments,
each followed by a newline, and then the accumulator content give the input with every CR
removed and every empty line removed. -/
theorem rejoin_forwarded_drops_empty_lines (st : State) (hwf : st.AccWF)
    (hpos : st.log_pos = 0) (hs : st.hasSink = true) (hout : st.out = []) (cs : List Byte) :
    (st.ringOk → ∃ st1, Component.ingest st (allOk cs) = some st1 ∧
      st1.content = trailingLine (removeCR cs) ∧
      (st.dest_pcb.isSome → udpPackets st1.out = nonEmptyLines (removeCR cs) ∧
        rejoin (udpPackets st1.out) st1.content = dropEmptyLines (removeCR cs)) ∧
      (st.dest_file.isSome → fileWrites st1.out = nonEmptyLines (removeCR cs) ∧
        rejoin (fileWrites st1.out) st1.content = dropEmptyLines (removeCR cs))) ∧
    ((Standalone.ingest st (allOk cs)).content = trailingLine (removeCR cs) ∧
      (st.dest_pcb.isSome → udpPackets (Standalone.ingest st (allOk cs)).out =
          nonEmptyLines (removeCR cs) ∧
        rejoin (udpPackets (Standalone.ingest st (allOk cs)).out)
          (Standalone.ingest st (allOk cs)).content = dropEmptyLines (removeCR cs)) ∧
      (st.dest_file.isSome → fileWrites (Standalone.ingest st (allOk cs)).out =
          nonEmptyLines (removeCR cs) ∧
        rejoin (fileWrites (Standalone.ingest st (allOk cs)).out)
          (Standalone.ingest st (allOk cs)).content = dropEmptyLines (removeCR cs))) := by
  have hct := content_nil_of_pos_zero st hpos
  have hno : LF ∉ st.content := by rw [hct]; simp
  constructor
  · intro hr
    obtain ⟨st1, h1, _, _, _, ho, hc⟩ := component_ingest_lines cs st hwf hr hs hno
    rw [hct, List.nil_append] at hc
    rw [hct, List.nil_append, hout, List.nil_append] at ho
    refine ⟨st1, h1, hc, ?_, ?_⟩
    · intro hp
      have hu : udpPackets st1.out = nonEmptyLines (removeCR cs) := by
        rw [ho, udpPackets_dispatch, if_pos hp]
      exact ⟨hu, by rw [hu, hc, rejoin_nonEmptyLines]⟩
    · intro hf
      have hu : fileWrites st1.out = nonEmptyLines (removeCR cs) := by
        rw [ho, fileWrites_dispatch, if_pos hf]
      exact ⟨hu, by rw [hu, hc, rejoin_nonEmptyLines]⟩
  · obtain ⟨_, _, ho, hc⟩ := standalone_ingest_lines cs st hwf hs hno
    rw [hct, List.nil_append] at hc
    rw [hct, List.nil_append, hout, List.nil_append] at ho
    refine ⟨hc, ?_, ?_⟩
    · intro hp
      have hu : udpPackets (Standalone.ingest st (allOk cs)).out =
          nonEmptyLines (removeCR cs) := by
        rw [ho, udpPackets_dispatch, if_pos hp]
      exact ⟨hu, by rw [hu, hc, rejoin_nonEmptyLines]⟩
    · intro hf
      have hu : fileWrites (Standalone.ingest st (allOk cs)).out =
          nonEmptyLines (removeCR cs) := by
        rw [ho, fileWrites_dispatch, if_pos hf]
      exact ⟨hu, by rw [hu, hc, rejoin_nonEmptyLines]⟩

/-- Witness of C1 (amended): the file-sink state and the input "a\r\n\nb\nc". -/
theorem rejoin_forwarded_drops_empty_lines_witness :
    ∃ st1, Component.ingest exampleFileState (allOk [97, 13, 10, 10, 98, 10, 99]) = some st1 ∧
      st1.content = [99] ∧ fileWrites st1.out = [[97], [98]] ∧
      rejoin (fileWrites st1.out) st1.content = [97, 10, 98, 10, 99] := by
  obtain ⟨st1, h1, h2, _, h4⟩ :=
    (rejoin_forwarded_drops_empty_lines exampleFileState ⟨rfl, rfl⟩ rfl rfl rfl
      [97, 13, 10, 10, 98, 10, 99]).1 (fun _ h => by cases h)
  exact ⟨st1, h1, h2, (h4 rfl).1, (h4 rfl).2⟩

namespace Standalone

theorem early_write_cons (e : early_t) (c : Byte) (cs : List Byte) :
    early_write e (c :: cs) = early_write (early_putc true e c) cs := rfl

/-- While the buffer is not full before any byte of `cs`, `early_putc` stores the bytes
other than CR and counts nothing. -/
theorem early_fill : ∀ (cs : List Byte) (e : early_t), e.buf.length = EARLY_BUFFER_SIZE →
    (e.pos + (removeCR cs).length < EARLY_BUFFER_SIZE ∨ e.pos + cs.length ≤ EARLY_BUFFER_SIZE) →
    (early_write e cs).pos = e.pos + (removeCR cs).length ∧
      (early_write e cs).dropped = e.dropped ∧
      (early_write e cs).buf.length = EARLY_BUFFER_SIZE ∧
      (early_write e cs).buf.take (early_write e cs).pos = e.buf.take e.pos ++ removeCR cs := by
  intro cs
  induction cs with
  | nil => intro e hl _; simp [early_write, removeCR, hl]
  | cons c rest ih =>
    intro e hl h
    rw [early_write_cons, removeCR_cons]
    by_cases hc : c = CR
    · rw [removeCR_cons, if_pos hc] at h
      simp only [List.length_cons] at h
      have hlt : e.pos < EARLY_BUFFER_SIZE := by omega
      have he : early_putc true e c = e := by
        simp only [early_putc, hc, hlt, ne_eq, not_true_eq_false, if_true, if_false]
      rw [he, if_pos hc]
      apply ih e hl
      omega
    · rw [removeCR_cons, if_neg hc] at h
      simp only [List.length_cons] at h
      have hlt : e.pos < EARLY_BUFFER_SIZE := by omega
      have he : early_putc true e c = { e with buf := e.buf.set e.pos c, pos := e.pos + 1 } := by
        simp only [early_putc, hlt, hc, ne_eq, not_false_eq_true, if_true]
      rw [he, if_neg hc]
      obtain ⟨h1, h2, h3, h4⟩ := ih { e with buf := e.buf.set e.pos c, pos := e.pos + 1 }
        (by simpa using hl) (by simp only; omega)
      refine ⟨by rw [h1]; simp only [List.length_cons]; omega, h2, h3, ?_⟩
      rw [h4]
      simp only
      rw [take_succ_set _ _ _ (by omega)]
      simp

theorem wrap32_succ (d : Int) (h0 : 0 ≤ d) (h1 : d + 1 < 2147483648) : wrap32 (d + 1) = d + 1 := by
  unfold wrap32
  omega

/-- Once the buffer is full, every byte only increments the drop counter. -/
theorem early_drop : ∀ (cs : List Byte) (e : early_t), e.pos = EARLY_BUFFER_SIZE →
    0 ≤ e.dropped → e.dropped + cs.length < 2147483648 →
    early_write e cs = { e with dropped := e.dropped + cs.length } := by
  intro cs
  induction cs with
  | nil => intro e _ _ _; simp [early_write]
  | cons c rest ih =>
    intro e hp h0 h1
    simp only [List.length_cons, Nat.cast_add, Nat.cast_one] at h1
    have he : early_putc true e c = { e with dropped := e.dropped + 1 } := by
      simp only [early_putc, hp, lt_self_iff_false, if_true, if_false]
      rw [wrap32_succ _ h0 (by omega)]
    have hi := ih { e with dropped := e.dropped + 1 } hp (by simp only; omega)
      (by simp only; omega)
    rw [early_write_cons, he, hi]
    simp only [List.length_cons, Nat.cast_add, Nat.cast_one]
    congr 1
    omega

theorem blit_take (n : Nat) (src tail : List Byte) :
    (blit (blit (List.replicate n 0) 0 src) src.length tail).take (src.length + tail.length) =
      src ++ tail := by
  simp only [blit, List.take_zero, List.nil_append, Nat.zero_add]
  rw [List.take_left, List.append_assoc, ← List.length_append, ← List.append_assoc,
    List.take_left]

/-- The accumulator that `devlog_full_init` builds. -/
theorem full_init_eq (e : early_t) (st : State) (hp : e.pos ≤ e.buf.length) :
    (devlog_full_init true true e st).content =
        e.buf.take e.pos ++ (if e.dropped ≠ 0 then drop_notice e.dropped else []) ∧
      (devlog_full_init true true e st).log_pos =
        e.pos + (if e.dropped ≠ 0 then drop_notice e.dropped else []).length ∧
      (devlog_full_init true true e st).log_len =
        (devlog_full_init true true e st).log_pos + LOG_INCREMENT := by
  have hlen : (e.buf.take e.pos).length = e.pos := by
    rw [List.length_take]; omega
  by_cases hd : e.dropped = 0
  · simp only [devlog_full_init, hd, ne_eq, not_true_eq_false, if_true, if_false,
      List.length_nil, Nat.add_zero, List.append_nil, State.content, Option.getD_some,
      and_true]
    simp only [blit, List.take_zero, List.nil_append, Nat.zero_add]
    exact List.take_left' hlen
  · simp only [devlog_full_init, hd, ne_eq, not_false_eq_true, if_true, State.content,
      Option.getD_some, and_true]
    have h := blit_take (e.pos + (drop_notice e.dropped).length + LOG_INCREMENT)
        (e.buf.take e.pos) (drop_notice e.dropped ++ [0])
    rw [hlen] at h
    have h2 := congrArg (List.take (e.pos + (drop_notice e.dropped).length)) h
    rw [List.take_take] at h2
    simp only [List.length_append, List.length_singleton] at h2
    rw [Nat.min_eq_left (by omega)] at h2
    rw [h2, ← List.append_assoc]
    exact List.take_left' (by rw [List.length_append, hlen])

theorem blit_length (dst src : List Byte) (off : Nat) (h : off + src.length ≤ dst.length) :
    (blit dst off src).length = dst.length := by
  simp only [blit, List.length_append, List.length_take, List.length_drop]
  omega

theorem full_init_wf (e : early_t) (st : State) (hp : e.pos ≤ e.buf.length) :
    (devlog_full_init true true e st).AccWF := by
  have hlen : (e.buf.take e.pos).length = e.pos := by
    rw [List.length_take]; omega
  by_cases hd : e.dropped = 0
  · simp only [devlog_full_init, hd, ne_eq, not_true_eq_false, if_true, if_false,
      List.length_nil, Nat.add_zero, State.AccWF]
    refine ⟨?_, by omega⟩
    rw [blit_length _ _ _ (by simp [hlen])]
    simp
  · simp only [devlog_full_init, hd, ne_eq, not_false_eq_true, if_true, State.AccWF]
    refine ⟨?_, by omega⟩
    rw [blit_length, blit_length]
    · simp
    · simp [hlen]; omega
    · rw [blit_length]
      · simp [LOG_INCREMENT]; omega
      · simp [hlen]; omega

theorem decimalValue_append (l : List Byte) (x : Byte) :
    decimalValue (l ++ [x]) = 10 * decimalValue l + (x - 48) := by
  simp [decimalValue, List.foldl_append]

theorem decimalAux_spec : ∀ (fuel n : Nat) (acc : List Byte), n < fuel →
    ∃ ds, decimalAux fuel n acc = ds ++ acc ∧ decimalValue ds = n ∧
      ∀ x ∈ ds, 48 ≤ x ∧ x ≤ 57 := by
  intro fuel
  induction fuel with
  | zero => intro n acc h; omega
  | succ fuel ih =>
    intro n acc h
    rw [decimalAux]
    by_cases hz : n / 10 = 0
    · refine ⟨[48 + n % 10], by simp [hz], ?_, ?_⟩
      · simp only [decimalValue, List.foldl_cons, List.foldl_nil]
        omega
      · intro x hx
        rw [List.mem_singleton] at hx
        have hm : n % 10 < 10 := Nat.mod_lt _ (by decide)
        rw [hx]
        exact ⟨Nat.le_add_right _ _, Nat.add_le_add_left (Nat.le_of_lt_succ hm) 48⟩
    · obtain ⟨ds, h1, h2, h3⟩ := ih (n / 10) ((48 + n % 10) :: acc) (by omega)
      refine ⟨ds ++ [48 + n % 10], by simp [hz, h1], ?_, ?_⟩
      · rw [decimalValue_append, h2]; omega
      · intro x hx
        rcases List.mem_append.mp hx with hx | hx
        · exact h3 x hx
        · rw [List.mem_singleton] at hx
          have hm : n % 10 < 10 := Nat.mod_lt _ (by decide)
          rw [hx]
          exact ⟨Nat.le_add_right _ _, Nat.add_le_add_left (Nat.le_of_lt_succ hm) 48⟩

/-- For a positive count `%d` writes decimal digits only, and they denote the count. -/
theorem fmt_d_decimal (d : Int) (h : 0 < d) :
    (decimalValue (fmt_d d) : Int) = d ∧ ∀ x ∈ fmt_d d, 48 ≤ x ∧ x ≤ 57 := by
  obtain ⟨ds, h1, h2, h3⟩ := decimalAux_spec (d.natAbs + 1) d.natAbs [] (by omega)
  have hneg : ¬ d < 0 := by omega
  simp only [fmt_d, hneg, if_false, List.nil_append, h1, List.append_nil]
  exact ⟨by rw [h2]; omega, h3⟩

theorem early_init_length : early_init.buf.length = EARLY_BUFFER_SIZE := by
  simp [early_init]

/-- C4: for every byte sequence of total length at most the early capacity (4096) written
through `early_putc` before the transition, the accumulator content after
`devlog_full_init` (allocation succeeding) is that sequence with every CR removed, in
order; its length is the number of non-CR bytes and its capacity is 160 more. -/
theorem early_bytes_survive_transition (cs : List Byte) (h : cs.length ≤ EARLY_BUFFER_SIZE)
    (st : State) :
    (devlog_full_init true true (early_write early_init cs) st).content = removeCR cs ∧
      (devlog_full_init true true (early_write early_init cs) st).log_pos =
        (cs.filter (fun c => c ≠ CR)).length ∧
      (devlog_full_init true true (early_write early_init cs) st).log_len =
        (cs.filter (fun c => c ≠ CR)).length + LOG_INCREMENT ∧
      (early_write early_init cs).dropped = 0 := by
  obtain ⟨h1, h2, h3, h4⟩ := early_fill cs early_init early_init_length
    (Or.inr (by simp only [early_init]; omega))
  have hd : (early_write early_init cs).dropped = 0 := h2
  obtain ⟨f1, f2, f3⟩ := full_init_eq (early_write early_init cs) st (by
    rw [h3, h1]
    have := List.length_filter_le (fun c => decide (c ≠ CR)) cs
    simp only [early_init, removeCR, Nat.zero_add]
    omega)
  simp only [hd, ne_eq, not_true_eq_false, if_false, List.append_nil, List.length_nil,
    Nat.add_zero] at f1 f2
  rw [h4] at f1
  rw [f3, f2, f1, h1]
  exact ⟨by simp [early_init], by simp [early_init, removeCR],
    by simp [early_init, removeCR], hd⟩

/-- Witness of C4: early-writing "ab\r c\n" gives the post-transition content "ab c\n". -/
theorem early_bytes_survive_transition_witness :
    (devlog_full_init true true (early_write early_init [97, 98, 13, 32, 99, 10])
        exampleState).content = [97, 98, 32, 99, 10] ∧
      (devlog_full_init true true (early_write early_init [97, 98, 13, 32, 99, 10])
        exampleState).log_pos = 5 ∧
      (devlog_full_init true true (early_write early_init [97, 98, 13, 32, 99, 10])
        exampleState).log_len = 5 + 160 ∧
      (early_write early_init [97, 98, 13, 32, 99, 10]).dropped = 0 :=
  early_bytes_survive_transition [97, 98, 13, 32, 99, 10] (by decide) exampleState

/-- C6: for every early-buffer state with write cursor `p` (within the buffer) and drop
count `d` at transition, allocation succeeding: when `d` is not zero `devlog_full_init`
leaves the accumulator holding the `p` captured bytes followed immediately by the single
notice "\n*** d bytes dropped during early logging\n", with length `p` plus the notice
length; when `d = 0` no notice is added and the length is `p`; in both cases the capacity
is the length plus 160.  For `d > 0` the field `d` consists of decimal digits that denote
`d`. -/
theorem full_init_appends_notice (e : early_t) (st : State) (hp : e.pos ≤ e.buf.length) :
    (e.dropped ≠ 0 →
      (devlog_full_init true true e st).content = e.buf.take e.pos ++ drop_notice e.dropped ∧
      (devlog_full_init true true e st).log_pos = e.pos + (drop_notice e.dropped).length) ∧
    (e.dropped = 0 →
      (devlog_full_init true true e st).content = e.buf.take e.pos ∧
      (devlog_full_init true true e st).log_pos = e.pos) ∧
    (devlog_full_init true true e st).log_len =
      (devlog_full_init true true e st).log_pos + 160 ∧
    drop_notice e.dropped = bytes "\n*** " ++ fmt_d e.dropped ++
      bytes " bytes dropped during early logging\n" ∧
    (0 < e.dropped → (decimalValue (fmt_d e.dropped) : Int) = e.dropped ∧
      ∀ x ∈ fmt_d e.dropped, 48 ≤ x ∧ x ≤ 57) := by
  obtain ⟨f1, f2, f3⟩ := full_init_eq e st hp
  refine ⟨fun hd => ?_, fun hd => ?_, f3, rfl, fmt_d_decimal e.dropped⟩
  · rw [if_pos hd] at f1 f2
    exact ⟨f1, f2⟩
  · simp only [hd, ne_eq, not_true_eq_false, if_false, List.append_nil, List.length_nil,
      Nat.add_zero] at f1 f2
    exact ⟨f1, f2⟩

/-- Witness of C6: two captured bytes and a drop count of 12. -/
theorem full_init_appends_notice_witness :
    ((12 : Int) ≠ 0 →
      (devlog_full_init true true exampleEarly exampleState).content =
        [97, 98] ++ bytes "\n*** 12 bytes dropped during early logging\n" ∧
      (devlog_full_init true true exampleEarly exampleState).log_pos = 2 + 43) ∧
    ((12 : Int) = 0 →
      (devlog_full_init true true exampleEarly exampleState).content = [97, 98] ∧
      (devlog_full_init true true exampleEarly exampleState).log_pos = 2) ∧
    (devlog_full_init true true exampleEarly exampleState).log_len =
      (devlog_full_init true true exampleEarly exampleState).log_pos + 160 ∧
    drop_notice 12 = bytes "\n*** " ++ fmt_d 12 ++
      bytes " bytes dropped during early logging\n" ∧
    ((0 : Int) < 12 → (decimalValue (fmt_d 12) : Int) = 12 ∧
      ∀ x ∈ fmt_d 12, 48 ≤ x ∧ x ≤ 57) :=
  full_init_appends_notice exampleEarly exampleState (by
    show 2 ≤ ([97, 98] ++ List.replicate 4094 0).length
    rw [List.length_append, List.length_replicate]
    decide)

theorem early_putc_cr (e : early_t) (h : e.pos < EARLY_BUFFER_SIZE) :
    early_putc true e 13 = e := by
  have : (13 : Byte) = CR := rfl
  simp only [early_putc, this, h, ne_eq, not_true_eq_false, if_true, if_false]

theorem removeCR_replicate (n : Nat) (b : Byte) (hb : b ≠ CR) :
    removeCR (List.replicate n b) = List.replicate n b := by
  rw [removeCR, List.filter_eq_self]
  intro a ha
  rw [List.eq_of_mem_replicate ha]
  simpa using hb

/-- C5 as stated fails: a CR followed by 4096 bytes 'a' is a sequence of length 4096 + 1,
yet nothing is counted as dropped and the post-transition content is the 4096 bytes 'a'
with no notice. -/
theorem drop_count_counterexample :
    (13 :: List.replicate 4096 97).length = 4096 + 1 ∧
      (early_write early_init (13 :: List.replicate 4096 97)).dropped = 0 ∧
      (devlog_full_init true true (early_write early_init (13 :: List.replicate 4096 97))
        exampleState).content = List.replicate 4096 97 := by
  have hpos : early_init.pos = 0 := rfl
  have hstep : early_write early_init (13 :: List.replicate 4096 97) =
      early_write early_init (List.replicate 4096 97) := by
    rw [early_write_cons, early_putc_cr early_init (by rw [hpos]; decide)]
  obtain ⟨h1, h2, h3, h4⟩ := early_fill (List.replicate 4096 97) early_init early_init_length
    (Or.inr (by rw [hpos, List.length_replicate]; decide))
  rw [hpos, removeCR_replicate _ _ (by decide), List.length_replicate, Nat.zero_add] at h1
  rw [hpos, removeCR_replicate _ _ (by decide), List.take_zero, List.nil_append] at h4
  obtain ⟨f1, -, -⟩ := full_init_eq (early_write early_init (List.replicate 4096 97))
    exampleState (by rw [h3, h1]; decide)
  have hd : (early_write early_init (List.replicate 4096 97)).dropped = 0 := h2
  rw [hstep]
  refine ⟨by rw [List.length_cons, List.length_replicate], hd, ?_⟩
  rw [f1, h4, hd]
  simp only [ne_eq, not_true_eq_false, if_false, List.append_nil]

/-- C5 (amended): when `k` bytes (`0 < k < 2^31`) follow the byte `b` that fills the early
buffer (the 4096th byte other than CR), the drop count at transition is exactly `k`, and
the post-transition content is the CR-free form of the bytes up to and including `b`
followed by exactly one notice, which reports `k`; so every byte after `b` is counted, and
the only other bytes absent from the content are the CR bytes filtered before the buffer
filled, which are not counted.  When no CR precedes `b` the sequence has length
`4096 + k`. -/
theorem drop_count_is_bytes_after_fill (pre post : List Byte) (b : Byte) (hb : b ≠ CR)
    (hpre : (removeCR pre).length = 4095) (hk : 0 < post.length)
    (hk2 : post.length < 2147483648) (st : State) :
    (early_write early_init (pre ++ b :: post)).pos = EARLY_BUFFER_SIZE ∧
      (early_write early_init (pre ++ b :: post)).dropped = post.length ∧
      (devlog_full_init true true (early_write early_init (pre ++ b :: post)) st).content =
        removeCR (pre ++ [b]) ++ drop_notice post.length ∧
      (CR ∉ pre → (pre ++ b :: post).length = EARLY_BUFFER_SIZE + post.length) := by
  have hsplit : pre ++ b :: post = (pre ++ [b]) ++ post := by simp
  have hrm : removeCR (pre ++ [b]) = removeCR pre ++ [b] := by
    simp [removeCR, List.filter_append, hb]
  have hpos : early_init.pos = 0 := rfl
  have hdr : early_init.dropped = 0 := rfl
  -- the bytes before `b` leave the buffer one short of full
  obtain ⟨h1, h2, h3, h4⟩ := early_fill pre early_init early_init_length
    (Or.inl (by rw [hpos, hpre]; decide))
  rw [hpos, hpre, Nat.zero_add] at h1
  rw [hpos, List.take_zero, List.nil_append] at h4
  -- `b` is stored and fills it
  have hlt : (early_write early_init pre).pos < EARLY_BUFFER_SIZE := by rw [h1]; decide
  have hput : early_putc true (early_write early_init pre) b =
      { early_write early_init pre with
        buf := (early_write early_init pre).buf.set (early_write early_init pre).pos b,
        pos := (early_write early_init pre).pos + 1 } := by
    simp only [early_putc, hlt, hb, ne_eq, not_false_eq_true, if_true]
  have hw : early_write early_init (pre ++ b :: post) =
      early_write (early_putc true (early_write early_init pre) b) post := by
    simp only [early_write, List.foldl_append, List.foldl_cons]
  -- the bytes after `b` are counted
  have hdrop := early_drop post (early_putc true (early_write early_init pre) b)
    (by rw [hput]; simp only; rw [h1]; rfl)
    (by rw [hput]; simp only; rw [h2, hdr])
    (by rw [hput]; simp only; rw [h2, hdr]; omega)
  rw [hw, hdrop, hput]
  simp only [h2, hdr, Int.zero_add]
  have hne : (post.length : Int) ≠ 0 := by omega
  obtain ⟨f1, -, -⟩ := full_init_eq
    { pos := (early_write early_init pre).pos + 1, dropped := (post.length : Int),
      buf := (early_write early_init pre).buf.set (early_write early_init pre).pos b } st
    (by simp only [List.length_set]; rw [h3]; omega)
  refine ⟨by rw [h1]; rfl, trivial, ?_, ?_⟩
  · rw [f1]
    simp only [hne, ne_eq, not_false_eq_true, if_true]
    rw [take_succ_set _ _ _ (by rw [h3]; exact hlt), h4, hrm]
  · intro hno
    have : removeCR pre = pre := by
      rw [removeCR, List.filter_eq_self]
      intro a ha
      have : a ≠ CR := fun e => hno (e ▸ ha)
      simpa using this
    rw [this] at hpre
    simp only [List.length_append, List.length_cons, hpre, EARLY_BUFFER_SIZE]
    omega

/-- Witness of C5 (amended): 4095 bytes 'a', the byte 'b' that fills the buffer, and two
more bytes. -/
theorem drop_count_is_bytes_after_fill_witness :
    (early_write early_init (List.replicate 4095 97 ++ 98 :: [99, 100])).pos =
        EARLY_BUFFER_SIZE ∧
      (early_write early_init (List.replicate 4095 97 ++ 98 :: [99, 100])).dropped = 2 ∧
      (devlog_full_init true true
          (early_write early_init (List.replicate 4095 97 ++ 98 :: [99, 100]))
          exampleState).content =
        removeCR (List.replicate 4095 97 ++ [98]) ++
          bytes "\n*** 2 bytes dropped during early logging\n" ∧
      (CR ∉ List.replicate 4095 97 →
        (List.replicate 4095 97 ++ 98 :: [99, 100]).length = EARLY_BUFFER_SIZE + 2) :=
  drop_count_is_bytes_after_fill (List.replicate 4095 97) [99, 100] 98 (by decide)
    (by rw [removeCR_replicate _ _ (by decide), List.length_replicate]) (by decide)
    (by decide) exampleState

/-- Whatever the state and the path, when `fopen` succeeds `devlog_set_file_destination`
returns 0 and leaves `dest_file` null: the handle is never installed. -/
theorem set_file_destination_installs_nothing (fopen : String → Option Nat) (st : State)
    (path : String) (h : Nat) (hopen : fopen path = some h) :
    (devlog_set_file_destination fopen true st (some path)).1 = 0 ∧
      (devlog_set_file_destination fopen true st (some path)).2.dest_file = none := by
  unfold devlog_set_file_destination
  simp only [hopen, Option.isNone_some, Bool.false_eq_true, if_false, if_true]
  cases st.dest_file <;> simp

/-- C10 fails on the code: with `fopen` succeeding (handle 5) for "/sdcard/logfile", the
standalone `devlog_set_file_destination` returns 0 but the file destination stays empty
(it is not the new handle), so that no line completed afterwards is written to the file. -/
theorem set_file_destination_drops_handle :
    devlog_set_file_destination (fun _ => some 5) true exampleState (some "/sdcard/logfile") =
        (0, exampleState) ∧
      exampleState.dest_file = none ∧
      (ingest (devlog_set_file_destination (fun _ => some 5) true exampleState
        (some "/sdcard/logfile")).2 (allOk [97, 10])).out = [] := by
  decide

end Standalone

namespace Standalone

/-- C11: for every non-null path whose open fails, `devlog_set_file_destination(path)`
returns -1 and leaves the whole state unchanged (file destination, datagram destination,
accumulator, and the trace: the previous handle is not closed); for no path it returns 0,
the file destination becomes empty, nothing else changes, and the previous handle, if
any, is closed exactly once (no handle is closed when there was none). -/
theorem set_file_destination_failure_and_clear (fopen : String → Option Nat) (st : State) :
    (∀ (acquired : Bool) (path : String), fopen path = none →
      devlog_set_file_destination fopen acquired st (some path) = (-1, st)) ∧
    (devlog_set_file_destination fopen true st none).1 = 0 ∧
    (devlog_set_file_destination fopen true st none).2.dest_file = none ∧
    (devlog_set_file_destination fopen true st none).2.dest_pcb = st.dest_pcb ∧
    (devlog_set_file_destination fopen true st none).2.log_buf = st.log_buf ∧
    (devlog_set_file_destination fopen true st none).2.log_pos = st.log_pos ∧
    (devlog_set_file_destination fopen true st none).2.log_len = st.log_len ∧
    (∀ h, st.dest_file = some h →
      (devlog_set_file_destination fopen true st none).2.out = st.out ++ [Event.fclose h] ∧
      closeCount h (devlog_set_file_destination fopen true st none).2.out =
        closeCount h st.out + 1) ∧
    (st.dest_file = none → (devlog_set_file_destination fopen true st none).2.out = st.out) := by
  refine ⟨?_, ?_⟩
  · intro acquired path hopen
    simp [devlog_set_file_destination, hopen]
  · unfold devlog_set_file_destination
    cases hf : st.dest_file with
    | none => simp
    | some h0 =>
      simp only [Option.isNone_none, Bool.false_eq_true, if_false, if_true, true_and,
        reduceCtorEq, false_implies, and_true]
      intro h hh
      cases hh
      simp [closeCount]

/-- Witness of C11: a path that does not open, and clearing the destination of a state
whose file handle is 7. -/
theorem set_file_destination_failure_and_clear_witness :
    devlog_set_file_destination (fun _ => none) true exampleBusyState (some "/nodir/log") =
        (-1, exampleBusyState) ∧
      (devlog_set_file_destination (fun _ => none) true exampleBusyState none).2.out =
        [Event.fwrite 7 [97]] ++ [Event.fclose 7] ∧
      closeCount 7 (devlog_set_file_destination (fun _ => none) true exampleBusyState none).2.out =
        closeCount 7 [Event.fwrite 7 [97]] + 1 :=
  ⟨(set_file_destination_failure_and_clear (fun _ => none) exampleBusyState).1 true
      "/nodir/log" rfl,
    (set_file_destination_failure_and_clear (fun _ => none) exampleBusyState).2.2.2.2.2.2.2.1
      7 rfl⟩

end Standalone

/-- C12: in both variants `devlog_set_udp_destination(addr, port)` fails with EAGAIN whenever
the network subsystem is uninitialised; otherwise, for a non-null `addr`, it fails with
EINVAL if `addr` does not parse or `port = 0`, and otherwise with ENOMEM if the creation of
the control block fails; every failure returns -1 and leaves the whole state (datagram
destination, address, port and all the rest) unchanged, whether or not the lock could be
taken. -/
theorem set_udp_destination_failures (ipaddr_aton : String → Option Nat) (udp_new : Option Nat)
    (ipa_uninit : Nat) (acquired : Bool) (st : State) (port : Int) :
    (∀ addr, Component.devlog_set_udp_destination false ipaddr_aton udp_new ipa_uninit acquired
        st addr port = (-1, some Errno.EAGAIN, st) ∧
      Standalone.devlog_set_udp_destination false ipaddr_aton udp_new ipa_uninit acquired
        st addr port = (-1, some Errno.EAGAIN, st)) ∧
    (∀ a, ipaddr_aton a = none ∨ port = 0 →
      Component.devlog_set_udp_destination true ipaddr_aton udp_new ipa_uninit acquired
        st (some a) port = (-1, some Errno.EINVAL, st) ∧
      Standalone.devlog_set_udp_destination true ipaddr_aton udp_new ipa_uninit acquired
        st (some a) port = (-1, some Errno.EINVAL, st)) ∧
    (∀ a ipa, ipaddr_aton a = some ipa → port ≠ 0 → udp_new = none →
      Component.devlog_set_udp_destination true ipaddr_aton udp_new ipa_uninit acquired
        st (some a) port = (-1, some Errno.ENOMEM, st) ∧
      Standalone.devlog_set_udp_destination true ipaddr_aton udp_new ipa_uninit acquired
        st (some a) port = (-1, some Errno.ENOMEM, st)) := by
  refine ⟨?_, ?_, ?_⟩
  · intro addr
    simp [Component.devlog_set_udp_destination, Standalone.devlog_set_udp_destination]
  · intro a h
    cases hp : ipaddr_aton a with
    | none =>
      simp [Component.devlog_set_udp_destination, Standalone.devlog_set_udp_destination, hp]
    | some ipa =>
      have hport : port = 0 := by
        rcases h with h | h
        · rw [hp] at h; cases h
        · exact h
      simp [Component.devlog_set_udp_destination, Standalone.devlog_set_udp_destination, hp,
        hport]
  · intro a ipa ha hport hnew
    simp [Component.devlog_set_udp_destination, Standalone.devlog_set_udp_destination, ha,
      hport, hnew]

/-- Witness of C12: a valid address with port 0, from a state with a datagram destination. -/
theorem set_udp_destination_failures_witness :
    Component.devlog_set_udp_destination true exampleAton (some 9) 0 true exampleBusyState
        (some "192.168.2.1") 0 = (-1, some Errno.EINVAL, exampleBusyState) ∧
      Standalone.devlog_set_udp_destination true exampleAton (some 9) 0 true exampleBusyState
        (some "192.168.2.1") 0 = (-1, some Errno.EINVAL, exampleBusyState) :=
  (set_udp_destination_failures exampleAton (some 9) 0 true exampleBusyState 0).2.1
    "192.168.2.1" (Or.inr rfl)

/-- C15: `devlog_vfs_open` fails with EINVAL for a null path; otherwise with ENFILE once both
logical streams are open; otherwise it returns descriptor 1 for "/o" and descriptor 2 for
"/e", and fails with ENOENT for every other path; every failure returns -1. -/
theorem vfs_open_results (ss : Streams) :
    Component.devlog_vfs_open ss none = (-1, some Errno.EINVAL) ∧
    (ss.f_stdout.isSome ∧ ss.f_stderr.isSome →
      ∀ p, Component.devlog_vfs_open ss (some p) = (-1, some Errno.ENFILE)) ∧
    (¬ (ss.f_stdout.isSome ∧ ss.f_stderr.isSome) →
      Component.devlog_vfs_open ss (some "/o") = (1, none) ∧
      Component.devlog_vfs_open ss (some "/e") = (2, none) ∧
      ∀ p, p ≠ "/o" → p ≠ "/e" →
        Component.devlog_vfs_open ss (some p) = (-1, some Errno.ENOENT)) := by
  refine ⟨rfl, ?_, ?_⟩
  · intro h p
    simp only [Component.devlog_vfs_open, h, and_self, if_true]
  · intro h
    refine ⟨?_, ?_, ?_⟩
    · simp only [Component.devlog_vfs_open, h, if_false, if_true, STDOUT_FD]
    · have hne : ¬ ("/e" = "/o") := by decide
      simp only [Component.devlog_vfs_open, h, if_false, hne, if_true, STDERR_FD]
    · intro p h1 h2
      simp only [Component.devlog_vfs_open, h, if_false, h1, h2]

/-- Witness of C15: with both streams open every path fails with ENFILE; with none open
"/o" and "/e" give 1 and 2 and "/x" fails with ENOENT. -/
theorem vfs_open_results_witness :
    Component.devlog_vfs_open exampleStreams (some "/o") = (-1, some Errno.ENFILE) ∧
      Component.devlog_vfs_open exampleNoStreams (some "/o") = (1, none) ∧
      Component.devlog_vfs_open exampleNoStreams (some "/e") = (2, none) ∧
      Component.devlog_vfs_open exampleNoStreams (some "/x") = (-1, some Errno.ENOENT) :=
  ⟨(vfs_open_results exampleStreams).2.1 ⟨rfl, rfl⟩ "/o",
    ((vfs_open_results exampleNoStreams).2.2 (by decide)).1,
    ((vfs_open_results exampleNoStreams).2.2 (by decide)).2.1,
    ((vfs_open_results exampleNoStreams).2.2 (by decide)).2.2 "/x" (by decide) (by decide)⟩

theorem component_putc_some (al : Alloc) (st : State) (c : Byte) (hr : st.ringOk) :
    ∃ st1, Component.devlog_putc al st c = some st1 ∧ st1.ringOk := by
  by_cases hc : c = CR
  · exact ⟨st, by simp [Component.devlog_putc, hc], hr⟩
  · obtain ⟨rb1, hrb, hok⟩ := rb_put_some st.dest_rb c hr
    refine ⟨devlog_putc_body al (devlog_putc_grow al { st with dest_rb := rb1 }) c, ?_, ?_⟩
    · simp only [Component.devlog_putc, if_neg hc, hrb]
    · intro r h
      rw [(devlog_putc_body_frame _ _ _).1, (devlog_putc_grow_frame _ _).1] at h
      exact hok r h

/-- With a ring of positive size, or none, ingestion is defined whatever the allocations. -/
theorem component_ingest_some : ∀ (xs : List (Alloc × Byte)) (st : State), st.ringOk →
    ∃ st1, Component.ingest st xs = some st1 ∧ st1.ringOk := by
  intro xs
  induction xs with
  | nil => intro st hr; exact ⟨st, rfl, hr⟩
  | cons x rest ih =>
    intro st hr
    obtain ⟨st1, h1, hr1⟩ := component_putc_some x.1 st x.2 hr
    obtain ⟨st2, h2, hr2⟩ := ih st1 hr1
    exact ⟨st2, by simp only [Component.ingest, h1, h2], hr2⟩

/-- C16 as stated fails: with the original standard output kept for pass-through, a write
of the 3 bytes "hi\n" to descriptor 1 whose pass-through `fwrite` writes nothing returns
0, not 3. -/
theorem vfs_write_counterexample :
    (Component.devlog_vfs_write exampleStreams true 0 exampleState 1
        (allOk [104, 105, 10])).map (fun r => r.1) = some 0 ∧
      (allOk [104, 105, 10]).length = 3 := by
  decide

/-- C16 (amended): for descriptor 1 or 2, every buffer and every outcome of the lock, of the
allocations and of the file and datagram sinks, `devlog_vfs_write` sets no `errno` and
returns the length of the buffer when no pass-through stream is captured for that
descriptor, and otherwise the count that the pass-through `fwrite` reports (the length of
the buffer when that write is complete); the state is the one that ingesting the buffer
gives (unchanged when the lock is not taken).  For any other descriptor it returns -1 with
EBADF, ingests nothing and writes nothing through. -/
theorem vfs_write_result (ss : Streams) (acquired : Bool) (fwd_written : Nat) (st : State)
    (hr : st.ringOk) (fd : Int) (data : List (Alloc × Byte)) :
    (fd = 1 ∨ fd = 2 →
      ∃ st1, (if acquired then Component.ingest st data else some st) = some st1 ∧
        Component.devlog_vfs_write ss acquired fwd_written st fd data =
          some ((match ss.passThrough fd with
                 | some _ => (fwd_written : Int)
                 | none => (data.length : Int)), none, st1,
                (ss.passThrough fd).map (fun h => (h, data.map Prod.snd)))) ∧
    (fd ≠ 1 → fd ≠ 2 →
      Component.devlog_vfs_write ss acquired fwd_written st fd data =
        some (-1, some Errno.EBADF, st, none)) := by
  constructor
  · intro hfd
    have hex : ∃ st1, (if acquired then Component.ingest st data else some st) = some st1 := by
      cases acquired with
      | false => exact ⟨st, rfl⟩
      | true =>
        obtain ⟨st1, h1, _⟩ := component_ingest_some data st hr
        exact ⟨st1, by simpa using h1⟩
    obtain ⟨st1, h1⟩ := hex
    refine ⟨st1, h1, ?_⟩
    have hvalid : ¬ (fd ≠ STDOUT_FD ∧ fd ≠ STDERR_FD) := by
      simp only [STDOUT_FD, STDERR_FD]; omega
    unfold Component.devlog_vfs_write
    rw [if_neg hvalid, h1]
    rcases hfd with hfd | hfd
    · subst hfd
      cases ho : ss.f_fwdout with
      | none => simp [Streams.passThrough, STDOUT_FD, STDERR_FD, ho]
      | some h => simp [Streams.passThrough, STDOUT_FD, ho]
    · subst hfd
      cases he : ss.f_fwderr with
      | none => simp [Streams.passThrough, STDOUT_FD, STDERR_FD, he]
      | some h => simp [Streams.passThrough, STDOUT_FD, STDERR_FD, he]
  · intro h1 h2
    simp [Component.devlog_vfs_write, STDOUT_FD, STDERR_FD, h1, h2]

/-- Witness of C16 (amended): "hi\n" written to descriptor 1 with no pass-through stream
returns 3. -/
theorem vfs_write_result_witness :
    ∃ st1, (if true = true then Component.ingest exampleState (allOk [104, 105, 10])
        else some exampleState) = some st1 ∧
      Component.devlog_vfs_write exampleNoStreams true 0 exampleState 1
        (allOk [104, 105, 10]) = some (3, none, st1, none) :=
  (vfs_write_result exampleNoStreams true 0 exampleState (fun _ h => by cases h) 1
    (allOk [104, 105, 10])).1 (Or.inl rfl)

/-- C17: for every operation that takes the lock and every state, when the lock cannot be
taken the shared capture state (early buffer, accumulator, file and datagram destinations,
retention ring) is exactly what it was before the call and the trace of calls to the
sinks is unchanged: nothing is forwarded, closed or removed. -/
theorem lock_failure_changes_nothing (st : State) (c : Byte) (al : Alloc) :
    (∀ e : Standalone.early_t, Standalone.early_putc false e c = e) ∧
    Component.early_putc false st c = some st ∧
    Component.devlog_ets_putc false al st c = some st ∧
    Standalone.devlog_ets_putc false al st c = st ∧
    (∀ (ss : Streams) (w : Nat) (fd : Int) (data : List (Alloc × Byte)),
      (Component.devlog_vfs_write ss false w st fd data).map (fun r => r.2.2.1) = some st) ∧
    (∀ (fopen : String → Option Nat) (filename : Option String),
      (Standalone.devlog_set_file_destination fopen false st filename).2 = st) ∧
    (∀ file : Option Nat, (Component.devlog_set_file_destination false st file).2 = st) ∧
    (∀ (ready : Bool) (aton : String → Option Nat) (udp_new : Option Nat) (ipa : Nat)
        (addr : Option String) (port : Int),
      (Component.devlog_set_udp_destination ready aton udp_new ipa false st addr port).2.2 = st ∧
      (Standalone.devlog_set_udp_destination ready aton udp_new ipa false st addr port).2.2 =
        st) ∧
    (∀ (malloc_ok : Bool) (size : Nat),
      (Component.devlog_set_retention_destination malloc_ok false st size).map Prod.snd =
        some st) ∧
    (∀ (size : Int) (clear : Bool),
      Component.devlog_get_retention_content false st size clear = some (0, [], st)) := by
  refine ⟨fun e => rfl, rfl, rfl, rfl, ?_, ?_, fun _ => rfl, ?_, ?_, fun _ _ => rfl⟩
  · intro ss w fd data
    unfold Component.devlog_vfs_write
    by_cases hfd : fd ≠ STDOUT_FD ∧ fd ≠ STDERR_FD
    · simp [hfd]
    · rw [if_neg hfd]
      simp only [Bool.false_eq_true, if_false]
      split
      · rfl
      · split <;> rfl
  · intro fopen filename
    unfold Standalone.devlog_set_file_destination
    simp only [Bool.false_eq_true, if_false]
    split <;> rfl
  · intro ready aton udp_new ipa addr port
    have hi : ∀ pcb i p, udp_install false st pcb i p = st := fun _ _ _ => rfl
    unfold Component.devlog_set_udp_destination Standalone.devlog_set_udp_destination
    cases ready <;> cases addr <;> simp [hi]
    all_goals (split <;> [simp; (split <;> [simp; (split <;> simp)])])
  · intro malloc_ok size
    cases malloc_ok <;> simp [Component.devlog_set_retention_destination]

/-- The growth block, whatever the outcome of its allocation: the invariant is kept, the
length is untouched, and the capacity either stays or, the buffer being full (or absent),
grows by exactly 160. -/
theorem grow_inv (al : Alloc) (st : State) (hwf : st.AccWF) :
    (devlog_putc_grow al st).AccWF ∧ (st.capOk → (devlog_putc_grow al st).capOk) ∧
      (devlog_putc_grow al st).log_pos = st.log_pos ∧
      ((devlog_putc_grow al st).log_len = st.log_len ∨
        (st.log_pos = st.log_len ∧
          (devlog_putc_grow al st).log_len = st.log_len + LOG_INCREMENT)) ∧
      (al.grow = true → (devlog_putc_grow al st).log_buf ≠ none ∧
        st.log_pos < (devlog_putc_grow al st).log_len) := by
  unfold State.AccWF at hwf
  unfold devlog_putc_grow
  cases hb : st.log_buf with
  | none =>
    rw [hb] at hwf
    cases hg : al.grow with
    | false => simp [State.AccWF, State.capOk, hb, hwf.1, hwf.2]
    | true =>
      simp [State.AccWF, State.capOk, realloc, hwf.1, hwf.2, LOG_INCREMENT]
  | some b =>
    rw [hb] at hwf
    by_cases hfull : st.log_pos = st.log_len
    · cases hg : al.grow with
      | false => simp [State.AccWF, State.capOk, hb, hfull, hwf.1]
      | true =>
        have h1 : List.take (st.log_len + LOG_INCREMENT) b = b :=
          List.take_of_length_le (by omega)
        simp only [hfull, reduceCtorEq, false_or, if_true, State.AccWF, State.capOk, realloc,
          Option.getD_some, h1, List.length_append, List.length_replicate, hwf.1]
        simp [LOG_INCREMENT]
    · simp only [hfull, reduceCtorEq, false_or, if_false, State.AccWF, State.capOk, hb]
      refine ⟨hwf, fun h => h, trivial, Or.inl trivial, fun _ => ⟨by simp, by omega⟩⟩

/-- The store writes inside the block: it happens only at an index below the capacity,
which is the size of the block. -/
theorem store_inv (st : State) (buf : List Byte) (c : Byte) (hb : st.log_buf = some buf)
    (hwf : st.AccWF) :
    (devlog_putc_store st buf c).AccWF ∧
      (devlog_putc_store st buf c).log_len = st.log_len ∧
      (st.capOk → (devlog_putc_store st buf c).capOk) ∧
      (∃ buf1, (devlog_putc_store st buf c).log_buf = some buf1) ∧
      (devlog_putc_store st buf c = st ∨
        (st.log_pos < buf.length ∧
          devlog_putc_store st buf c =
            { st with log_buf := some (buf.set st.log_pos c), log_pos := st.log_pos + 1 })) := by
  unfold State.AccWF at hwf
  rw [hb] at hwf
  unfold devlog_putc_store
  by_cases hlt : st.log_pos < st.log_len
  · simp only [hlt, if_true, State.AccWF, State.capOk, List.length_set]
    refine ⟨⟨hwf.1, by omega⟩, trivial, ?_, ⟨_, rfl⟩, Or.inr ⟨by omega, trivial⟩⟩
    intro h
    rw [hb] at h
    exact h
  · simp only [hlt, if_false, State.AccWF, hb]
    exact ⟨hwf, trivial, fun h => h, ⟨buf, rfl⟩, Or.inl trivial⟩

/-- The flush block, whatever the outcome of its allocations: the length becomes zero and
the capacity either stays or, when it exceeds 160, is reset to 160; it is 160 when the
shrinking allocation succeeds and the capacity was at least the baseline. -/
theorem flush_inv (al : Alloc) (st : State) (buf : List Byte) (hb : st.log_buf = some buf)
    (hwf : st.AccWF) :
    (devlog_putc_flush al st buf).AccWF ∧
      (st.capOk → (devlog_putc_flush al st buf).capOk) ∧
      (devlog_putc_flush al st buf).log_pos = 0 ∧
      ((devlog_putc_flush al st buf).log_len = st.log_len ∨
        (LOG_INCREMENT < st.log_len ∧ (devlog_putc_flush al st buf).log_len = LOG_INCREMENT)) ∧
      (al.shrink = true → st.capOk → (devlog_putc_flush al st buf).log_len = LOG_INCREMENT) := by
  unfold State.AccWF at hwf
  rw [hb] at hwf
  have hcap : st.capOk ↔ LOG_INCREMENT ≤ st.log_len := by simp [State.capOk, hb]
  unfold devlog_putc_flush
  simp only
  by_cases hbig : st.log_len > LOG_INCREMENT
  · cases hs : al.shrink with
    | true =>
      simp only [hbig, if_true, State.AccWF, State.capOk, realloc, Option.getD_some,
        List.length_append, List.length_take, List.length_replicate]
      refine ⟨⟨by simp [LOG_INCREMENT] at hbig ⊢; omega, Nat.zero_le _⟩, fun _ => Nat.le_refl _,
        trivial, Or.inr ⟨trivial, trivial⟩, fun _ _ => trivial⟩
    | false =>
      simp only [hbig, if_true, Bool.false_eq_true, if_false, State.AccWF, State.capOk, hb]
      exact ⟨⟨hwf.1, Nat.zero_le _⟩, fun h => by simpa [State.capOk, hb] using h, trivial,
        Or.inl trivial, fun h => by cases h⟩
  · simp only [hbig, if_false, State.AccWF, State.capOk, hb]
    refine ⟨⟨hwf.1, Nat.zero_le _⟩, fun h => by simpa [State.capOk, hb] using h, trivial,
      Or.inl trivial, fun _ h => ?_⟩
    omega

/-- What follows the store in `devlog_putc`: the flush, when the byte is a newline and a
sink is set. -/
theorem after_store_inv (al : Alloc) (s1 : State) (c : Byte) (buf1 : List Byte)
    (hb : s1.log_buf = some buf1) (hwf : s1.AccWF) :
    (if c = LF ∧ (s1.dest_pcb.isSome ∨ s1.dest_file.isSome) then
        devlog_putc_flush al s1 (s1.log_buf.getD []) else s1).AccWF ∧
      (s1.capOk → (if c = LF ∧ (s1.dest_pcb.isSome ∨ s1.dest_file.isSome) then
        devlog_putc_flush al s1 (s1.log_buf.getD []) else s1).capOk) ∧
      ((if c = LF ∧ (s1.dest_pcb.isSome ∨ s1.dest_file.isSome) then
          devlog_putc_flush al s1 (s1.log_buf.getD []) else s1).log_len = s1.log_len ∨
        (c = LF ∧ s1.hasSink = true ∧ LOG_INCREMENT < s1.log_len ∧
          (if c = LF ∧ (s1.dest_pcb.isSome ∨ s1.dest_file.isSome) then
            devlog_putc_flush al s1 (s1.log_buf.getD []) else s1).log_pos = 0 ∧
          (if c = LF ∧ (s1.dest_pcb.isSome ∨ s1.dest_file.isSome) then
            devlog_putc_flush al s1 (s1.log_buf.getD []) else s1).log_len = LOG_INCREMENT)) ∧
      (c = LF → s1.hasSink = true →
        (if c = LF ∧ (s1.dest_pcb.isSome ∨ s1.dest_file.isSome) then
          devlog_putc_flush al s1 (s1.log_buf.getD []) else s1).log_pos = 0 ∧
        (al.shrink = true → s1.capOk →
          (if c = LF ∧ (s1.dest_pcb.isSome ∨ s1.dest_file.isSome) then
            devlog_putc_flush al s1 (s1.log_buf.getD []) else s1).log_len = LOG_INCREMENT)) := by
  have hsink : (s1.dest_pcb.isSome = true ∨ s1.dest_file.isSome = true) ↔ s1.hasSink = true := by
    simp only [State.hasSink, Bool.or_eq_true]
  have hget : s1.log_buf.getD [] = buf1 := by rw [hb]; rfl
  obtain ⟨f1, f2, f3, f4, f5⟩ := flush_inv al s1 buf1 hb hwf
  by_cases hc : c = LF ∧ s1.hasSink = true
  · have hc' : c = LF ∧ (s1.dest_pcb.isSome = true ∨ s1.dest_file.isSome = true) :=
      ⟨hc.1, hsink.mpr hc.2⟩
    simp only [hc', and_self, if_true, hget]
    refine ⟨f1, f2, ?_, fun _ _ => ⟨f3, f5⟩⟩
    rcases f4 with h | h
    · exact Or.inl h
    · exact Or.inr ⟨trivial, hc.2, h.1, f3, h.2⟩
  · have hc' : ¬ (c = LF ∧ (s1.dest_pcb.isSome = true ∨ s1.dest_file.isSome = true)) :=
      fun h => hc ⟨h.1, hsink.mp h.2⟩
    simp only [hc', if_false]
    exact ⟨hwf, fun h => h, Or.inl trivial, fun h1 h2 => absurd ⟨h1, h2⟩ hc⟩

theorem hasSink_grow (al : Alloc) (st : State) :
    (devlog_putc_grow al st).hasSink = st.hasSink := by
  obtain ⟨-, h2, h3, -⟩ := devlog_putc_grow_frame al st
  simp only [State.hasSink, h2, h3]

theorem hasSink_store (st : State) (buf : List Byte) (c : Byte) :
    (devlog_putc_store st buf c).hasSink = st.hasSink := by
  obtain ⟨-, h2, h3, -⟩ := devlog_putc_store_frame st buf c
  simp only [State.hasSink, h2, h3]

/-- The grow block and what follows the store, from a state `s1` that is the grown state or
the grown state after the store. -/
theorem grown_then_flush_inv (al : Alloc) (st s1 : State) (c : Byte) (hwf : st.AccWF)
    (buf : List Byte) (hb : (devlog_putc_grow al st).log_buf = some buf)
    (hs1 : s1 = devlog_putc_grow al st ∨ s1 = devlog_putc_store (devlog_putc_grow al st) buf c) :
    (if c = LF ∧ (s1.dest_pcb.isSome ∨ s1.dest_file.isSome) then
        devlog_putc_flush al s1 (s1.log_buf.getD []) else s1).AccWF ∧
      (st.capOk → (if c = LF ∧ (s1.dest_pcb.isSome ∨ s1.dest_file.isSome) then
        devlog_putc_flush al s1 (s1.log_buf.getD []) else s1).capOk) ∧
      st.capChange (if c = LF ∧ (s1.dest_pcb.isSome ∨ s1.dest_file.isSome) then
        devlog_putc_flush al s1 (s1.log_buf.getD []) else s1) c := by
  obtain ⟨g1, g2, g3, g4, -⟩ := grow_inv al st hwf
  obtain ⟨t1, t2, t3, ⟨b1, t4⟩, -⟩ := store_inv (devlog_putc_grow al st) buf c hb g1
  have hfacts : s1.AccWF ∧ s1.log_len = (devlog_putc_grow al st).log_len ∧
      (st.capOk → s1.capOk) ∧ (∃ b, s1.log_buf = some b) ∧ s1.hasSink = st.hasSink := by
    rcases hs1 with h | h
    · rw [h]; exact ⟨g1, rfl, g2, ⟨buf, hb⟩, hasSink_grow al st⟩
    · rw [h]
      exact ⟨t1, t2, fun hc => t3 (g2 hc), ⟨b1, t4⟩, by rw [hasSink_store, hasSink_grow]⟩
  obtain ⟨w1, w2, w3, ⟨b, w4⟩, w5⟩ := hfacts
  obtain ⟨a1, a2, a3, -⟩ := after_store_inv al s1 c b w4 w1
  refine ⟨a1, fun hc => a2 (w3 hc), ?_⟩
  unfold State.capChange
  rcases a3 with h | h
  · rw [h, w2]
    rcases g4 with h4 | h4
    · exact Or.inl h4
    · exact Or.inr (Or.inl h4)
  · exact Or.inr (Or.inr ⟨h.1, by rw [← w5]; exact h.2.1, h.2.2.2.1, h.2.2.2.2⟩)

/-- One call of the shared part of `devlog_putc`, whatever the outcome of its allocations. -/
theorem shared_putc_inv (al : Alloc) (st : State) (c : Byte) (hwf : st.AccWF) :
    (devlog_putc_body al (devlog_putc_grow al st) c).AccWF ∧
      (st.capOk → (devlog_putc_body al (devlog_putc_grow al st) c).capOk) ∧
      st.capChange (devlog_putc_body al (devlog_putc_grow al st) c) c := by
  obtain ⟨g1, g2, g3, g4, -⟩ := grow_inv al st hwf
  unfold devlog_putc_body
  cases hb : (devlog_putc_grow al st).log_buf with
  | none =>
    refine ⟨g1, g2, ?_⟩
    unfold State.capChange
    rcases g4 with h4 | h4
    · exact Or.inl h4
    · exact Or.inr (Or.inl h4)
  | some buf =>
    exact grown_then_flush_inv al st _ c hwf buf hb (Or.inr rfl)

/-- One call of the standalone `devlog_putc`, whatever the outcome of its allocations. -/
theorem standalone_putc_inv (al : Alloc) (st : State) (c : Byte) (hwf : st.AccWF) :
    (Standalone.devlog_putc al st c).AccWF ∧
      (st.capOk → (Standalone.devlog_putc al st c).capOk) ∧
      st.capChange (Standalone.devlog_putc al st c) c := by
  obtain ⟨g1, g2, g3, g4, -⟩ := grow_inv al st hwf
  unfold Standalone.devlog_putc Standalone.devlog_putc_body
  cases hb : (devlog_putc_grow al st).log_buf with
  | none =>
    refine ⟨g1, g2, ?_⟩
    unfold State.capChange
    rcases g4 with h4 | h4
    · exact Or.inl h4
    · exact Or.inr (Or.inl h4)
  | some buf =>
    by_cases hc : c = CR
    · have := grown_then_flush_inv al st (devlog_putc_grow al st) c hwf buf hb (Or.inl rfl)
      simpa [hc] using this
    · have := grown_then_flush_inv al st _ c hwf buf hb (Or.inr rfl)
      simpa [hc] using this

/-- One call of the component `devlog_putc`, whatever the outcome of its allocations. -/
theorem component_putc_inv (al : Alloc) (st : State) (c : Byte) (hwf : st.AccWF)
    (hr : st.ringOk) :
    ∃ st1, Component.devlog_putc al st c = some st1 ∧ st1.AccWF ∧ st1.ringOk ∧
      (st.capOk → st1.capOk) ∧ st.capChange st1 c := by
  obtain ⟨st1, h1, hr1⟩ := component_putc_some al st c hr
  refine ⟨st1, h1, ?_⟩
  by_cases hc : c = CR
  · have : st1 = st := by
      simp only [Component.devlog_putc, hc, if_true, Option.some.injEq] at h1
      exact h1.symm
    rw [this]
    exact ⟨hwf, hr, fun h => h, Or.inl rfl⟩
  · obtain ⟨rb1, hrb, -⟩ := rb_put_some st.dest_rb c hr
    simp only [Component.devlog_putc, if_neg hc, hrb, Option.some.injEq] at h1
    have hinv := shared_putc_inv al { st with dest_rb := rb1 } c hwf
    rw [h1] at hinv
    exact ⟨hinv.1, hr1, hinv.2.1, hinv.2.2⟩

theorem accWF_pos_le (st : State) (h : st.AccWF) : st.log_pos ≤ st.log_len := by
  unfold State.AccWF at h
  cases hb : st.log_buf with
  | none => rw [hb] at h; omega
  | some b => rw [hb] at h; exact h.2

theorem grow_writeInRange (al : Alloc) (st : State) (c : Byte) (hwf : st.AccWF) :
    (devlog_putc_grow al st).writeInRange c := by
  intro buf hb
  obtain ⟨g1, -⟩ := grow_inv al st hwf
  obtain ⟨-, -, -, -, h5⟩ := store_inv (devlog_putc_grow al st) buf c hb g1
  refine ⟨?_, h5⟩
  unfold State.AccWF at g1
  rw [hb] at g1
  exact g1.1

theorem component_ingest_inv : ∀ (xs : List (Alloc × Byte)) (st : State), st.AccWF →
    st.capOk → st.ringOk →
    ∃ s, Component.ingest st xs = some s ∧ s.AccWF ∧ s.capOk ∧ s.ringOk := by
  intro xs
  induction xs with
  | nil => intro st h1 h2 h3; exact ⟨st, rfl, h1, h2, h3⟩
  | cons x rest ih =>
    intro st h1 h2 h3
    obtain ⟨st1, e1, w1, r1, c1, -⟩ := component_putc_inv x.1 st x.2 h1 h3
    obtain ⟨s, e2, w2, c2, r2⟩ := ih st1 w1 (c1 h2) r1
    exact ⟨s, by simp only [Component.ingest, e1, e2], w2, c2, r2⟩

theorem standalone_ingest_inv : ∀ (xs : List (Alloc × Byte)) (st : State), st.AccWF →
    st.capOk → (Standalone.ingest st xs).AccWF ∧ (Standalone.ingest st xs).capOk := by
  intro xs
  induction xs with
  | nil => intro st h1 h2; exact ⟨h1, h2⟩
  | cons x rest ih =>
    intro st h1 h2
    obtain ⟨w1, c1, -⟩ := standalone_putc_inv x.1 st x.2 h1
    exact ih _ w1 (c1 h2)

/-- The state the standalone `devlog_full_init` produces satisfies the invariant, whether or
not its allocation succeeds. -/
theorem standalone_full_init_inv (malloc_ok : Bool) (e : Standalone.early_t) (st0 : State)
    (hp : e.pos ≤ e.buf.length) (h0 : st0.log_pos = 0 ∧ st0.log_len = 0) :
    (Standalone.devlog_full_init true malloc_ok e st0).AccWF ∧
      (Standalone.devlog_full_init true malloc_ok e st0).capOk := by
  cases malloc_ok with
  | false =>
    simp only [Standalone.devlog_full_init, if_true, Bool.false_eq_true, if_false, State.AccWF,
      State.capOk, and_true]
    exact h0
  | true =>
    refine ⟨Standalone.full_init_wf e st0 hp, ?_⟩
    obtain ⟨-, -, f3⟩ := Standalone.full_init_eq e st0 hp
    have hwf := Standalone.full_init_wf e st0 hp
    unfold State.capOk
    split
    · trivial
    · rw [f3]; omega

/-- The state the component `devlog_full_init` produces satisfies the invariant and has no
ring, whether or not its allocation succeeds. -/
theorem component_full_init_inv (malloc_ok : Bool) (st0 : State) (r : ringbuf_t)
    (hr : st0.dest_rb = some r) (hwf : r.WF) (h0 : st0.log_pos = 0 ∧ st0.log_len = 0) :
    ∃ s0, Component.devlog_full_init true malloc_ok st0 = some s0 ∧ s0.AccWF ∧ s0.capOk ∧
      s0.dest_rb = none := by
  cases malloc_ok with
  | false =>
    refine ⟨{ st0 with log_buf := none, dest_rb := none }, ?_, ?_, trivial, rfl⟩
    · simp [Component.devlog_full_init, hr]
    · exact h0
  | true =>
    have hg := rb_get_all_eq r r.active true hwf.1 hwf.2.1
    have hlen : (r.contents.take r.active).length = r.active := by
      rw [List.length_take, contents_length]; omega
    refine ⟨{ st0 with
        log_buf := some (r.contents.take r.active ++
          List.replicate (r.active + LOG_INCREMENT - (r.contents.take r.active).length) 0),
        log_pos := r.active, log_len := r.active + LOG_INCREMENT, dest_rb := none },
      by simp only [Component.devlog_full_init, if_true, hr, hg], ?_, ?_, rfl⟩
    · simp only [State.AccWF, List.length_append, List.length_replicate, hlen]
      omega
    · simp only [State.capOk]
      omega

theorem shared_putc_newline_cap (al : Alloc) (hg : al.grow = true) (hsh : al.shrink = true)
    (st : State) (hwf : st.AccWF) (hcap : st.capOk) (hs : st.hasSink = true) :
    (devlog_putc_body al (devlog_putc_grow al st) LF).log_len = LOG_INCREMENT := by
  obtain ⟨g1, g2, -, -, g5⟩ := grow_inv al st hwf
  obtain ⟨hne, -⟩ := g5 hg
  cases hb : (devlog_putc_grow al st).log_buf with
  | none => exact absurd hb hne
  | some buf =>
    obtain ⟨t1, -, t3, ⟨b1, t4⟩, -⟩ := store_inv (devlog_putc_grow al st) buf LF hb g1
    obtain ⟨-, -, -, a4⟩ := after_store_inv al _ LF b1 t4 t1
    have hsink : (devlog_putc_store (devlog_putc_grow al st) buf LF).hasSink = true := by
      rw [hasSink_store, hasSink_grow]; exact hs
    have := (a4 rfl hsink).2 hsh (t3 (g2 hcap))
    unfold devlog_putc_body
    rw [hb]
    exact this

/-- C13 as stated fails: with no sink configured a newline is only appended; from the state
with no sink and no accumulator the length afterwards is 1, not 0, in both variants. -/
theorem newline_without_sink_counterexample :
    (Component.devlog_putc Alloc.ok exampleState LF).map (fun s => (s.log_pos, s.out)) =
        some (1, []) ∧
      (Standalone.devlog_putc Alloc.ok exampleState LF).log_pos = 1 := by
  decide

/-- C13 (amended): for every pipeline state that satisfies the accumulator invariant, when at
least one sink (file or datagram) is configured and every allocation succeeds, after a
newline is ingested through `devlog_putc` the non-empty completed lines have been
dispatched, the accumulator's length is zero and its capacity is the 160-byte baseline,
in both variants; when no sink is configured the newline is only appended and nothing
is dispatched. -/
theorem newline_flushes_and_resets (st : State) (hwf : st.AccWF) (hcap : st.capOk) :
    (st.hasSink = true →
      (st.ringOk → ∃ st1, Component.devlog_putc Alloc.ok st LF = some st1 ∧
        st1.out = st.out ++ (nonEmptyRuns st.content).flatMap (dispatch st) ∧
        st1.log_pos = 0 ∧ st1.content = [] ∧ st1.log_len = 160) ∧
      ((Standalone.devlog_putc Alloc.ok st LF).out =
          st.out ++ (nonEmptyRuns st.content).flatMap (dispatch st) ∧
        (Standalone.devlog_putc Alloc.ok st LF).log_pos = 0 ∧
        (Standalone.devlog_putc Alloc.ok st LF).content = [] ∧
        (Standalone.devlog_putc Alloc.ok st LF).log_len = 160)) ∧
    (st.hasSink = false →
      (st.ringOk → ∃ st1, Component.devlog_putc Alloc.ok st LF = some st1 ∧
        st1.out = st.out ∧ st1.content = st.content ++ [LF]) ∧
      ((Standalone.devlog_putc Alloc.ok st LF).out = st.out ∧
        (Standalone.devlog_putc Alloc.ok st LF).content = st.content ++ [LF])) := by
  have hne : LF ≠ CR := by decide
  have hst := standalone_putc_step Alloc.ok rfl (fun _ => rfl) st hwf LF hne
  have hcapS : (Standalone.devlog_putc Alloc.ok st LF).log_len = LOG_INCREMENT ∨
      st.hasSink = false := by
    cases hs : st.hasSink with
    | false => exact Or.inr rfl
    | true =>
      left
      rw [Standalone.devlog_putc, standalone_body_eq _ _ _ hne]
      exact shared_putc_newline_cap Alloc.ok rfl rfl st hwf hcap hs
  constructor
  · intro hs
    constructor
    · intro hr
      obtain ⟨st1, h1, _, _, _, h5⟩ :=
        component_putc_step Alloc.ok rfl (fun _ => rfl) st hwf hr LF hne
      rw [if_pos ⟨rfl, hs⟩, nonEmptyLines_newline] at h5
      refine ⟨st1, h1, h5.1, h5.2, content_nil_of_pos_zero st1 h5.2, ?_⟩
      obtain ⟨rb1, hrb, -⟩ := rb_put_some st.dest_rb LF hr
      simp only [Component.devlog_putc, if_neg hne, hrb, Option.some.injEq] at h1
      rw [← h1]
      exact shared_putc_newline_cap Alloc.ok rfl rfl { st with dest_rb := rb1 } hwf hcap hs
    · rw [if_pos ⟨rfl, hs⟩, nonEmptyLines_newline] at hst
      refine ⟨hst.2.2.1, hst.2.2.2, content_nil_of_pos_zero _ hst.2.2.2, ?_⟩
      rcases hcapS with h | h
      · exact h
      · rw [hs] at h; cases h
  · intro hs
    have hno : ¬ (LF = LF ∧ st.hasSink = true) := by rw [hs]; simp
    constructor
    · intro hr
      obtain ⟨st1, h1, _, _, _, h5⟩ :=
        component_putc_step Alloc.ok rfl (fun _ => rfl) st hwf hr LF hne
      rw [if_neg hno] at h5
      exact ⟨st1, h1, h5.1, h5.2⟩
    · rw [if_neg hno] at hst
      exact hst.2.2

/-- Witness of C13 (amended): the state with both sinks set and "ab\n\ncd" accumulated. -/
theorem newline_flushes_and_resets_witness :
    ∃ st1, Component.devlog_putc Alloc.ok exampleDeferredState LF = some st1 ∧
      st1.out = exampleDeferredState.out ++
        (nonEmptyRuns exampleDeferredState.content).flatMap (dispatch exampleDeferredState) ∧
      st1.log_pos = 0 ∧ st1.content = [] ∧ st1.log_len = 160 :=
  ((newline_flushes_and_resets exampleDeferredState ⟨rfl, by decide⟩ (by decide)).1 rfl).1
    (fun _ h => by cases h)

/-- C20: from the state produced by `devlog_full_init` (whether or not its allocation
succeeds), after ingesting any byte sequence through `devlog_putc`, under any sink
configuration and whatever the outcome of each growth, packet or shrink allocation, in
both variants: the length does not exceed the capacity (`log_pos <= log_len`, and the
capacity is the size of the block); in the next call the store, if any, lands at an index
below the capacity; and the capacity changes only by growing by exactly 160 when the
buffer is full (or absent) or by being reset to 160 after a flush. -/
theorem accumulator_invariant (malloc_ok : Bool) (st0 : State)
    (h0 : st0.log_pos = 0 ∧ st0.log_len = 0) (xs : List (Alloc × Byte)) (al : Alloc)
    (c : Byte) :
    (∀ r, st0.dest_rb = some r → r.WF →
      ∃ s0 s s1, Component.devlog_full_init true malloc_ok st0 = some s0 ∧
        Component.ingest s0 xs = some s ∧ Component.devlog_putc al s c = some s1 ∧
        s.AccWF ∧ s.log_pos ≤ s.log_len ∧ (devlog_putc_grow al s).writeInRange c ∧
        s.capChange s1 c ∧ s1.AccWF) ∧
    (∀ e : Standalone.early_t, e.pos ≤ e.buf.length →
      (Standalone.ingest (Standalone.devlog_full_init true malloc_ok e st0) xs).AccWF ∧
      (Standalone.ingest (Standalone.devlog_full_init true malloc_ok e st0) xs).log_pos ≤
        (Standalone.ingest (Standalone.devlog_full_init true malloc_ok e st0) xs).log_len ∧
      (devlog_putc_grow al
        (Standalone.ingest (Standalone.devlog_full_init true malloc_ok e st0) xs)).writeInRange
          c ∧
      (Standalone.ingest (Standalone.devlog_full_init true malloc_ok e st0) xs).capChange
        (Standalone.devlog_putc al
          (Standalone.ingest (Standalone.devlog_full_init true malloc_ok e st0) xs) c) c ∧
      (Standalone.devlog_putc al
        (Standalone.ingest (Standalone.devlog_full_init true malloc_ok e st0) xs) c).AccWF) := by
  constructor
  · intro r hr hwf
    obtain ⟨s0, e0, w0, c0, hnone⟩ := component_full_init_inv malloc_ok st0 r hr hwf h0
    have hr0 : s0.ringOk := fun r h => by rw [hnone] at h; cases h
    obtain ⟨s, e1, w1, c1, r1⟩ := component_ingest_inv xs s0 w0 c0 hr0
    obtain ⟨s1, e2, w2, -, -, ch⟩ := component_putc_inv al s c w1 r1
    exact ⟨s0, s, s1, e0, e1, e2, w1, accWF_pos_le s w1, grow_writeInRange al s c w1, ch, w2⟩
  · intro e hp
    obtain ⟨w0, c0⟩ := standalone_full_init_inv malloc_ok e st0 hp h0
    obtain ⟨w1, c1⟩ := standalone_ingest_inv xs _ w0 c0
    obtain ⟨w2, -, ch⟩ := standalone_putc_inv al _ c w1
    exact ⟨w1, accWF_pos_le _ w1, grow_writeInRange al _ c w1, ch, w2⟩

/-- Witness of C20: the component early ring holding "hi\n", the standalone early buffer
holding "ab" with 12 bytes dropped, then the bytes "a\n" and one more call. -/
theorem accumulator_invariant_witness :
    (∃ s0 s s1, Component.devlog_full_init true true exampleBootState = some s0 ∧
        Component.ingest s0 (allOk [97, 10]) = some s ∧
        Component.devlog_putc Alloc.ok s 98 = some s1 ∧
        s.AccWF ∧ s.log_pos ≤ s.log_len ∧ (devlog_putc_grow Alloc.ok s).writeInRange 98 ∧
        s.capChange s1 98 ∧ s1.AccWF) ∧
      (Standalone.ingest (Standalone.devlog_full_init true true Standalone.exampleEarly
          exampleBootState) (allOk [97, 10])).AccWF :=
  ⟨(accumulator_invariant true exampleBootState ⟨rfl, rfl⟩ (allOk [97, 10]) Alloc.ok 98).1
      { start := 0, end_ := 3, active := 3, size := 8, buffer := [104, 105, 10, 0, 0, 0, 0, 0] }
      rfl (by decide),
    ((accumulator_invariant true exampleBootState ⟨rfl, rfl⟩ (allOk [97, 10]) Alloc.ok 98).2
      Standalone.exampleEarly (by
        show 2 ≤ ([97, 98] ++ List.replicate 4094 0).length
        rw [List.length_append, List.length_replicate]
        decide)).1⟩

/-- C14 fails on the code: `devlog_set_retention_destination(0)` succeeds and installs a ring
of size 0; the first byte other than CR then ingested makes `rb_put` compute
`(end + 1) % 0`, which is undefined, so the ingestion has no defined result. -/
theorem retention_size_zero_undefined :
    Component.devlog_set_retention_destination true true exampleState 0 =
        some (0, { exampleState with dest_rb := some exampleRing0 }) ∧
      rb_put (some exampleRing0) 65 = none ∧
      Component.devlog_putc Alloc.ok { exampleState with dest_rb := some exampleRing0 } 65 =
        none ∧
      Component.ingest { exampleState with dest_rb := some exampleRing0 } (allOk [65]) =
        none := by
  decide

theorem put_full_explicit (r : ringbuf_t) (c : Byte) (h : r.WF) (hfull : r.active = r.size) :
    r.put c = some { r with buffer := r.buffer.set r.start c,
                            end_ := (r.start + 1) % r.size,
                            start := (r.start + 1) % r.size } := by
  obtain ⟨h0, hs, -, -, he⟩ := h
  have he1 : r.end_ = r.start := by
    rw [he, hfull, Nat.add_mod_right, Nat.mod_eq_of_lt hs]
  simp [ringbuf_t.put, Nat.pos_iff_ne_zero.mp h0, hfull, he1]

theorem get_wf (r : ringbuf_t) (h : r.WF) :
    ∃ r1, (rb_get (some r)).map Prod.fst = some (some r1) ∧ r1.WF ∧ r1.size = r.size := by
  obtain ⟨h0, hs, ha, hb, he⟩ := h
  by_cases hz : r.active = 0
  · exact ⟨r, by simp [rb_get, hz], ⟨h0, hs, ha, hb, he⟩, rfl⟩
  · refine ⟨{ r with start := (r.start + 1) % r.size, active := r.active - 1 },
      by simp [rb_get, hz, Nat.pos_iff_ne_zero.mp h0], ?_, rfl⟩
    refine ⟨h0, Nat.mod_lt _ h0, by simp only; omega, hb, ?_⟩
    simp only
    rw [he, Nat.mod_add_mod]
    congr 1
    omega

theorem get_all_wf (r : ringbuf_t) (h : r.WF) (size : Int) (clear : Bool) :
    ∃ r1, (rb_get_all (some r) size clear).map (fun x => x.2.2) = some (some r1) ∧ r1.WF ∧
      r1.size = r.size := by
  by_cases hz : r.active = 0
  · exact ⟨r, by simp [rb_get_all, hz], h, rfl⟩
  · obtain ⟨w, hw⟩ := rb_get_all_loop_some r size h.1 r.active 0 r.start []
    cases clear with
    | false => exact ⟨r, by simp [rb_get_all, hz, hw], h, rfl⟩
    | true =>
      refine ⟨{ r with start := 0, end_ := 0, active := 0 }, by simp [rb_get_all, hz, hw],
        ?_, rfl⟩
      obtain ⟨h0, -, -, hb, -⟩ := h
      exact ⟨h0, h0, Nat.zero_le _, hb, by simp⟩

theorem runOps_wf : ∀ (ops : List RingOp) (r : ringbuf_t), r.WF →
    ∃ r1, runOps (some r) ops = some (some r1) ∧ r1.WF ∧ r1.size = r.size := by
  intro ops
  induction ops with
  | nil => intro r h; exact ⟨r, rfl, h, rfl⟩
  | cons op rest ih =>
    intro r h
    have hstep : ∃ r1, op.apply (some r) = some (some r1) ∧ r1.WF ∧ r1.size = r.size := by
      cases op with
      | put c =>
        obtain ⟨r1, h1, h2, h3, -⟩ := put_contents r c h
        exact ⟨r1, by simp [RingOp.apply, rb_put, h1], h2, h3⟩
      | get => exact get_wf r h
      | get_all size clear => exact get_all_wf r h size clear
    obtain ⟨r1, e1, w1, s1⟩ := hstep
    obtain ⟨r2, e2, w2, s2⟩ := ih r1 w1
    exact ⟨r2, by simp only [runOps, e1, e2], w2, by omega⟩

theorem vfs_write_state (ss : Streams) (w : Nat) (st : State) (fd : Int)
    (data : List (Alloc × Byte)) (hfd : fd = 1 ∨ fd = 2) :
    (Component.devlog_vfs_write ss true w st fd data).map (fun r => r.2.2.1) =
      Component.ingest st data := by
  have hvalid : ¬ (fd ≠ STDOUT_FD ∧ fd ≠ STDERR_FD) := by
    simp only [STDOUT_FD, STDERR_FD]; omega
  unfold Component.devlog_vfs_write
  rw [if_neg hvalid]
  simp only [if_true]
  cases Component.ingest st data with
  | none => rfl
  | some st1 =>
    simp only
    split
    · rfl
    · split <;> rfl

namespace Standalone

/-- The wrapped value is a 32-bit signed integer. -/
theorem wrap32_range (x : Int) : -2147483648 ≤ wrap32 x ∧ wrap32 x < 2147483648 := by
  unfold wrap32
  omega

/-- One `early_putc` call keeps the early-buffer invariant. -/
theorem early_putc_inv (e : early_t) (c : Byte) (h : e.Inv) : (early_putc true e c).Inv := by
  obtain ⟨h1, h2, h3, h4, h5⟩ := h
  unfold early_putc
  by_cases hlt : e.pos < EARLY_BUFFER_SIZE
  · by_cases hc : c = CR
    · simp only [if_true, hlt, hc, ne_eq, not_true_eq_false, if_false]
      exact ⟨h1, h2, h3, h4, h5⟩
    · simp only [if_true, hlt, hc, ne_eq, not_false_eq_true]
      refine ⟨hlt, by simpa using h2, ?_, h4, h5⟩
      rw [take_succ_set _ _ _ (by omega)]
      intro hmem
      rcases List.mem_append.mp hmem with hm | hm
      · exact h3 hm
      · rw [List.mem_singleton] at hm
        exact hc hm.symm
  · simp only [if_true, hlt, if_false]
    exact ⟨h1, h2, h3, (wrap32_range _).1, (wrap32_range _).2⟩

/-- The zero-initialised early buffer satisfies the invariant. -/
theorem early_init_inv : early_init.Inv := by
  refine ⟨Nat.zero_le _, early_init_length, ?_, by decide, by decide⟩
  show CR ∉ List.take 0 early_init.buf
  simp

/-- Any sequence of `early_putc` calls keeps the early-buffer invariant. -/
theorem early_write_inv : ∀ (cs : List Byte) (e : early_t), e.Inv → (early_write e cs).Inv := by
  intro cs
  induction cs with
  | nil => intro e h; exact h
  | cons c rest ih =>
    intro e h
    rw [early_write_cons]
    exact ih _ (early_putc_inv e c h)


/-- Writing a concatenation is writing the parts in turn. -/
theorem early_write_append (e : early_t) (xs ys : List Byte) :
    early_write e (xs ++ ys) = early_write (early_write e xs) ys := by
  simp only [early_write, List.foldl_append]

/-- After 4096 bytes 'a' the early buffer is full and nothing was dropped. -/
theorem early_full_replicate :
    (early_write early_init (List.replicate 4096 97)).pos = EARLY_BUFFER_SIZE ∧
      (early_write early_init (List.replicate 4096 97)).dropped = 0 := by
  have hpos : early_init.pos = 0 := rfl
  have hdr : early_init.dropped = 0 := rfl
  obtain ⟨h1, h2, -, -⟩ := early_fill (List.replicate 4096 97) early_init early_init_length
    (Or.inr (by rw [hpos, List.length_replicate]; decide))
  rw [hpos, removeCR_replicate _ _ (by decide), List.length_replicate, Nat.zero_add] at h1
  rw [hdr] at h2
  exact ⟨h1, h2⟩

/-- Bytes written to a full early buffer with a zero counter are counted, up to 2^31 - 1. -/
theorem early_dropped_replicate (n : Nat) (hn : (n : Int) < 2147483648) (e : early_t)
    (h1 : e.pos = EARLY_BUFFER_SIZE) (h2 : e.dropped = 0) :
    (early_write e (List.replicate n 98)).pos = EARLY_BUFFER_SIZE ∧
      (early_write e (List.replicate n 98)).dropped = n := by
  have h3 : e.dropped + ((List.replicate n 98).length : Int) < 2147483648 := by
    rw [h2, List.length_replicate]; omega
  have h4 : 0 ≤ e.dropped := by rw [h2]
  have hd := early_drop (List.replicate n 98) e h1 h4 h3
  rw [hd]
  dsimp only
  rw [h2, List.length_replicate, Int.zero_add]
  exact ⟨h1, rfl⟩

/-- The early buffer after 4096 bytes 'a' and `n` more bytes 'b', for `n < 2^31`: full, with
`n` bytes counted. -/
theorem early_full_then_dropped (n : Nat) (hn : (n : Int) < 2147483648) :
    (early_write early_init (List.replicate 4096 97 ++ List.replicate n 98)).pos =
        EARLY_BUFFER_SIZE ∧
      (early_write early_init (List.replicate 4096 97 ++ List.replicate n 98)).dropped = n := by
  rw [early_write_append]
  exact early_dropped_replicate n hn _ early_full_replicate.1 early_full_replicate.2

/-- C21 as stated fails at the top of the counter's range: after 4096 stored bytes and
2^31 - 1 dropped ones the cursor is at the capacity and `dropped` is 2147483647; one more
byte leaves `dropped` at -2147483648, not at 2147483648. -/
theorem early_drop_counter_counterexample :
    (early_write early_init
        (List.replicate 4096 97 ++ List.replicate 2147483647 98)).pos = EARLY_BUFFER_SIZE ∧
      (early_write early_init
        (List.replicate 4096 97 ++ List.replicate 2147483647 98)).dropped = 2147483647 ∧
      (early_putc true (early_write early_init
        (List.replicate 4096 97 ++ List.replicate 2147483647 98)) 99).dropped =
          -2147483648 ∧
      (early_putc true (early_write early_init
        (List.replicate 4096 97 ++ List.replicate 2147483647 98)) 99).dropped ≠
        (early_write early_init
          (List.replicate 4096 97 ++ List.replicate 2147483647 98)).dropped + 1 := by
  obtain ⟨h1, h2⟩ := early_full_then_dropped 2147483647 (by decide)
  have h3 : (early_putc true (early_write early_init
      (List.replicate 4096 97 ++ List.replicate 2147483647 98)) 99).dropped = -2147483648 := by
    simp only [early_putc, if_true, h1, lt_self_iff_false, if_false, h2]
    decide
  refine ⟨h1, h2, h3, ?_⟩
  rw [h3, h2]
  decide

/-- C21 (amended): after any sequence of `early_putc` calls from the zero-initialised state
the write cursor is at most the capacity (4096) and every stored byte is non-CR; and once
the cursor is at the capacity, every further byte leaves the storage and the cursor
unchanged and increments `dropped` by exactly one as long as `dropped` is below
2^31 - 1 (the counter is a 32-bit `int`, which always stays in range). -/
theorem early_buffer_invariant (cs : List Byte) (c : Byte) :
    (early_write early_init cs).pos ≤ EARLY_BUFFER_SIZE ∧
      (∀ b ∈ (early_write early_init cs).buf.take (early_write early_init cs).pos, b ≠ CR) ∧
      (-2147483648 ≤ (early_write early_init cs).dropped ∧
        (early_write early_init cs).dropped < 2147483648) ∧
      ((early_write early_init cs).pos = EARLY_BUFFER_SIZE →
        (early_putc true (early_write early_init cs) c).buf = (early_write early_init cs).buf ∧
        (early_putc true (early_write early_init cs) c).pos = (early_write early_init cs).pos ∧
        ((early_write early_init cs).dropped < 2147483647 →
          (early_putc true (early_write early_init cs) c).dropped =
            (early_write early_init cs).dropped + 1)) := by
  obtain ⟨h1, -, h3, h4, h5⟩ := early_write_inv cs early_init early_init_inv
  refine ⟨h1, fun b hb hcr => h3 (hcr ▸ hb), ⟨h4, h5⟩, ?_⟩
  intro hfull
  simp only [early_putc, if_true, hfull, lt_self_iff_false, if_false, true_and]
  intro hlt
  unfold wrap32
  omega

/-- Witness of C21 (amended): 4096 bytes 'a' and one byte 'b', then a byte 'c': the cursor
stays at 4096 and `dropped` goes from 1 to 2. -/
theorem early_buffer_invariant_witness :
    (early_write early_init (List.replicate 4096 97 ++ List.replicate 1 98)).pos =
        EARLY_BUFFER_SIZE ∧
      (early_putc true (early_write early_init
        (List.replicate 4096 97 ++ List.replicate 1 98)) 99).pos =
        (early_write early_init (List.replicate 4096 97 ++ List.replicate 1 98)).pos ∧
      (early_putc true (early_write early_init
        (List.replicate 4096 97 ++ List.replicate 1 98)) 99).dropped = 2 := by
  obtain ⟨h1, h2⟩ := early_full_then_dropped 1 (by decide)
  obtain ⟨-, -, -, h⟩ :=
    early_buffer_invariant (List.replicate 4096 97 ++ List.replicate 1 98) 99
  obtain ⟨-, hp, hd⟩ := h h1
  refine ⟨h1, hp, ?_⟩
  rw [hd (by rw [h2]; decide), h2]
  rfl

end Standalone

/-- A consistent accumulator holds exactly `log_pos` bytes. -/
theorem content_length_of_accWF (st : State) (h : st.AccWF) :
    st.content.length = st.log_pos := by
  unfold State.AccWF at h
  unfold State.content
  cases hb : st.log_buf with
  | none => rw [hb] at h; simp [h.1]
  | some b =>
    rw [hb] at h
    simp only [Option.getD_some, List.length_take]
    omega

/-- Ingesting, in the component variant, a byte sequence that cannot trigger a flush (no
sink is set, or it has no newline), every allocation succeeding: nothing is forwarded and
the accumulator content grows by the CR-free form of the sequence. -/
theorem component_ingest_quiet : ∀ (cs : List Byte) (st : State), st.AccWF → st.ringOk →
    (st.hasSink = false ∨ LF ∉ cs) →
    ∃ st1, Component.ingest st (allOk cs) = some st1 ∧ st1.AccWF ∧ st1.ringOk ∧
      st.sameSinks st1 ∧ st1.out = st.out ∧ st1.content = st.content ++ removeCR cs := by
  intro cs
  induction cs with
  | nil =>
    intro st hwf hr _
    exact ⟨st, rfl, hwf, hr, ⟨rfl, rfl, rfl, rfl⟩, rfl, by simp [removeCR]⟩
  | cons c rest ih =>
    intro st hwf hr hq
    have hq2 : st.hasSink = false ∨ LF ∉ rest := by
      rcases hq with h | h
      · exact Or.inl h
      · exact Or.inr (fun e => h (List.mem_cons_of_mem _ e))
    by_cases hc : c = CR
    · obtain ⟨st2, h2, hwf2, hr2, hss2, hout2, hct2⟩ := ih st hwf hr hq2
      refine ⟨st2, ?_, hwf2, hr2, hss2, hout2, ?_⟩
      · simp only [allOk, List.map_cons, Component.ingest, Component.devlog_putc, hc, if_true]
        exact h2
      · rw [removeCR_cons, if_pos hc]; exact hct2
    · obtain ⟨st1, h1, hwf1, hr1, hss1, hstep⟩ :=
        component_putc_step Alloc.ok rfl (fun _ => rfl) st hwf hr c hc
      have hno : ¬ (c = LF ∧ st.hasSink = true) := by
        rintro ⟨h1, h2⟩
        rcases hq with h | h
        · rw [h] at h2; cases h2
        · exact h (by rw [h1]; exact List.mem_cons_self _ _)
      rw [if_neg hno] at hstep
      obtain ⟨hd1, hs1⟩ := sameSinks_dispatch st st1 hss1
      obtain ⟨st2, h2, hwf2, hr2, hss2, hout2, hct2⟩ := ih st1 hwf1 hr1 (by
        rcases hq2 with h | h
        · exact Or.inl (hs1.trans h)
        · exact Or.inr h)
      refine ⟨st2, ?_, hwf2, hr2, sameSinks_trans _ _ _ hss1 hss2, ?_, ?_⟩
      · simp only [allOk, List.map_cons, Component.ingest, h1]
        exact h2
      · rw [hout2, hstep.1]
      · rw [hct2, hstep.2, removeCR_cons, if_neg hc]; simp

/-- The standalone counterpart of `component_ingest_quiet`. -/
theorem standalone_ingest_quiet : ∀ (cs : List Byte) (st : State), st.AccWF →
    (st.hasSink = false ∨ LF ∉ cs) →
    (Standalone.ingest st (allOk cs)).AccWF ∧ st.sameSinks (Standalone.ingest st (allOk cs)) ∧
      (Standalone.ingest st (allOk cs)).out = st.out ∧
      (Standalone.ingest st (allOk cs)).content = st.content ++ removeCR cs := by
  intro cs
  induction cs with
  | nil =>
    intro st hwf _
    exact ⟨hwf, ⟨rfl, rfl, rfl, rfl⟩, rfl, by simp [Standalone.ingest, allOk, removeCR]⟩
  | cons c rest ih =>
    intro st hwf hq
    have hq2 : st.hasSink = false ∨ LF ∉ rest := by
      rcases hq with h | h
      · exact Or.inl h
      · exact Or.inr (fun e => h (List.mem_cons_of_mem _ e))
    have hing : Standalone.ingest st (allOk (c :: rest)) =
        Standalone.ingest (Standalone.devlog_putc Alloc.ok st c) (allOk rest) := rfl
    rw [hing, removeCR_cons]
    by_cases hc : c = CR
    · obtain ⟨hwf1, hss1, hout1, hct1⟩ := standalone_putc_cr_step Alloc.ok rfl st hwf
      rw [hc, if_pos rfl]
      obtain ⟨hd1, hs1⟩ := sameSinks_dispatch _ _ hss1
      obtain ⟨hwf2, hss2, hout2, hct2⟩ := ih _ hwf1 (by
        rcases hq2 with h | h
        · exact Or.inl (hs1.trans h)
        · exact Or.inr h)
      exact ⟨hwf2, sameSinks_trans _ _ _ hss1 hss2, by rw [hout2, hout1], by rw [hct2, hct1]⟩
    · obtain ⟨hwf1, hss1, hstep⟩ :=
        standalone_putc_step Alloc.ok rfl (fun _ => rfl) st hwf c hc
      have hno : ¬ (c = LF ∧ st.hasSink = true) := by
        rintro ⟨h1, h2⟩
        rcases hq with h | h
        · rw [h] at h2; cases h2
        · exact h (by rw [h1]; exact List.mem_cons_self _ _)
      rw [if_neg hno] at hstep
      rw [if_neg hc]
      obtain ⟨hd1, hs1⟩ := sameSinks_dispatch _ _ hss1
      obtain ⟨hwf2, hss2, hout2, hct2⟩ := ih _ hwf1 (by
        rcases hq2 with h | h
        · exact Or.inl (hs1.trans h)
        · exact Or.inr h)
      exact ⟨hwf2, sameSinks_trans _ _ _ hss1 hss2, by rw [hout2, hstep.1],
        by rw [hct2, hstep.2]; simp⟩

/-- Ingesting a concatenation, in the component variant, is ingesting the parts in turn. -/
theorem component_ingest_append : ∀ (xs ys : List (Alloc × Byte)) (st st1 : State),
    Component.ingest st xs = some st1 →
    Component.ingest st (xs ++ ys) = Component.ingest st1 ys := by
  intro xs
  induction xs with
  | nil => intro ys st st1 h; cases h; rfl
  | cons x rest ih =>
    intro ys st st1 h
    rw [List.cons_append]
    simp only [Component.ingest] at h ⊢
    cases hp : Component.devlog_putc x.1 st x.2 with
    | none => rw [hp] at h; cases h
    | some s => rw [hp] at h; simp only; exact ih ys s st1 h

theorem standalone_ingest_append (xs ys : List (Alloc × Byte)) (st : State) :
    Standalone.ingest st (xs ++ ys) = Standalone.ingest (Standalone.ingest st xs) ys := by
  simp only [Standalone.ingest, List.foldl_append]

theorem allOk_append (a b : List Byte) : allOk (a ++ b) = allOk a ++ allOk b := by
  simp only [allOk, List.map_append]


/-- C22: lines completed while no sink is configured are deferred, not lost, in both
variants.  From a consistent state with neither a file nor a datagram destination,
ingesting any byte sequence `cs` (every allocation succeeding) forwards nothing and never
resets the accumulator: its content becomes the old content followed by the CR-free form of
`cs`, its length growing by exactly the number of non-CR bytes.  When a destination is then
set and bytes `pre` without a newline followed by a newline are ingested, that first newline
forwards every non-empty line accumulated so far (those already held by `st`, such as the
lines captured before the transition, included) exactly once, in original order, and
empties the accumulator. -/
theorem deferred_lines_forwarded (st : State) (hwf : st.AccWF) (hr : st.ringOk)
    (hs : st.hasSink = false) (cs pre : List Byte) (hpre : LF ∉ pre) (f p : Option Nat)
    (a : Nat) (q : Int) (hfp : (p.isSome || f.isSome) = true) :
    (∃ st1, Component.ingest st (allOk cs) = some st1 ∧ st1.out = st.out ∧
        st1.content = st.content ++ removeCR cs ∧
        st1.log_pos = st.log_pos + (removeCR cs).length ∧
        ∃ st3, Component.ingest (st1.setSinks f p a q) (allOk (pre ++ [LF])) = some st3 ∧
          st3.out = st.out ++
            (nonEmptyLines (st.content ++ removeCR cs ++ removeCR pre ++ [LF])).flatMap
              (dispatch (st1.setSinks f p a q)) ∧
          st3.log_pos = 0) ∧
      ((Standalone.ingest st (allOk cs)).out = st.out ∧
        (Standalone.ingest st (allOk cs)).content = st.content ++ removeCR cs ∧
        (Standalone.ingest st (allOk cs)).log_pos = st.log_pos + (removeCR cs).length ∧
        (Standalone.ingest ((Standalone.ingest st (allOk cs)).setSinks f p a q)
            (allOk (pre ++ [LF]))).out = st.out ++
          (nonEmptyLines (st.content ++ removeCR cs ++ removeCR pre ++ [LF])).flatMap
            (dispatch ((Standalone.ingest st (allOk cs)).setSinks f p a q)) ∧
        (Standalone.ingest ((Standalone.ingest st (allOk cs)).setSinks f p a q)
            (allOk (pre ++ [LF]))).log_pos = 0) := by
  constructor
  · obtain ⟨st1, h1, hwf1, hr1, -, hout1, hct1⟩ :=
      component_ingest_quiet cs st hwf hr (Or.inl hs)
    have hlen : st1.log_pos = st.log_pos + (removeCR cs).length := by
      rw [← content_length_of_accWF st1 hwf1, hct1, List.length_append,
        content_length_of_accWF st hwf]
    refine ⟨st1, h1, hout1, hct1, hlen, ?_⟩
    have hwf2 : (st1.setSinks f p a q).AccWF := hwf1
    have hr2 : (st1.setSinks f p a q).ringOk := hr1
    obtain ⟨s2, h2, hwf3, hr3, hss3, hout3, hct3⟩ :=
      component_ingest_quiet pre (st1.setSinks f p a q) hwf2 hr2 (Or.inr hpre)
    obtain ⟨hd3, hs3⟩ := sameSinks_dispatch _ _ hss3
    have hsink : s2.hasSink = true := by rw [hs3]; exact hfp
    obtain ⟨s3, h3, -, -, -, hstep⟩ :=
      component_putc_step Alloc.ok rfl (fun _ => rfl) s2 hwf3 hr3 LF (by decide)
    rw [if_pos ⟨rfl, hsink⟩] at hstep
    refine ⟨s3, ?_, ?_, hstep.2⟩
    · rw [allOk_append, component_ingest_append _ _ _ _ h2]
      simp only [allOk, List.map_cons, List.map_nil, Component.ingest, h3]
    · rw [hstep.1, hout3, hct3, hd3]
      show st1.out ++ _ = _
      rw [hout1]
      show _ ++ (nonEmptyLines (st1.content ++ removeCR pre ++ [LF])).flatMap _ = _
      rw [hct1]
  · obtain ⟨hwf1, -, hout1, hct1⟩ := standalone_ingest_quiet cs st hwf (Or.inl hs)
    have hlen : (Standalone.ingest st (allOk cs)).log_pos =
        st.log_pos + (removeCR cs).length := by
      rw [← content_length_of_accWF _ hwf1, hct1, List.length_append,
        content_length_of_accWF st hwf]
    refine ⟨hout1, hct1, hlen, ?_⟩
    generalize Standalone.ingest st (allOk cs) = st1 at hwf1 hout1 hct1
    have hwf2 : (st1.setSinks f p a q).AccWF := hwf1
    obtain ⟨hwf3, hss3, hout3, hct3⟩ :=
      standalone_ingest_quiet pre (st1.setSinks f p a q) hwf2 (Or.inr hpre)
    obtain ⟨hd3, hs3⟩ := sameSinks_dispatch _ _ hss3
    have hsink : (Standalone.ingest (st1.setSinks f p a q) (allOk pre)).hasSink = true := by
      rw [hs3]; exact hfp
    obtain ⟨-, -, hstep⟩ := standalone_putc_step Alloc.ok rfl (fun _ => rfl)
      (Standalone.ingest (st1.setSinks f p a q) (allOk pre)) hwf3 LF (by decide)
    rw [if_pos ⟨rfl, hsink⟩] at hstep
    have happ : Standalone.ingest (st1.setSinks f p a q) (allOk (pre ++ [LF])) =
        Standalone.devlog_putc Alloc.ok
          (Standalone.ingest (st1.setSinks f p a q) (allOk pre)) LF := by
      rw [allOk_append, standalone_ingest_append]
      rfl
    rw [happ]
    refine ⟨?_, hstep.2⟩
    rw [hstep.1, hout3, hct3, hd3]
    show st1.out ++ _ = _
    rw [hout1]
    show _ ++ (nonEmptyLines (st1.content ++ removeCR pre ++ [LF])).flatMap _ = _
    rw [hct1]

/-- Witness of C22: the component transition leaves "hi\n" from the early ring in the
accumulator; "cd\r\n" is then ingested with no sink, the file sink 7 is set, and "e\n" is
ingested: the lines "hi", "cd" and "e" are written, in this order, once each (in both
variants). -/
theorem deferred_lines_forwarded_witness :
    Component.devlog_full_init true true exampleBootState = some exampleCapturedState ∧
    ((∃ st1, Component.ingest exampleCapturedState (allOk [99, 100, 13, 10]) = some st1 ∧
        st1.out = [] ∧
        st1.content = [104, 105, 10] ++ [99, 100, 10] ∧
        st1.log_pos = 3 + 3 ∧
        ∃ st3, Component.ingest (st1.setSinks (some 7) none 0 0) (allOk ([101] ++ [LF])) =
            some st3 ∧
          st3.out = [] ++ [Event.fwrite 7 [104, 105], Event.fwrite 7 [99, 100],
            Event.fwrite 7 [101]] ∧
          st3.log_pos = 0) ∧
      ((Standalone.ingest exampleCapturedState (allOk [99, 100, 13, 10])).out = [] ∧
        (Standalone.ingest exampleCapturedState (allOk [99, 100, 13, 10])).content =
          [104, 105, 10] ++ [99, 100, 10] ∧
        (Standalone.ingest exampleCapturedState (allOk [99, 100, 13, 10])).log_pos = 3 + 3 ∧
        (Standalone.ingest ((Standalone.ingest exampleCapturedState
            (allOk [99, 100, 13, 10])).setSinks (some 7) none 0 0)
            (allOk ([101] ++ [LF]))).out = [] ++
          [Event.fwrite 7 [104, 105], Event.fwrite 7 [99, 100], Event.fwrite 7 [101]] ∧
        (Standalone.ingest ((Standalone.ingest exampleCapturedState
            (allOk [99, 100, 13, 10])).setSinks (some 7) none 0 0)
            (allOk ([101] ++ [LF]))).log_pos = 0)) :=
  ⟨rfl, deferred_lines_forwarded exampleCapturedState ⟨rfl, by decide⟩
    (fun _ h => by cases h) rfl [99, 100, 13, 10] [101] (by decide) (some 7) none 0 0 rfl⟩

/-- The early ring as initialised is a consistent empty ring of capacity 4096. -/
theorem early_rb_wf : Component.early_rb.WF ∧ Component.early_rb.contents = [] :=
  empty_ring_wf Component.early_rb Component.CONFIG_DEVLOG_EARLY_BUFFER_SIZE (by decide)
    ⟨rfl, rfl, rfl, rfl, List.length_replicate _ _⟩

/-- Effect of a sequence of `early_putc` calls on the ring `dest_rb` points to: only the ring
changes, and it retains the most recent bytes of what it held followed by the CR-free form
of the sequence. -/
theorem component_early_write_ring : ∀ (cs : List Byte) (st : State) (r : ringbuf_t),
    st.dest_rb = some r → r.WF →
    ∃ r1, Component.early_write st cs = some { st with dest_rb := some r1 } ∧ r1.WF ∧
      r1.size = r.size ∧ r1.contents = lastN r.size (r.contents ++ removeCR cs) := by
  intro cs
  induction cs with
  | nil =>
    intro st r hst hwf
    refine ⟨r, ?_, hwf, rfl, ?_⟩
    · rw [← hst]; rfl
    · rw [lastN_of_le]
      · simp [removeCR]
      · simpa [removeCR, contents_length] using hwf.2.2.1
  | cons c rest ih =>
    intro st r hst hwf
    by_cases hc : c = CR
    · obtain ⟨r1, h1, h2, h3, h4⟩ := ih st r hst hwf
      refine ⟨r1, ?_, h2, h3, ?_⟩
      · simp only [Component.early_write, Component.early_putc, if_true, hc, ne_eq,
          not_true_eq_false, if_false]
        exact h1
      · rw [removeCR_cons, if_pos hc]; exact h4
    · obtain ⟨r1, p1, p2, p3, p4⟩ := put_contents r c hwf
      obtain ⟨r2, h1, h2, h3, h4⟩ := ih { st with dest_rb := some r1 } r1 rfl p2
      refine ⟨r2, ?_, h2, by rw [h3, p3], ?_⟩
      · simp only [Component.early_write, Component.early_putc, if_true, hc, ne_eq,
          not_false_eq_true, hst, rb_put, p1, Option.map_some']
        exact h1
      · rw [h4, p4, p3, removeCR_cons, if_neg hc, lastN_append_lastN]
        simp

/-- C23: in the component variant, for every early byte sequence `cs` written through
`early_putc` from the initial statics, `devlog_full_init` (lock acquired, allocation
succeeding) leaves an accumulator whose content is exactly the last `min(m, 4096)` bytes of
the CR-free form of `cs` (of `m` bytes), in order; its length is `min(m, 4096)` and its
capacity, the size of the block, is that length plus 160; nothing but these bytes is in the
content (on overflow the oldest bytes are gone and no notice is added), nothing is
forwarded, and afterwards `dest_rb` is null. -/
theorem component_early_capture (cs : List Byte) :
    ∃ st0 st1 buf, Component.early_write Component.boot_state cs = some st0 ∧
      Component.devlog_full_init true true st0 = some st1 ∧
      st1.content = lastN 4096 (removeCR cs) ∧
      st1.content = (removeCR cs).drop ((removeCR cs).length - 4096) ∧
      st1.log_pos = min (removeCR cs).length 4096 ∧
      st1.log_len = st1.log_pos + 160 ∧
      st1.log_buf = some buf ∧ buf.length = st1.log_len ∧
      st1.dest_rb = none ∧ st1.out = [] := by
  obtain ⟨hwf0, hc0⟩ := early_rb_wf
  obtain ⟨r1, h1, hwf1, hs1, hc1⟩ :=
    component_early_write_ring cs Component.boot_state Component.early_rb rfl hwf0
  rw [hc0, List.nil_append] at hc1
  have hsz : Component.early_rb.size = 4096 := rfl
  rw [hsz] at hc1
  have hg := rb_get_all_eq r1 r1.active true hwf1.1 hwf1.2.1
  have htake : r1.contents.take r1.active = r1.contents := by
    rw [List.take_of_length_le]; rw [contents_length]
  have hact : r1.active = min (removeCR cs).length 4096 := by
    rw [← contents_length, hc1, lastN_length]
  rw [htake] at hg
  have hlen : r1.contents.length = r1.active := contents_length r1
  refine ⟨{ Component.boot_state with dest_rb := some r1 },
    { Component.boot_state with
        log_buf := some (r1.contents ++
          List.replicate (r1.active + LOG_INCREMENT - r1.contents.length) 0),
        log_pos := r1.active, log_len := r1.active + LOG_INCREMENT, dest_rb := none },
    r1.contents ++ List.replicate (r1.active + LOG_INCREMENT - r1.contents.length) 0,
    h1, ?_, ?_, ?_, hact, rfl, rfl, ?_, rfl, rfl⟩
  · simp only [Component.devlog_full_init, if_true, hg]
  · show List.take r1.active (r1.contents ++ _) = _
    rw [List.take_left' hlen, hc1]
  · show List.take r1.active (r1.contents ++ _) = _
    rw [List.take_left' hlen, hc1]
    rfl
  · show (r1.contents ++ _).length = r1.active + LOG_INCREMENT
    rw [List.length_append, List.length_replicate, hlen]
    omega

/-- One call on a consistent ring is defined, keeps it consistent, and changes the bytes
read from `start` as it changes the bounded queue. -/
theorem ringOp_refines (op : RingOp) (r : ringbuf_t) (h : r.WF) :
    ∃ r1, op.apply (some r) = some (some r1) ∧ r1.WF ∧ r1.size = r.size ∧
      r1.contents = fifoStep r.size r.contents op := by
  cases op with
  | put c =>
    obtain ⟨r1, p1, p2, p3, p4⟩ := put_contents r c h
    exact ⟨r1, by simp [RingOp.apply, rb_put, p1], p2, p3, p4⟩
  | get =>
    by_cases hz : r.active = 0
    · refine ⟨r, by simp [RingOp.apply, rb_get, hz], h, rfl, ?_⟩
      rw [contents_of_active_zero r hz]; rfl
    · obtain ⟨r1, g1, w1, s1⟩ := get_wf r h
      obtain ⟨r2, e2, -, -, -, c2⟩ := rb_get_some r h.1 h.2.1 hz
      rw [e2] at g1
      have hr : r2 = r1 := Option.some.inj (Option.some.inj g1)
      refine ⟨r1, by simp [RingOp.apply, e2, hr], w1, s1, ?_⟩
      rw [← hr, c2]; rfl
  | get_all size clear =>
    by_cases hz : r.active = 0
    · refine ⟨r, by simp [RingOp.apply, rb_get_all, hz], h, rfl, ?_⟩
      rw [contents_of_active_zero r hz]
      cases clear <;> rfl
    · obtain ⟨w, hw⟩ := rb_get_all_loop_some r size h.1 r.active 0 r.start []
      cases clear with
      | false => exact ⟨r, by simp [RingOp.apply, rb_get_all, hz, hw], h, rfl, rfl⟩
      | true =>
        obtain ⟨hwf, hct⟩ := empty_ring_wf { r with start := 0, end_ := 0, active := 0 } r.size
          h.1 ⟨rfl, rfl, rfl, rfl, h.2.2.2.1⟩
        exact ⟨{ r with start := 0, end_ := 0, active := 0 },
          by simp [RingOp.apply, rb_get_all, hz, hw], hwf, rfl, hct⟩

/-- Any sequence of calls on a consistent ring refines the bounded queue. -/
theorem runOps_refines : ∀ (ops : List RingOp) (r : ringbuf_t), r.WF →
    ∃ r1, runOps (some r) ops = some (some r1) ∧ r1.WF ∧ r1.size = r.size ∧
      r1.contents = fifoRun r.size r.contents ops := by
  intro ops
  induction ops with
  | nil => intro r h; exact ⟨r, rfl, h, rfl, rfl⟩
  | cons op rest ih =>
    intro r h
    obtain ⟨r1, e1, w1, s1, c1⟩ := ringOp_refines op r h
    obtain ⟨r2, e2, w2, s2, c2⟩ := ih r1 w1
    refine ⟨r2, by simp only [runOps, e1, e2], w2, by rw [s2, s1], ?_⟩
    rw [c2, c1, s1]
    rfl

/-- C24: ring index consistency.  For every ring of capacity `c > 0` reached from the empty
ring (`start = end = active = 0`, whatever the block holds) by any sequence of `rb_put`,
`rb_get` and `rb_get_all`, every call being defined: `end = (start + active) mod c`, and
the retained bytes in oldest-first order, that is the state of the bounded queue of
capacity `c` after the same calls, are `buffer[(start + i) mod c]` for
`i = 0 .. active - 1`, every index being inside the block. -/
theorem ring_index_consistency (c : Nat) (hc : 0 < c) (r0 : ringbuf_t)
    (h0 : r0.start = 0 ∧ r0.end_ = 0 ∧ r0.active = 0 ∧ r0.size = c ∧ r0.buffer.length = c)
    (ops : List RingOp) :
    ∃ r, runOps (some r0) ops = some (some r) ∧ r.size = c ∧
      r.end_ = (r.start + r.active) % c ∧
      fifoRun c [] ops =
        (List.range r.active).map (fun i => r.buffer.getD ((r.start + i) % c) 0) ∧
      (fifoRun c [] ops).length = r.active ∧
      ∀ i, i < r.active → (r.start + i) % c < r.buffer.length := by
  obtain ⟨hwf0, hc0⟩ := empty_ring_wf r0 c hc h0
  obtain ⟨r, e, hwf, hsz, hct⟩ := runOps_refines ops r0 hwf0
  have hsize : r.size = c := by rw [hsz]; exact h0.2.2.2.1
  rw [hc0, h0.2.2.2.1] at hct
  obtain ⟨w0, w1, w2, w3, w4⟩ := hwf
  refine ⟨r, e, hsize, by rw [w4, hsize], ?_, ?_, ?_⟩
  · rw [← hct, ← hsize]; rfl
  · rw [← hct, contents_length]
  · intro i _
    rw [w3, ← hsize]
    exact Nat.mod_lt _ w0

/-- Witness of C24: a ring of capacity 4 after five `rb_put` ("ABCDE"), one `rb_get`, one
`rb_get_all` without clearing and two more `rb_put` ("FG") retains "DEFG". -/
theorem ring_index_consistency_witness :
    ∃ r, runOps (some exampleRing4)
        [RingOp.put 65, RingOp.put 66, RingOp.put 67, RingOp.put 68, RingOp.put 69,
          RingOp.get, RingOp.get_all 2 false, RingOp.put 70, RingOp.put 71] =
        some (some r) ∧ r.size = 4 ∧
      r.end_ = (r.start + r.active) % 4 ∧
      [68, 69, 70, 71] =
        (List.range r.active).map (fun i => r.buffer.getD ((r.start + i) % 4) 0) ∧
      [68, 69, 70, 71].length = r.active ∧
      ∀ i, i < r.active → (r.start + i) % 4 < r.buffer.length :=
  ring_index_consistency 4 (by decide) exampleRing4 (by decide)
    [RingOp.put 65, RingOp.put 66, RingOp.put 67, RingOp.put 68, RingOp.put 69,
      RingOp.get, RingOp.get_all 2 false, RingOp.put 70, RingOp.put 71]

namespace Standalone

/-- A number below `10^(k+1)` is printed with at most `k + 1` digits. -/
theorem decimalAux_length : ∀ (k fuel n : Nat) (acc : List Byte), n < 10 ^ (k + 1) →
    (decimalAux fuel n acc).length ≤ acc.length + (k + 1) := by
  intro k
  induction k with
  | zero =>
    intro fuel n acc h
    cases fuel with
    | zero => simp [decimalAux]
    | succ fuel =>
      have hz : n / 10 = 0 := by omega
      simp [decimalAux, hz]
  | succ k ih =>
    intro fuel n acc h
    cases fuel with
    | zero => simp [decimalAux]
    | succ fuel =>
      rw [decimalAux]
      by_cases hz : n / 10 = 0
      · simp only [hz, if_true, List.length_cons]; omega
      · simp only [hz, if_false]
        have hlt : n / 10 < 10 ^ (k + 1) := by
          rw [Nat.div_lt_iff_lt_mul (by decide)]
          rw [pow_succ] at h
          exact h
        have := ih fuel (n / 10) ((48 + n % 10) :: acc) hlt
        simp only [List.length_cons] at this
        omega

/-- The conversion `%d` of a 32-bit `int` takes at most 11 characters, none of them NUL. -/
theorem fmt_d_length (d : Int) (h1 : -2147483648 ≤ d) (h2 : d < 2147483648) :
    (fmt_d d).length ≤ 11 ∧ 0 ∉ fmt_d d := by
  have hn : d.natAbs < 10 ^ (9 + 1) := by
    have : d.natAbs ≤ 2147483648 := by omega
    have h10 : (10 : Nat) ^ (9 + 1) = 10000000000 := by norm_num
    omega
  have hl := decimalAux_length 9 (d.natAbs + 1) d.natAbs [] hn
  obtain ⟨ds, e1, -, e3⟩ := decimalAux_spec (d.natAbs + 1) d.natAbs [] (by omega)
  constructor
  · unfold fmt_d
    rw [List.length_append]
    have : (if d < 0 then ([45] : List Byte) else []).length ≤ 1 := by
      split <;> simp
    simp only [List.length_nil] at hl
    omega
  · unfold fmt_d
    rw [e1, List.append_nil]
    intro hmem
    rcases List.mem_append.mp hmem with hm | hm
    · split at hm
      · simp at hm
      · simp at hm
    · exact absurd (e3 0 hm).1 (by decide)

/-- C25: for every value of the 32-bit signed drop counter, the formatted notice together
with its terminating NUL fits in the 64 bytes of `tmp` (it takes at most 53 bytes, and the
notice itself holds no NUL, so the string `strcpy` copies is the notice); and when the
counter is not zero, the block allocated for the accumulator has `len + 160` bytes, where
`len` is the cursor plus the length of the notice, the copy of the notice and its NUL at
offset `pos` ends inside it, and the block still has exactly `len + 160` bytes afterwards. -/
theorem drop_notice_fits (e : early_t) (st : State) (h1 : -2147483648 ≤ e.dropped)
    (h2 : e.dropped < 2147483648) :
    (drop_notice e.dropped ++ [0]).length ≤ TMP_SIZE ∧
      (drop_notice e.dropped ++ [0]).length ≤ 53 ∧
      0 ∉ drop_notice e.dropped ∧
      (e.dropped ≠ 0 →
        ∃ block, (devlog_full_init true true e st).log_buf = some block ∧
          (devlog_full_init true true e st).log_len =
            e.pos + (drop_notice e.dropped).length + 160 ∧
          e.pos + (drop_notice e.dropped ++ [0]).length ≤
            (devlog_full_init true true e st).log_len ∧
          block.length = (devlog_full_init true true e st).log_len) := by
  obtain ⟨hl, hz⟩ := fmt_d_length e.dropped h1 h2
  have ha : (bytes "\n*** ").length = 5 := by decide
  have hb : (bytes " bytes dropped during early logging\n").length = 36 := by decide
  have ha0 : 0 ∉ bytes "\n*** " := by decide
  have hb0 : 0 ∉ bytes " bytes dropped during early logging\n" := by decide
  have hlen : (drop_notice e.dropped ++ [0]).length ≤ 53 := by
    simp only [drop_notice, List.length_append, ha, hb, List.length_singleton]
    omega
  refine ⟨by unfold TMP_SIZE; omega, hlen, ?_, ?_⟩
  · unfold drop_notice
    intro hmem
    rcases List.mem_append.mp hmem with hm | hm
    · rcases List.mem_append.mp hm with hm1 | hm1
      · exact ha0 hm1
      · exact hz hm1
    · exact hb0 hm
  · intro hd
    have htk : (e.buf.take e.pos).length ≤ e.pos := by
      rw [List.length_take]; omega
    simp only [devlog_full_init, hd, ne_eq, not_false_eq_true, if_true, LOG_INCREMENT]
    refine ⟨_, rfl, trivial, ?_, ?_⟩
    · simp only [List.length_append, List.length_singleton]
      omega
    · rw [blit_length, blit_length]
      · simp
      · simp only [List.length_replicate]; omega
      · rw [blit_length]
        · simp only [List.length_replicate, List.length_append, List.length_singleton]
          omega
        · simp only [List.length_replicate]; omega

/-- Witness of C25: the counter at its least value, -2147483648, whose notice is the longest
(52 bytes, 53 with the NUL), with two bytes in the early buffer. -/
theorem drop_notice_fits_witness :
    (drop_notice (-2147483648) ++ [0]).length ≤ TMP_SIZE ∧
      (drop_notice (-2147483648) ++ [0]).length ≤ 53 ∧
      0 ∉ drop_notice (-2147483648) ∧
      ((-2147483648 : Int) ≠ 0 →
        ∃ block, (devlog_full_init true true { exampleEarly with dropped := -2147483648 }
            exampleState).log_buf = some block ∧
          (devlog_full_init true true { exampleEarly with dropped := -2147483648 }
            exampleState).log_len = 2 + (drop_notice (-2147483648)).length + 160 ∧
          2 + (drop_notice (-2147483648) ++ [0]).length ≤
            (devlog_full_init true true { exampleEarly with dropped := -2147483648 }
              exampleState).log_len ∧
          block.length = (devlog_full_init true true { exampleEarly with dropped := -2147483648 }
            exampleState).log_len) :=
  drop_notice_fits { exampleEarly with dropped := -2147483648 } exampleState (by decide)
    (by decide)

end Standalone

theorem put_not_full_explicit (r : ringbuf_t) (c : Byte) (h : r.WF) (hlt : r.active < r.size) :
    r.put c = some { r with buffer := r.buffer.set r.end_ c,
                            end_ := (r.end_ + 1) % r.size,
                            active := r.active + 1 } := by
  simp [ringbuf_t.put, Nat.pos_iff_ne_zero.mp h.1, hlt]

theorem runOps_append : ∀ (xs ys : List RingOp) (rb rb1 : Option ringbuf_t),
    runOps rb xs = some rb1 → runOps rb (xs ++ ys) = runOps rb1 ys := by
  intro xs
  induction xs with
  | nil => intro ys rb rb1 h; cases h; rfl
  | cons x rest ih =>
    intro ys rb rb1 h
    rw [List.cons_append]
    simp only [runOps] at h ⊢
    cases hx : x.apply rb with
    | none => rw [hx] at h; cases h
    | some rb2 => rw [hx] at h; simp only; exact ih ys rb2 rb1 h

/-- A sequence of `rb_put` on a consistent ring keeps the most recent bytes. -/
theorem runOps_puts : ∀ (bs : List Byte) (r : ringbuf_t), r.WF →
    ∃ rf, runOps (some r) (bs.map RingOp.put) = some (some rf) ∧ rf.WF ∧ rf.size = r.size ∧
      rf.contents = lastN r.size (r.contents ++ bs) := by
  intro bs
  induction bs with
  | nil =>
    intro r h
    refine ⟨r, rfl, h, rfl, ?_⟩
    rw [List.append_nil, lastN_of_le]
    rw [contents_length]; exact h.2.2.1
  | cons b rest ih =>
    intro r h
    obtain ⟨r1, p1, p2, p3, p4⟩ := put_contents r b h
    obtain ⟨rf, e, w, s, ct⟩ := ih r1 p2
    refine ⟨rf, ?_, w, by rw [s, p3], ?_⟩
    · simp only [List.map_cons, runOps, RingOp.apply, rb_put, p1, Option.map_some']
      exact e
    · rw [ct, p4, p3, lastN_append_lastN]
      simp

theorem lastN_append_full (q bs : List Byte) : lastN bs.length (q ++ bs) = bs := by
  simp [lastN]

/-- C19: for every ring created with capacity `c > 0`, after any sequence `ops` of `rb_put`,
`rb_get` and `rb_get_all` (clear or not) every call was defined and `active <= c`,
`start < c` and `end < c` (all three are naturals).  A further `rb_put` is defined; on a
ring that is not full it stores the byte at `end` and counts it, leaving `start`; on a full
ring (`active = c`) it keeps `active = c`, overwrites the oldest byte (the one at index
`start`) and advances `start` by one modulo `c`, so that the retained bytes lose the oldest
and gain the new one.  The full state is reached: `c` further `rb_put` after `ops` leave a
full ring that retains exactly the `c` bytes put. -/
theorem ring_invariant (c : Nat) (hc : 0 < c) (r0 : ringbuf_t)
    (h0 : r0.start = 0 ∧ r0.end_ = 0 ∧ r0.active = 0 ∧ r0.size = c ∧ r0.buffer.length = c)
    (ops : List RingOp) :
    ∃ r, runOps (some r0) ops = some (some r) ∧ r.size = c ∧ r.active ≤ c ∧ r.start < c ∧
      r.end_ < c ∧ r.buffer.length = c ∧
      (∀ b, ∃ r1, rb_put (some r) b = some (some r1) ∧ r1.size = c ∧
        (r.active < c → r1.active = r.active + 1 ∧ r1.start = r.start ∧
          r1.buffer = r.buffer.set r.end_ b ∧ r1.contents = r.contents ++ [b]) ∧
        (r.active = c → r1.active = c ∧ r1.start = (r.start + 1) % c ∧
          r1.buffer = r.buffer.set r.start b ∧
          r.contents.head? = some (r.buffer.getD r.start 0) ∧
          r1.contents = r.contents.tail ++ [b])) ∧
      (∀ bs : List Byte, bs.length = c →
        ∃ rf, runOps (some r0) (ops ++ bs.map RingOp.put) = some (some rf) ∧ rf.size = c ∧
          rf.active = c ∧ rf.contents = bs) := by
  obtain ⟨hwf0, -⟩ := empty_ring_wf r0 c hc h0
  obtain ⟨r, e, hwf, hsz⟩ := runOps_wf ops r0 hwf0
  have hsize : r.size = c := by rw [hsz]; exact h0.2.2.2.1
  have hwf' := hwf
  obtain ⟨w0, w1, w2, w3, w4⟩ := hwf
  refine ⟨r, e, hsize, by omega, by omega, ?_, by omega, ?_, ?_⟩
  · rw [w4, ← hsize]; exact Nat.mod_lt _ w0
  · intro b
    by_cases hlt : r.active < r.size
    · obtain ⟨r1, p1, -, -, p4⟩ := put_not_full r b hwf' hlt
      have p2 := put_not_full_explicit r b hwf' hlt
      rw [p1] at p2
      have p3 : r1 = _ := Option.some.inj p2
      refine ⟨r1, by simp [rb_put, p1], by rw [p3]; exact hsize, ?_, ?_⟩
      · intro _
        exact ⟨by rw [p3], by rw [p3], by rw [p3], p4⟩
      · intro hfull
        omega
    · have hfull' : r.active = r.size := by omega
      obtain ⟨r1, p1, -, -, p4⟩ := put_full r b hwf' hfull'
      have p2 := put_full_explicit r b hwf' hfull'
      rw [p1] at p2
      have p3 : r1 = _ := Option.some.inj p2
      refine ⟨r1, by simp [rb_put, p1], by rw [p3]; exact hsize, ?_, ?_⟩
      · intro h
        omega
      · intro hfull
        refine ⟨by rw [p3]; exact hfull, by rw [p3, ← hsize], by rw [p3], ?_, p4⟩
        obtain ⟨k, hk⟩ : ∃ k, r.active = k + 1 := ⟨r.active - 1, by omega⟩
        simp only [ringbuf_t.contents, hk, List.range_succ_eq_map, List.map_cons,
          List.head?_cons, ringbuf_t.at, Nat.add_zero, Nat.mod_eq_of_lt w1]
  · intro bs hbs
    obtain ⟨rf, ef, wf, sf, cf⟩ := runOps_puts bs r hwf'
    have hct : rf.contents = bs := by
      rw [cf, hsize, ← hbs, lastN_append_full]
    refine ⟨rf, ?_, by rw [sf, hsize], ?_, hct⟩
    · rw [runOps_append ops _ _ _ e]; exact ef
    · rw [← contents_length, hct, hbs]

/-- Witness of C19: a ring of capacity 4 after five `rb_put` ("ABCDE") is full, with the
oldest byte 'B' at index 1 and 'E' at index 0; a further `rb_put` of 'F' keeps it full,
overwrites 'B', moves `start` to 2 and leaves "CDEF". -/
theorem ring_invariant_witness :
    ∃ r, runOps (some exampleRing4)
        [RingOp.put 65, RingOp.put 66, RingOp.put 67, RingOp.put 68, RingOp.put 69] =
        some (some r) ∧ r.active = 4 ∧ r.start = 1 ∧ r.buffer = [69, 66, 67, 68] ∧
      r.contents = [66, 67, 68, 69] ∧
      ∃ r1, rb_put (some r) 70 = some (some r1) ∧ r1.active = 4 ∧ r1.start = 2 ∧
        r1.buffer = [69, 70, 67, 68] ∧ r1.contents = [67, 68, 69, 70] := by
  obtain ⟨r, e, -, -, -, -, -, hput, -⟩ := ring_invariant 4 (by decide) exampleRing4 (by decide)
    [RingOp.put 65, RingOp.put 66, RingOp.put 67, RingOp.put 68, RingOp.put 69]
  have hc : runOps (some exampleRing4)
      [RingOp.put 65, RingOp.put 66, RingOp.put 67, RingOp.put 68, RingOp.put 69] =
      some (some ⟨1, 1, 4, 4, [69, 66, 67, 68]⟩) := by decide
  rw [hc] at e
  have hr : r = ⟨1, 1, 4, 4, [69, 66, 67, 68]⟩ := (Option.some.inj (Option.some.inj e)).symm
  subst hr
  obtain ⟨r1, p1, -, -, p3⟩ := hput 70
  obtain ⟨q1, q2, q3, -, q5⟩ := p3 rfl
  exact ⟨_, hc, rfl, rfl, rfl, by decide, r1, p1, q1, q2, q3, q5⟩


theorem advance_steps_self (c : Conc) (t : Bool) (rest : List LockStep) (o : Option Bool)
    (s : State) : (c.advance t rest o s).steps t = rest := by
  cases t <;> rfl

theorem advance_steps_other (c : Conc) (t : Bool) (rest : List LockStep) (o : Option Bool)
    (s : State) : (c.advance t rest o s).steps (!t) = c.steps (!t) := by
  cases t <;> rfl

theorem advance_owner (c : Conc) (t : Bool) (rest : List LockStep) (o : Option Bool)
    (s : State) : (c.advance t rest o s).owner = o := by
  cases t <;> rfl

theorem advance_st (c : Conc) (t : Bool) (rest : List LockStep) (o : Option Bool)
    (s : State) : (c.advance t rest o s).st = s := by
  cases t <;> rfl

theorem finished_steps (c : Conc) (h : c.finished = true) (t : Bool) : c.steps t = [] := by
  simp only [Conc.finished, Bool.and_eq_true, List.isEmpty_iff] at h
  cases t
  · exact h.1
  · exact h.2

theorem finished_of_steps (c : Conc) (h1 : c.steps false = []) (h2 : c.steps true = []) :
    c.finished = true := by
  simp only [Conc.finished, Bool.and_eq_true, List.isEmpty_iff]
  exact ⟨h1, h2⟩

theorem step_done (c : Conc) (t : Bool) (h : c.steps t = []) : c.step t = some c := by
  simp only [Conc.step, h]

theorem step_acquire_free (c : Conc) (t : Bool) (rest : List LockStep)
    (h : c.steps t = LockStep.acquire :: rest) (ho : c.owner = none) :
    c.step t = some (c.advance t rest (some t) c.st) := by
  simp only [Conc.step, h, ho]

theorem step_putc (c : Conc) (t : Bool) (al : Alloc) (ch : Byte) (rest : List LockStep)
    (h : c.steps t = LockStep.putc al ch :: rest) :
    c.step t = (Component.devlog_putc al c.st ch).map (fun s => c.advance t rest c.owner s) := by
  simp only [Conc.step, h]
  cases Component.devlog_putc al c.st ch <;> rfl

theorem step_release (c : Conc) (t : Bool) (rest : List LockStep)
    (h : c.steps t = LockStep.release :: rest) :
    c.step t = some (c.advance t rest none c.st) := by
  simp only [Conc.step, h]

theorem run_cons_some (c c1 : Conc) (t : Bool) (sch : List Bool) (h : c.step t = some c1) :
    c.run (t :: sch) = c1.run sch := by
  simp only [Conc.run, h]

theorem run_cons_none (c : Conc) (t : Bool) (sch : List Bool) (h : c.step t = none) :
    c.run (t :: sch) = none := by
  simp only [Conc.run, h]

/-- Once both writers have finished, scheduling changes nothing. -/
theorem run_finished : ∀ (sch : List Bool) (c : Conc), c.finished = true → c.run sch = some c := by
  intro sch
  induction sch with
  | nil => intro c _; rfl
  | cons t sch ih =>
    intro c h
    rw [run_cons_some c c t sch (step_done c t (finished_steps c h t))]
    exact ih c h

theorem bool_eq_not_of_ne (a b : Bool) (h : a ≠ b) : a = !b := by
  cases a <;> cases b <;> simp_all

/-- The critical section of writer `t` while the other writer has finished: whatever the
schedule, when both have finished the lock is free and the statics are those after the
remaining bytes were ingested in order. -/
theorem cs_last : ∀ (sch : List Bool) (rem : List (Alloc × Byte)) (c : Conc) (t : Bool),
    c.owner = some t →
    c.steps t = rem.map (fun x => LockStep.putc x.1 x.2) ++ [LockStep.release] →
    c.steps (!t) = [] → ∀ cf, c.run sch = some cf → cf.finished = true →
    cf.owner = none ∧ some cf.st = Component.ingest c.st rem := by
  intro sch
  induction sch with
  | nil =>
    intro rem c t ho hs hu cf hrun hfin
    cases hrun
    have := finished_steps c hfin t
    rw [hs] at this
    simp at this
  | cons t' sch ih =>
    intro rem c t ho hs hu cf hrun hfin
    by_cases ht : t' = t
    · subst ht
      cases rem with
      | nil =>
        have hs' : c.steps t' = LockStep.release :: [] := hs
        rw [run_cons_some _ _ _ _ (step_release c t' [] hs')] at hrun
        have hf : (c.advance t' [] none c.st).finished = true := by
          cases t'
          · exact finished_of_steps _ rfl hu
          · exact finished_of_steps _ hu rfl
        rw [run_finished sch _ hf] at hrun
        cases hrun
        exact ⟨advance_owner _ _ _ _ _, by rw [advance_st]; rfl⟩
      | cons x rem' =>
        have hs' : c.steps t' = LockStep.putc x.1 x.2 ::
            (rem'.map (fun x => LockStep.putc x.1 x.2) ++ [LockStep.release]) := hs
        cases hp : Component.devlog_putc x.1 c.st x.2 with
        | none =>
          rw [run_cons_none _ _ _ (by rw [step_putc c t' _ _ _ hs', hp]; rfl)] at hrun
          cases hrun
        | some s =>
          rw [run_cons_some _ _ _ _ (by rw [step_putc c t' _ _ _ hs', hp]; rfl)] at hrun
          have := ih rem' (c.advance t' _ c.owner s) t' (by rw [advance_owner]; exact ho)
            (advance_steps_self _ _ _ _ _) (by rw [advance_steps_other]; exact hu) cf hrun hfin
          rw [advance_st] at this
          refine ⟨this.1, ?_⟩
          rw [this.2]
          simp only [Component.ingest, hp]
    · have ht' : t' = !t := bool_eq_not_of_ne _ _ ht
      subst ht'
      rw [run_cons_some _ _ _ _ (step_done c _ hu)] at hrun
      exact ih rem c t ho hs hu cf hrun hfin

/-- Writer `t` has finished, the lock is free and the other writer has not started its
`devlog_vfs_write`: when both have finished the statics are those after its buffer was
ingested in order. -/
theorem cs_wait : ∀ (sch : List Bool) (d : List (Alloc × Byte)) (c : Conc) (t : Bool),
    c.owner = none → c.steps t = [] → c.steps (!t) = Component.devlog_vfs_write_steps d →
    ∀ cf, c.run sch = some cf → cf.finished = true →
    cf.owner = none ∧ some cf.st = Component.ingest c.st d := by
  intro sch
  induction sch with
  | nil =>
    intro d c t ho hs hu cf hrun hfin
    cases hrun
    have := finished_steps c hfin (!t)
    rw [hu] at this
    simp [Component.devlog_vfs_write_steps] at this
  | cons t' sch ih =>
    intro d c t ho hs hu cf hrun hfin
    by_cases ht : t' = t
    · subst ht
      rw [run_cons_some _ _ _ _ (step_done c _ hs)] at hrun
      exact ih d c t' ho hs hu cf hrun hfin
    · have ht' : t' = !t := bool_eq_not_of_ne _ _ ht
      subst ht'
      rw [run_cons_some _ _ _ _ (step_acquire_free c (!t) _ hu ho)] at hrun
      have := cs_last sch d (c.advance (!t) _ (some (!t)) c.st) (!t) (advance_owner _ _ _ _ _)
        (advance_steps_self _ _ _ _ _)
        (by rw [advance_steps_other, Bool.not_not]; exact hs) cf hrun hfin
      rw [advance_st] at this
      exact this

/-- The step model agrees with the function `devlog_vfs_write`: a writer that runs its
steps while the other writer has nothing to do leaves the statics that
`Component.devlog_vfs_write` returns with the lock acquired. -/
theorem vfs_write_steps_alone (ss : Streams) (w : Nat) (fd : Int) (hfd : fd = 1 ∨ fd = 2)
    (data : List (Alloc × Byte)) (c : Conc) (t : Bool) (ho : c.owner = none)
    (hs : c.steps t = []) (hu : c.steps (!t) = Component.devlog_vfs_write_steps data)
    (sch : List Bool) (cf : Conc) (hrun : c.run sch = some cf) (hfin : cf.finished = true) :
    some cf.st = (Component.devlog_vfs_write ss true w c.st fd data).map (fun r => r.2.2.1) := by
  rw [vfs_write_state ss w c.st fd data hfd]
  exact (cs_wait sch data c t ho hs hu cf hrun hfin).2

end Devlog
